import Mathlib

/-!
# Nautilus: file-name utilities, common prefixes and the move engine

A verification development over a shallow embedding of

* `src/nautilus-filename-utilities.c` (`nautilus_filename_shorten_base`),
* `eel/eel-string.c` (`eel_str_get_common_prefix`),
* the recursive move engine behind `nautilus_file_operations_move_sync`.

Definitions come first, theorems follow.
-/

namespace Nautilus

/-! ## Machine integers and C strings -/

/-- Modulus of `size_t` arithmetic (64-bit `unsigned long`). -/
def SIZE_MOD : Nat := 2 ^ 64

/-- Subtraction of two `size_t` values: the result wraps around modulo `SIZE_MOD`. -/
def size_sub (a b : Nat) : Nat := (a % SIZE_MOD + SIZE_MOD - b % SIZE_MOD) % SIZE_MOD

/-- Addition of two `size_t` values: the result wraps around modulo `SIZE_MOD`. -/
def size_add (a b : Nat) : Nat := (a + b) % SIZE_MOD

/-- A C string is represented by its bytes before the terminating NUL; each byte
is a number in `1 .. 255`. -/
abbrev CString := List Nat

/-- The bytes of a C string are non-zero and fit in an `unsigned char`. -/
def is_c_string (s : CString) : Prop := ∀ b ∈ s, 0 < b ∧ b < 256

instance (s : CString) : Decidable (is_c_string s) := by
  unfold is_c_string; infer_instance

/-- The memory block that holds a C string: its bytes and the terminating NUL. -/
def c_block (s : CString) : List Nat := s ++ [0]

/-- Result of `strlen`: the number of bytes before the terminating NUL. -/
def strlen (s : CString) : Nat := s.length

/-- The bytes of a block before its first NUL, or all its bytes when it holds no NUL. For
a block with a NUL this is the string a reader finds in it; for a block without NUL a
reader in C does not stop at the end of the block, see `strlen_in_block`. -/
def block_string (blk : List Nat) : List Nat := blk.takeWhile (fun b => b ≠ 0)

/-- Result of `strlen` on a pointer to the first byte of the memory block `blk`: the number
of bytes before the first NUL of the block; `none` when the block holds no NUL, the case
in which `strlen` reads past the end of the block (undefined behaviour). -/
def strlen_in_block : List Nat → Option Nat
  | [] => none
  | c :: cs => if c = 0 then some 0 else (strlen_in_block cs).map (fun n => n + 1)

/-! ## GLib primitives used by `nautilus_filename_shorten_base` -/

/-- The test `(*p & 0xc0) != 0x80` of GLib: the byte is not a UTF-8 continuation byte. -/
def is_char_start (b : Nat) : Bool := b &&& 0xC0 != 0x80

/-- `g_utf8_find_prev_char (str, p)`, with `p` given as an offset from `str`:
steps back from `p` to the nearest byte that is not a continuation byte and
returns its offset; `none` is the `NULL` it returns when it reaches `str`
without finding one. -/
def g_utf8_find_prev_char (str : CString) : Nat → Option Nat
  | 0 => none
  | p + 1 => if is_char_start (str.getD p 0) then some p else g_utf8_find_prev_char str p

/-- `g_new0 (char, n)`: a fresh block of `n` zero bytes. -/
def g_new0 (n : Nat) : List Nat := List.replicate n 0

/-- The bytes `strncpy (dst, src, n)` stores: the first `n` bytes of the source
memory `src`, where everything after a NUL is replaced by NUL padding. `none`
when the source memory ends before a NUL or `n` bytes were read (a read outside
the source block). -/
def strncpy_bytes : List Nat → Nat → Option (List Nat)
  | _, 0 => some []
  | [], _ + 1 => none
  | c :: cs, n + 1 =>
    if c = 0 then some (List.replicate (n + 1) 0)
    else (strncpy_bytes cs n).map (fun r => c :: r)

/-- Store `bytes` into the block `dst` at offset `off`; `none` when the store
does not fit the block (a write outside the allocation). -/
def store_at (dst : List Nat) (off : Nat) (bytes : List Nat) : Option (List Nat) :=
  if off + bytes.length ≤ dst.length then
    some (dst.take off ++ bytes ++ dst.drop (off + bytes.length))
  else none

/-- `strncpy (dst + off, src, n)` on blocks. -/
def strncpy (dst : List Nat) (off : Nat) (src : List Nat) (n : Nat) : Option (List Nat) :=
  (strncpy_bytes src n).bind (fun bytes => store_at dst off bytes)

/-! ## `nautilus_filename_shorten_base` -/

/-- The `do ... while (reduce_pos - base > reduced_length)` loop of
`nautilus_filename_shorten_base`. `reduce_pos` is the offset of the pointer from
`base`. `none` when `g_utf8_find_prev_char` returns `NULL` (the pointer
difference is then undefined) or when the fuel runs out. -/
def shorten_search (base : CString) (reduced_length : Nat) : Nat → Nat → Option Nat
  | 0, _ => none
  | fuel + 1, reduce_pos =>
    match g_utf8_find_prev_char base reduce_pos with
    | none => none
    | some q =>
      if q > reduced_length then shorten_search base reduced_length fuel q
      else some q

/-- `nautilus_filename_shorten_base (&filename, base, max_length)`.

`filename` and `base` are the strings passed in. The result is the returned
`gboolean` together with the memory block `*filename` points to afterwards
(for `FALSE` the untouched block of the old string, for `TRUE` the block
allocated with `g_new0`). `none` stands for undefined behaviour. `max_length`
is only converted to `size_t` after the test `max_length <= 0`, so the
conversion is `Int.toNat`. -/
def nautilus_filename_shorten_base (filename base : CString) (max_length : Int) :
    Option (Bool × List Nat) :=
  let filename_length := strlen filename
  if max_length ≤ 0 ∨ filename_length ≤ max_length.toNat then
    some (false, c_block filename)
  else
    let base_length := strlen base
    let suffix_length := size_sub filename_length base_length
    let reduce_by_num_bytes := size_sub filename_length max_length.toNat
    let reduced_length := size_sub base_length reduce_by_num_bytes
    if reduce_by_num_bytes > base_length then
      some (false, c_block filename)
    else
      match shorten_search base reduced_length (base_length + 1) base_length with
      | none => none
      | some reduce_pos =>
        let reduced_length := reduce_pos
        let new_filename := g_new0 (size_add suffix_length reduced_length)
        (strncpy new_filename 0 (c_block base) reduced_length).bind fun m1 =>
        (strncpy m1 reduced_length ((c_block filename).drop base_length) suffix_length).map
          fun m2 => (true, m2)

/-- Number of bytes of the UTF-8 sequence that the lead byte `b0` starts; `0`
for a byte that cannot start a character (a continuation byte, `0xC0`, `0xC1`,
or a byte above `0xF4`). -/
def utf8_seq_len (b0 : Nat) : Nat :=
  if b0 < 0x80 then 1
  else if 0xC2 ≤ b0 ∧ b0 ≤ 0xDF then 2
  else if 0xE0 ≤ b0 ∧ b0 ≤ 0xEF then 3
  else if 0xF0 ≤ b0 ∧ b0 ≤ 0xF4 then 4
  else 0

/-- A UTF-8 continuation byte, `0x80 .. 0xBF`. -/
def utf8_is_cont (b : Nat) : Bool := 0x80 ≤ b ∧ b ≤ 0xBF

/-- The second byte of a sequence fits its lead byte `b0`: a continuation byte
that does not give an overlong form, a surrogate or a value above U+10FFFF. -/
def utf8_second_ok (b0 b1 : Nat) : Bool :=
  (if b0 = 0xE0 then 0xA0 else if b0 = 0xF0 then 0x90 else 0x80) ≤ b1 ∧
    b1 ≤ (if b0 = 0xED then 0x9F else if b0 = 0xF4 then 0x8F else 0xBF)

/-- Check for well-formed UTF-8 (as `g_utf8_validate` does): every character is a
lead byte followed by the right number of continuation bytes, without overlong
forms, surrogates or values above U+10FFFF. -/
def utf8_valid : List Nat → Bool
  | [] => true
  | b0 :: rest =>
    match utf8_seq_len b0, rest with
    | 1, r => utf8_valid r
    | 2, b1 :: r => utf8_second_ok b0 b1 && utf8_valid r
    | 3, b1 :: b2 :: r => utf8_second_ok b0 b1 && utf8_is_cont b2 && utf8_valid r
    | 4, b1 :: b2 :: b3 :: r =>
      utf8_second_ok b0 b1 && utf8_is_cont b2 && utf8_is_cont b3 && utf8_valid r
    | _, _ => false

/-! ## `eel_str_get_common_prefix`

A valid UTF-8 string is represented by the sequence of its Unicode code points
(`gunichar` values); the GLib primitives below are given by what they compute
on such a string. -/

/-- A valid UTF-8 string: its code points, in order, before the terminating NUL. -/
abbrev UString := List Nat

/-- Conversion of a `glong` to `int`: the low 32 bits in two's complement. -/
def to_int (n : Int) : Int := (n + 2 ^ 31) % 2 ^ 32 - 2 ^ 31

/-- `g_utf8_strlen (str, -1)`: the number of characters of the string. -/
def g_utf8_strlen (str : UString) : Int := str.length

/-- `g_utf8_get_char (p)`: the character at `p`; at the end of the string this
is the terminating NUL. -/
def g_utf8_get_char (p : UString) : Nat := p.headD 0

/-- `g_utf8_next_char (p)`: the string from the next character on. -/
def g_utf8_next_char (p : UString) : UString := p.tail

/-- `g_utf8_substring (str, start_pos, end_pos)`: the characters from position
`start_pos` up to, not including, position `end_pos`. -/
def g_utf8_substring (str : UString) (start_pos end_pos : Int) : UString :=
  (str.drop start_pos.toNat).take (end_pos.toNat - start_pos.toNat)

/-- The `while (matching_chars < intersection_len)` loop of
`get_common_prefix_length`; the first argument is the number
`intersection_len - matching_chars` of iterations the loop guard still allows. -/
def common_prefix_loop : Nat → Int → UString → UString → Int
  | 0, matching_chars, _, _ => matching_chars
  | remaining + 1, matching_chars, a, b =>
    if g_utf8_get_char a ≠ g_utf8_get_char b then matching_chars
    else common_prefix_loop remaining (matching_chars + 1) (g_utf8_next_char a) (g_utf8_next_char b)

/-- `get_common_prefix_length (str_a, str_b, min_required_len)`. -/
def get_common_prefix_length (str_a str_b : UString) (min_required_len : Int) : Int :=
  let a_len := to_int (g_utf8_strlen str_a)
  let b_len := to_int (g_utf8_strlen str_b)
  let intersection_len := min a_len b_len
  if intersection_len < min_required_len then -1
  else
    let matching_chars := common_prefix_loop (intersection_len - 0).toNat 0 str_a str_b
    if matching_chars < min_required_len then -1
    else matching_chars

/-- The `for` loop of `eel_str_get_common_prefix` from the second list element
on; `common_part` is the prefix kept so far. `none` when the loop returns `NULL`. -/
def common_prefix_for (min_required_len : Int) : List (Option UString) → UString → Option UString
  | [], common_part => some common_part
  | none :: _, _ => none
  | some name :: l, common_part =>
    let matching_chars := get_common_prefix_length common_part name min_required_len
    if matching_chars = -1 then none
    else common_prefix_for min_required_len l (g_utf8_substring common_part 0 matching_chars)

/-- `eel_str_get_common_prefix (strs, min_required_len)`. A list element `none`
is a `NULL` string; the result `none` is `NULL`. -/
def eel_str_get_common_prefix (strs : List (Option UString)) (min_required_len : Int) :
    Option UString :=
  match strs with
  | [] => none
  | none :: _ => none
  | some name :: rest =>
    match common_prefix_for min_required_len rest name with
    | none => none
    | some common_part =>
      let matching_chars := to_int (g_utf8_strlen common_part)
      if matching_chars < min_required_len then none
      else some common_part

/-- A string `p` is a longest common prefix of `strs`: it is a prefix of every
string of the list, and no common prefix of the list is longer. -/
def is_longest_common_prefix (p : UString) (strs : List UString) : Prop :=
  (∀ s ∈ strs, p <+: s) ∧ ∀ q : UString, (∀ s ∈ strs, q <+: s) → q.length ≤ p.length

/-- The common prefix of two strings, character by character. -/
def common_prefix2 : UString → UString → UString
  | a :: as, b :: bs => if a = b then a :: common_prefix2 as bs else []
  | _, _ => []

/-- The code points of an ASCII string literal (equal to its bytes). -/
def ascii (s : String) : List Nat := s.data.map Char.toNat

/-! ## The recursive move engine

`nautilus_file_operations_move_sync` and the undo manager live in
`src/nautilus-file-operations.c` and `src/nautilus-file-undo-manager.c`, which
are not part of the sources at hand (only the test
`test-file-operations-move-files.c` that calls them is). The engine is
therefore modelled from the design specification: sections 3 (data model),
4.1 (Transfer Planner), 4.2 (Conflict Resolver), 4.3 (Transfer Executor),
4.4 (Undo/Redo Manager), 6 (Filesystem Access Layer, synchronous entry point)
and 7 (error taxonomy). -/

/-- Modelled from the spec: the File Reference of section 3, missing with
`nautilus-file-operations.c`. A reference is its canonical location, the list
of path components below the root; it does not imply that the entry exists, and
two references are equal exactly when they denote the same location. -/
abbrev FileReference := List String

/-- Modelled from the spec: the metadata `stat` reports for an existing entry
(section 6): a regular file with its size in bytes, or a directory. -/
inductive Entry
  | File (size : Nat)
  | Directory
  deriving DecidableEq, Repr, Inhabited

/-- Modelled from the spec: the state behind the Filesystem Access Layer of
section 6: the existing entries, each under its location. The root `[]` is a
directory that always exists and is not listed. -/
abbrev FileSystem := List (FileReference × Entry)

/-- Modelled from the spec: the error taxonomy of section 7. -/
inductive ErrorKind
  | InvalidDestination
  | RecursiveMoveError
  | ConflictUnresolved
  | PermissionDenied
  | NotEnoughSpace
  | SourceVanished
  | TransientIoError
  | StaleUndoError
  | CrossFilesystemFallbackPartial
  deriving DecidableEq, Repr

/-- Modelled from the spec: part of the File Reference (section 3).
The directory that holds `ref`. -/
def parent_of (ref : FileReference) : FileReference := ref.dropLast

/-- Modelled from the spec: part of the File Reference (section 3).
The name of the entry `ref` inside its directory. -/
def entry_name (ref : FileReference) : String := ref.getLast?.getD ""

/-- Modelled from the spec: part of `stat` (section 6). Look `ref` up among the listed entries. -/
def lookup_entry : FileSystem → FileReference → Option Entry
  | [], _ => none
  | (p, e) :: rest, ref => if p = ref then some e else lookup_entry rest ref

/-- Modelled from the spec: `stat(ref) -> Metadata|NotFound` of the Filesystem
Access Layer (section 6); `none` is `NotFound`. -/
def stat (fs : FileSystem) (ref : FileReference) : Option Entry :=
  if ref = [] then some Entry.Directory else lookup_entry fs ref

/-- Modelled from the spec: the existence query the tests make through the
Filesystem Access Layer (section 6).
The query `g_file_query_exists` of the tests: the location holds an entry. -/
def file_exists (fs : FileSystem) (ref : FileReference) : Bool := (stat fs ref).isSome

/-- Modelled from the spec: part of `delete` and `rename` (section 6).
The entries of `fs` without the one at `ref`. -/
def remove_entry (fs : FileSystem) (ref : FileReference) : FileSystem :=
  fs.filter (fun x => decide (x.1 ≠ ref))

/-- Modelled from the spec: `list_children(ref) -> [ref]` of the Filesystem
Access Layer (section 6): the entries directly inside `ref`. -/
def list_children (fs : FileSystem) (ref : FileReference) : List FileReference :=
  (fs.filter (fun x => decide (x.1 ≠ [] ∧ parent_of x.1 = ref))).map (fun x => x.1)

/-- Modelled from the spec: `create_directory(ref)` of the Filesystem Access
Layer (section 6). It is refused when the location is occupied or when the
directory that should hold it does not exist. -/
def create_directory (fs : FileSystem) (ref : FileReference) : Except ErrorKind FileSystem :=
  if ref = [] then Except.error ErrorKind.PermissionDenied
  else if (stat fs ref).isSome then Except.error ErrorKind.PermissionDenied
  else if stat fs (parent_of ref) ≠ some Entry.Directory then
    Except.error ErrorKind.PermissionDenied
  else Except.ok ((ref, Entry.Directory) :: fs)

/-- Modelled from the spec: `rename(ref, ref)` of the Filesystem Access Layer
(section 6), as the engine uses it: it moves a regular file, replacing a
regular file that occupies the destination. Directories are never renamed by
the engine, the planner expands them into steps. -/
def rename (fs : FileSystem) (source destination : FileReference) : Except ErrorKind FileSystem :=
  match stat fs source with
  | none => Except.error ErrorKind.SourceVanished
  | some Entry.Directory => Except.error ErrorKind.PermissionDenied
  | some (Entry.File size) =>
    if destination = [] ∨ stat fs (parent_of destination) ≠ some Entry.Directory then
      Except.error ErrorKind.PermissionDenied
    else if stat fs destination = some Entry.Directory then
      Except.error ErrorKind.PermissionDenied
    else
      Except.ok ((destination, Entry.File size) ::
        remove_entry (remove_entry fs source) destination)

/-- Modelled from the spec: `open_read` followed by `open_write(ref, truncate)`
of the Filesystem Access Layer (section 6), as a CopyFile step uses them: the
destination receives the content of the source. -/
def copy_file (fs : FileSystem) (source destination : FileReference) : Except ErrorKind FileSystem :=
  match stat fs source with
  | none => Except.error ErrorKind.SourceVanished
  | some Entry.Directory => Except.error ErrorKind.PermissionDenied
  | some (Entry.File size) =>
    if destination = [] ∨ stat fs (parent_of destination) ≠ some Entry.Directory then
      Except.error ErrorKind.PermissionDenied
    else if stat fs destination = some Entry.Directory then
      Except.error ErrorKind.PermissionDenied
    else
      Except.ok ((destination, Entry.File size) :: remove_entry fs destination)

/-- Modelled from the spec: `delete(ref)` of the Filesystem Access Layer
(section 6). A directory is only deleted when it is empty. -/
def delete (fs : FileSystem) (ref : FileReference) : Except ErrorKind FileSystem :=
  if ref = [] then Except.error ErrorKind.PermissionDenied
  else
    match stat fs ref with
    | none => Except.error ErrorKind.SourceVanished
    | some _ =>
      if list_children fs ref ≠ [] then Except.error ErrorKind.PermissionDenied
      else Except.ok (remove_entry fs ref)

/-- Modelled from the spec: the `kind` of a Transfer Step (section 3). -/
inductive StepKind
  | MakeDirectory
  | CopyFile
  | MoveFile
  | DeleteEntry
  | SetMetadata
  deriving DecidableEq, Repr

/-- Modelled from the spec: a Transfer Step (section 3) with its `kind`,
`source` (optional for MakeDirectory), `destination` and `size_hint`. The
`depends_on` relation is implicit in the order of the plan. A DeleteEntry step
removes its `source`; its `destination` is where the entry went. -/
structure TransferStep where
  kind : StepKind
  source : Option FileReference
  destination : FileReference
  size_hint : Nat
  deriving DecidableEq, Repr

/-- Modelled from the spec: a Transfer Plan (section 3), an ordered sequence of
Transfer Steps. -/
abbrev TransferPlan := List TransferStep

/-- Modelled from the spec: the strategy handed to the planner (section 4.1). -/
inductive TransferMode
  | Copy
  | Move
  deriving DecidableEq, Repr

/-- Modelled from the spec: a Conflict Decision (section 3). -/
inductive ConflictDecision
  | Skip
  | Overwrite
  | OverwriteAll
  | Rename (new_name : String)
  | Merge
  | Cancel
  deriving DecidableEq, Repr

/-- Modelled from the spec: the errors of planning (sections 4.1, 4.2 and 7).
`ProbeLimitExceeded` is the `PlanError` of a Rename that finds no free name,
`Cancelled` the decision Cancel taken while planning. -/
inductive PlanError
  | InvalidDestination
  | RecursiveMoveError
  | ConflictUnresolved
  | SourceVanished
  | ProbeLimitExceeded
  | Cancelled
  deriving DecidableEq, Repr

/-- Modelled from the spec: the conflict policy a caller passes to the
synchronous entry point (sections 4.2 and 6). `strict` is the strict mode for
a directory that meets a directory; `batch` is the total policy supplied up
front for the collisions that need an explicit decision, `none` when there is
none (a decision would need the interactive callback, which the synchronous
entry point does not have). -/
structure ConflictPolicy where
  strict : Bool
  batch : Option ConflictDecision
  deriving Repr

/-- Modelled from the spec: the bound on the number of names a Rename probes
(section 4.2, "bounded probe count"); the spec gives no number. -/
def MAX_RENAME_PROBES : Nat := 100

/-- Modelled from the spec: the probing of a Rename (section 4.2): the names
`"name (n)"` are tried for `n = first, first + 1, ...` until one is free in
the directory `dir`; `none` after `probes` occupied names. -/
def probe_name (fs : FileSystem) (dir : FileReference) (name : String) :
    Nat → Nat → Option String
  | 0, _ => none
  | probes + 1, n =>
    let candidate := name ++ " (" ++ toString n ++ ")"
    if stat fs (dir ++ [candidate]) = none then some candidate
    else probe_name fs dir name probes (n + 1)

/-- Modelled from the spec: part of the Conflict Resolver (section 4.2).
A Rename decision for the occupied `destination`. -/
def propose_rename (fs : FileSystem) (destination : FileReference) :
    Except PlanError ConflictDecision :=
  match probe_name fs (parent_of destination) (entry_name destination) MAX_RENAME_PROBES 1 with
  | none => Except.error PlanError.ProbeLimitExceeded
  | some new_name => Except.ok (ConflictDecision.Rename new_name)

/-- Modelled from the spec: `resolve(destination, source_kind, existing_kind)`
of the Conflict Resolver (section 4.2). A directory that meets a directory is
merged, or renamed in strict mode. Every other collision takes the decision of
the batch policy; it is never merged silently, and without a batch policy it
stays unresolved. -/
def resolve (fs : FileSystem) (policy : ConflictPolicy) (destination : FileReference)
    (source_kind existing_kind : Entry) : Except PlanError ConflictDecision :=
  if source_kind = Entry.Directory ∧ existing_kind = Entry.Directory then
    if policy.strict then propose_rename fs destination
    else Except.ok ConflictDecision.Merge
  else
    match policy.batch with
    | none => Except.error PlanError.ConflictUnresolved
    | some ConflictDecision.Merge => Except.error PlanError.ConflictUnresolved
    | some (ConflictDecision.Rename _) => propose_rename fs destination
    | some decision => Except.ok decision

/-- Modelled from the spec: the small fixed weight a directory contributes to
the size estimate (section 4.1); the spec gives no number. -/
def DIRECTORY_WEIGHT : Nat := 1

/-- Modelled from the spec: part of the Transfer Planner (section 4.1).
The single step the planner generates for a regular file (section 4.1):
CopyFile when copying, MoveFile when moving. -/
def file_step (mode : TransferMode) (source destination : FileReference) (size : Nat) :
    TransferStep :=
  { kind := match mode with
      | TransferMode.Copy => StepKind.CopyFile
      | TransferMode.Move => StepKind.MoveFile,
    source := some source, destination := destination, size_hint := size }

/-- Modelled from the spec: part of the Transfer Planner (section 4.1).
The MakeDirectory step for the directory `source` at its new location. -/
def make_directory_step (source destination : FileReference) : TransferStep :=
  { kind := StepKind.MakeDirectory, source := some source, destination := destination,
    size_hint := DIRECTORY_WEIGHT }

/-- Modelled from the spec: part of the Transfer Planner (sections 3 and 4.1).
The source cleanup of a moved directory: the DeleteEntry step that follows
the steps of everything inside it; nothing when copying. -/
def cleanup_steps (mode : TransferMode) (source destination : FileReference) : TransferPlan :=
  match mode with
  | TransferMode.Copy => []
  | TransferMode.Move =>
    [{ kind := StepKind.DeleteEntry, source := some source, destination := destination,
       size_hint := 0 }]

/-- Modelled from the spec: part of the Transfer Planner (section 4.1).
Plan the entries of a list one after the other and join their steps; the
first planning error aborts. -/
def plan_each (f : FileReference → Except PlanError TransferPlan) :
    List FileReference → Except PlanError TransferPlan
  | [] => Except.ok []
  | c :: cs =>
    match f c with
    | Except.error e => Except.error e
    | Except.ok steps =>
      match plan_each f cs with
      | Except.error e => Except.error e
      | Except.ok more => Except.ok (steps ++ more)

/-- Modelled from the spec: the expansion of one source by the Transfer Planner
(section 4.1). A file gives a single Copy/MoveFile step. A directory gives its
MakeDirectory step, then, depth-first, the steps of its children, then (when
moving) the DeleteEntry step that cleans up the source, so that a parent is
created before anything inside it. Every generated destination is checked at
plan time, and an occupied one is resolved by the Conflict Resolver right away:
Skip plans nothing for the entry, Overwrite and OverwriteAll keep the
destination, Rename replaces its name, Merge plans the children into the
existing directory, Cancel aborts the planning. The hint that a step may be
done by an atomic rename on the same volume is an optimisation without effect
on the result and is left out. The first argument bounds the depth of the
recursion; `plan` passes a bound no subtree exceeds. -/
def plan_entry (fs : FileSystem) (policy : ConflictPolicy) (mode : TransferMode) :
    Nat → FileReference → FileReference → Except PlanError TransferPlan
  | 0, _, _ => Except.ok []
  | fuel + 1, source, destination =>
    let children_into := fun (target : FileReference) =>
      plan_each (fun c => plan_entry fs policy mode fuel c (target ++ [entry_name c]))
        (list_children fs source)
    let directory_into := fun (target : FileReference) =>
      match children_into target with
      | Except.error e => Except.error e
      | Except.ok steps =>
        Except.ok (make_directory_step source target :: steps ++ cleanup_steps mode source target)
    match stat fs source with
    | none => Except.ok []
    | some (Entry.File size) =>
      match stat fs destination with
      | none => Except.ok [file_step mode source destination size]
      | some existing =>
        match resolve fs policy destination (Entry.File size) existing with
        | Except.error e => Except.error e
        | Except.ok ConflictDecision.Skip => Except.ok []
        | Except.ok ConflictDecision.Overwrite =>
          Except.ok [file_step mode source destination size]
        | Except.ok ConflictDecision.OverwriteAll =>
          Except.ok [file_step mode source destination size]
        | Except.ok (ConflictDecision.Rename new_name) =>
          Except.ok [file_step mode source (parent_of destination ++ [new_name]) size]
        | Except.ok ConflictDecision.Merge => Except.error PlanError.ConflictUnresolved
        | Except.ok ConflictDecision.Cancel => Except.error PlanError.Cancelled
    | some Entry.Directory =>
      match stat fs destination with
      | none => directory_into destination
      | some existing =>
        match resolve fs policy destination Entry.Directory existing with
        | Except.error e => Except.error e
        | Except.ok ConflictDecision.Skip => Except.ok []
        | Except.ok ConflictDecision.Overwrite => directory_into destination
        | Except.ok ConflictDecision.OverwriteAll => directory_into destination
        | Except.ok (ConflictDecision.Rename new_name) =>
          directory_into (parent_of destination ++ [new_name])
        | Except.ok ConflictDecision.Merge =>
          match children_into destination with
          | Except.error e => Except.error e
          | Except.ok steps => Except.ok (steps ++ cleanup_steps mode source destination)
        | Except.ok ConflictDecision.Cancel => Except.error PlanError.Cancelled

/-- Modelled from the spec: the depth bound of the Transfer Planner (section 4.1).
The length of the longest location listed in `fs`. -/
def max_depth : FileSystem → Nat
  | [] => 0
  | (p, _) :: rest => max p.length (max_depth rest)

/-- Modelled from the spec: the self-collision test of the Transfer Planner (section 4.1,
"moving a directory into a location that is a descendant of itself"): in a move, the source
is a directory and the destination is this directory or lies below it. -/
def moves_into_itself (fs : FileSystem) (mode : TransferMode) (destination_dir : FileReference)
    (source : FileReference) : Bool :=
  decide (mode = TransferMode.Move ∧ stat fs source = some Entry.Directory ∧
    source <+: destination_dir)

/-- Modelled from the spec: the validation of one source (section 4.1): the
source has to exist. -/
def check_source (fs : FileSystem) (source : FileReference) : Except PlanError Unit :=
  match stat fs source with
  | none => Except.error PlanError.SourceVanished
  | some _ => Except.ok ()

/-- Modelled from the spec: part of the Transfer Planner (section 4.1).
All sources pass `check_source`; the first error is reported. -/
def check_sources (fs : FileSystem) : List FileReference → Except PlanError Unit
  | [] => Except.ok ()
  | s :: rest =>
    match check_source fs s with
    | Except.error e => Except.error e
    | Except.ok _ => check_sources fs rest

/-- Modelled from the spec: `plan(sources, destination_dir, mode)` of the
Transfer Planner (section 4.1). A move of a directory into itself or below
itself fails fast with `RecursiveMoveError`, whatever else holds of the
arguments; the destination has to exist and be a directory
(`InvalidDestination`) and the sources have to exist; then every source is
expanded into the directory `destination_dir` under its own name. Planning
reads the filesystem and never changes it. -/
def plan (fs : FileSystem) (policy : ConflictPolicy) (sources : List FileReference)
    (destination_dir : FileReference) (mode : TransferMode) : Except PlanError TransferPlan :=
  if sources.any (moves_into_itself fs mode destination_dir) then
    Except.error PlanError.RecursiveMoveError
  else if stat fs destination_dir ≠ some Entry.Directory then
    Except.error PlanError.InvalidDestination
  else
    match check_sources fs sources with
    | Except.error e => Except.error e
    | Except.ok _ =>
      plan_each (fun s => plan_entry fs policy mode (max_depth fs + 1) s
        (destination_dir ++ [entry_name s])) sources

/-- Modelled from the spec: the deterministic size estimate of a plan (section
4.1): the sum of the size hints of its steps. -/
def plan_size (p : TransferPlan) : Nat := (p.map (fun s => s.size_hint)).sum

/-- Modelled from the spec: a Transfer Outcome, the result of one step
(section 3). -/
inductive TransferOutcome
  | Completed
  | Skipped
  | Failed (error_kind : ErrorKind)
  deriving DecidableEq, Repr

/-- Modelled from the spec: what the executor does with a persistent error
(section 4.3): abort the operation, or skip the step and continue. -/
inductive FailurePolicy
  | Abort
  | SkipAndContinue
  deriving DecidableEq, Repr

/-- Modelled from the spec: the filesystem action of one step (section 4.3),
carried out through the Filesystem Access Layer. SetMetadata changes no
location. There is one volume, so a MoveFile step never needs the fallback to
copy and delete. -/
def apply_step (fs : FileSystem) (step : TransferStep) : Except ErrorKind FileSystem :=
  match step.kind, step.source with
  | StepKind.MakeDirectory, _ => create_directory fs step.destination
  | StepKind.CopyFile, some source => copy_file fs source step.destination
  | StepKind.MoveFile, some source => rename fs source step.destination
  | StepKind.DeleteEntry, some source => delete fs source
  | StepKind.SetMetadata, _ => Except.ok fs
  | _, none => Except.error ErrorKind.SourceVanished

/-- Modelled from the spec: the retry of a transient error (section 4.3): a
single immediate retry. -/
def attempt_step (fs : FileSystem) (step : TransferStep) : Except ErrorKind FileSystem :=
  match apply_step fs step with
  | Except.error ErrorKind.TransientIoError => apply_step fs step
  | result => result

/-- Modelled from the spec: one entry of an Undo Record (section 3): the pair
(original location, new location) of a completed step, with the metadata needed
to invert it: the kind of the step and, for a deletion, what was deleted. -/
structure UndoEntry where
  step : TransferStep
  removed : Option Entry
  deriving DecidableEq, Repr

/-- Modelled from the spec: the outcome Skipped of section 3. The spec does not
say which steps are skipped; here it is the cleanup of a source directory that
still holds entries (one of them was kept back by a Skip decision or failed):
such a DeleteEntry step is not attempted and counts as skipped, not failed. -/
def cleanup_blocked (fs : FileSystem) (step : TransferStep) : Bool :=
  match step.kind, step.source with
  | StepKind.DeleteEntry, some source =>
    decide (stat fs source = some Entry.Directory ∧ list_children fs source ≠ [])
  | _, _ => false

/-- Modelled from the spec: part of the Undo Record (section 3).
What the entry of the Undo Record keeps about a deletion. -/
def removed_by (fs : FileSystem) (step : TransferStep) : Option Entry :=
  match step.kind, step.source with
  | StepKind.DeleteEntry, some source => stat fs source
  | _, _ => none

/-- Modelled from the spec: the cancellation flag of the Progress/Cancellation
Channel (section 5), a single monotonic flag: `cancel_at = some n` means that
the flag is seen set from step number `n` on, `none` that it is never set. -/
def is_cancelled (cancel_at : Option Nat) (index : Nat) : Bool :=
  match cancel_at with
  | some n => decide (n ≤ index)
  | none => false

/-- Modelled from the spec: the state of the Transfer Executor (section 4.3).
The result of running a plan: the final filesystem, the outcome of every
step that was attempted (in order), the entries of the Undo Record, and whether
the operation was cancelled. -/
structure Execution where
  fs : FileSystem
  outcomes : List (TransferStep × TransferOutcome)
  undo_entries : List UndoEntry
  cancelled : Bool
  deriving Repr

/-- Modelled from the spec: part of the Transfer Executor (section 4.3).
Put the outcome of a step in front of the outcomes of the steps after it. -/
def Execution.after (step : TransferStep) (outcome : TransferOutcome)
    (entry : List UndoEntry) (later : Execution) : Execution :=
  { fs := later.fs, outcomes := (step, outcome) :: later.outcomes,
    undo_entries := entry ++ later.undo_entries, cancelled := later.cancelled }

/-- Modelled from the spec: the loop of the Transfer Executor (section 4.3).
The steps are consumed in order. Before step number `index` the cancellation
flag is checked; a cancelled operation stops and rolls nothing back. A
completed step that changes the filesystem adds its entry to the Undo Record.
A failed step aborts the operation or is skipped, as the failure policy says. -/
def run_steps (on_failure : FailurePolicy) (cancel_at : Option Nat) :
    Nat → TransferPlan → FileSystem → Execution
  | _, [], fs => { fs := fs, outcomes := [], undo_entries := [], cancelled := false }
  | index, step :: rest, fs =>
    if is_cancelled cancel_at index then
      { fs := fs, outcomes := [], undo_entries := [], cancelled := true }
    else if cleanup_blocked fs step then
      Execution.after step TransferOutcome.Skipped []
        (run_steps on_failure cancel_at (index + 1) rest fs)
    else
      match attempt_step fs step with
      | Except.ok fs1 =>
        Execution.after step TransferOutcome.Completed
          (if step.kind = StepKind.SetMetadata then []
           else [{ step := step, removed := removed_by fs step }])
          (run_steps on_failure cancel_at (index + 1) rest fs1)
      | Except.error e =>
        match on_failure with
        | FailurePolicy.Abort =>
          { fs := fs, outcomes := [(step, TransferOutcome.Failed e)], undo_entries := [],
            cancelled := false }
        | FailurePolicy.SkipAndContinue =>
          Execution.after step (TransferOutcome.Failed e) []
            (run_steps on_failure cancel_at (index + 1) rest fs)

/-- Modelled from the spec: the Operation Result (section 3). -/
structure OperationResult where
  total_steps : Nat
  completed : Nat
  skipped : Nat
  failed : List (FileReference × ErrorKind)
  cancelled : Bool
  deriving DecidableEq, Repr

/-- Modelled from the spec: part of the Operation Result (section 3).
The failed entries of a run: location and error. -/
def failed_entries : List (TransferStep × TransferOutcome) → List (FileReference × ErrorKind)
  | [] => []
  | (step, TransferOutcome.Failed e) :: rest => (step.destination, e) :: failed_entries rest
  | _ :: rest => failed_entries rest

/-- Modelled from the spec: the aggregation into the Operation Result (section 3).
The Operation Result of a run of `p`. -/
def operation_result (p : TransferPlan) (run : Execution) : OperationResult :=
  { total_steps := p.length,
    completed := (run.outcomes.filter (fun o => decide (o.2 = TransferOutcome.Completed))).length,
    skipped := (run.outcomes.filter (fun o => decide (o.2 = TransferOutcome.Skipped))).length,
    failed := failed_entries run.outcomes,
    cancelled := run.cancelled }

/-- Modelled from the spec: the successful operation of section 8. An operation
is successful when every step of its plan completed. -/
def OperationResult.successful (r : OperationResult) : Bool :=
  decide (r.completed = r.total_steps ∧ r.skipped = 0 ∧ r.failed = [] ∧ r.cancelled = false)

/-- Modelled from the spec: `execute(plan, progress_sink, cancel_token)` of the
Transfer Executor (section 4.3). The progress sink only observes and is left
out; the result is the final filesystem, the Operation Result and the entries
of the Undo Record. -/
def execute (fs : FileSystem) (p : TransferPlan) (on_failure : FailurePolicy)
    (cancel_at : Option Nat) : FileSystem × OperationResult × List UndoEntry :=
  let run := run_steps on_failure cancel_at 0 p fs
  (run.fs, operation_result p run, run.undo_entries)

/-- Modelled from the spec: the operation kind of an Undo Record (section 3). -/
inductive OperationKind
  | Copy
  | Move
  | Delete
  | Trash
  | Rename
  | Link
  | Create
  deriving DecidableEq, Repr

/-- Modelled from the spec: an Undo Record (section 3): the kind of the
operation and, in the order of their application, the entries its completed
steps produced. -/
structure UndoRecord where
  kind : OperationKind
  entries : List UndoEntry
  deriving DecidableEq, Repr

/-- Modelled from the spec: part of the Undo Record (section 3).
The original location of an entry of an Undo Record. -/
def UndoEntry.original_location (e : UndoEntry) : Option FileReference := e.step.source

/-- Modelled from the spec: part of the Undo Record (section 3).
The new location of an entry of an Undo Record. -/
def UndoEntry.new_location (e : UndoEntry) : FileReference := e.step.destination

/-- Modelled from the spec: the inverse action of one entry (sections 3 and
4.4). A created directory or a copy is deleted again, a move is a move back, a
deleted directory is created again; a deleted file is gone for good and makes
the entry stale. -/
def invert_entry (fs : FileSystem) (e : UndoEntry) : Except ErrorKind FileSystem :=
  match e.step.kind, e.step.source with
  | StepKind.MakeDirectory, _ => delete fs e.step.destination
  | StepKind.CopyFile, _ => delete fs e.step.destination
  | StepKind.MoveFile, some source => rename fs e.step.destination source
  | StepKind.DeleteEntry, some source =>
    match e.removed with
    | some Entry.Directory => create_directory fs source
    | _ => Except.error ErrorKind.StaleUndoError
  | StepKind.SetMetadata, _ => Except.ok fs
  | _, none => Except.error ErrorKind.StaleUndoError

/-- Modelled from the spec: part of the Undo/Redo Manager (section 4.4).
Apply an action to the entries of a list, one after the other; the first
error stops the run. -/
def apply_all (action : FileSystem → UndoEntry → Except ErrorKind FileSystem) :
    List UndoEntry → FileSystem → Except ErrorKind FileSystem
  | [], fs => Except.ok fs
  | e :: rest, fs =>
    match action fs e with
    | Except.error err => Except.error err
    | Except.ok fs1 => apply_all action rest fs1

/-- Modelled from the spec: the validation before an undo (section 4.4): every
new location still exists and every original location is free. -/
def undo_valid (fs : FileSystem) (r : UndoRecord) : Bool :=
  r.entries.all (fun e =>
    file_exists fs e.new_location &&
    (match e.original_location with
     | some original => !file_exists fs original
     | none => true))

/-- Modelled from the spec: the validation before a redo (section 4.4, "same
all-or-nothing validation policy"): every original location exists again and
every new location is free. -/
def redo_valid (fs : FileSystem) (r : UndoRecord) : Bool :=
  r.entries.all (fun e =>
    !file_exists fs e.new_location &&
    (match e.original_location with
     | some original => file_exists fs original
     | none => true))

/-- Modelled from the spec: the inversion of a record (section 4.4): after the
validation the inverse action of every entry is performed, in the reverse order
of the original application. A record that fails the validation, or whose
inversion cannot be completed, is stale and nothing of it is applied. -/
def undo_record (fs : FileSystem) (r : UndoRecord) : Except ErrorKind FileSystem :=
  if undo_valid fs r then
    match apply_all invert_entry r.entries.reverse fs with
    | Except.ok fs1 => Except.ok fs1
    | Except.error _ => Except.error ErrorKind.StaleUndoError
  else Except.error ErrorKind.StaleUndoError

/-- Modelled from the spec: the replay of a record (section 4.4): the original
entries are applied again in the original order, all or nothing. -/
def redo_record (fs : FileSystem) (r : UndoRecord) : Except ErrorKind FileSystem :=
  if redo_valid fs r then
    match apply_all (fun fs1 e => apply_step fs1 e.step) r.entries fs with
    | Except.ok fs1 => Except.ok fs1
    | Except.error _ => Except.error ErrorKind.StaleUndoError
  else Except.error ErrorKind.StaleUndoError

/-- Modelled from the spec: the Undo/Redo Manager (section 4.4): a single
linear history. `applied` holds the records that are applied, the most recent
first; `undone` is the redo tail, the records that were undone, the one to
redo next first. -/
structure UndoManager where
  applied : List UndoRecord
  undone : List UndoRecord
  deriving DecidableEq, Repr

/-- Modelled from the spec: `push(record)` (section 4.4): the record goes on
top of the history and the redo tail is cleared. -/
def UndoManager.push (m : UndoManager) (r : UndoRecord) : UndoManager :=
  { applied := r :: m.applied, undone := [] }

/-- Modelled from the spec: `undo() -> Result<(), UndoError>` (section 4.4):
the most recent applied record is popped and inverted; a stale record is
discarded and the filesystem stays as it is. With nothing to undo the call
fails and changes nothing. -/
def UndoManager.undo (m : UndoManager) (fs : FileSystem) :
    FileSystem × UndoManager × Except ErrorKind Unit :=
  match m.applied with
  | [] => (fs, m, Except.error ErrorKind.StaleUndoError)
  | r :: older =>
    match undo_record fs r with
    | Except.ok fs1 => (fs1, { applied := older, undone := r :: m.undone }, Except.ok ())
    | Except.error e => (fs, { applied := older, undone := m.undone }, Except.error e)

/-- Modelled from the spec: `redo() -> Result<(), RedoError>` (section 4.4):
the record undone last is replayed and becomes applied again; a record that
cannot be replayed is discarded. With an empty redo tail the call fails and
changes nothing. -/
def UndoManager.redo (m : UndoManager) (fs : FileSystem) :
    FileSystem × UndoManager × Except ErrorKind Unit :=
  match m.undone with
  | [] => (fs, m, Except.error ErrorKind.StaleUndoError)
  | r :: later =>
    match redo_record fs r with
    | Except.ok fs1 => (fs1, { applied := r :: m.applied, undone := later }, Except.ok ())
    | Except.error e => (fs, { applied := m.applied, undone := later }, Except.error e)

/-- Modelled from the spec: the default reaction to a persistent error
(section 4.3): abort for an operation on a single entry, skip and continue for
a batch of several entries. -/
def default_failure_policy (sources : List FileReference) : FailurePolicy :=
  if sources.length ≤ 1 then FailurePolicy.Abort else FailurePolicy.SkipAndContinue

/-- Modelled from the spec: the state behind the synchronous entry point (section 6).
The state the synchronous entry point works on: the filesystem and the
Undo/Redo Manager. -/
structure World where
  fs : FileSystem
  manager : UndoManager
  deriving Repr

/-- Modelled from the spec: the synchronous entry point
`move_sync(sources, destination, conflict_policy, progress_sink)` of section 6,
the `nautilus_file_operations_move_sync` of the tests, missing with
`nautilus-file-operations.c`. It plans and executes on the calling thread:
a planning error changes nothing; otherwise the plan is executed, never
cancelled, and an operation that changed the filesystem hands its Undo Record
to the manager. -/
def move_sync (w : World) (sources : List FileReference) (destination : FileReference)
    (conflict_policy : ConflictPolicy) : World × Except PlanError OperationResult :=
  match plan w.fs conflict_policy sources destination TransferMode.Move with
  | Except.error e => (w, Except.error e)
  | Except.ok p =>
    match execute w.fs p (default_failure_policy sources) none with
    | (fs1, result, entries) =>
      ({ fs := fs1,
         manager := if entries = [] then w.manager
           else w.manager.push { kind := OperationKind.Move, entries := entries } },
       Except.ok result)

/-! ## Notions used to state and prove the properties of the engine -/

/-- Two filesystems have the same layout: every location holds the same entry in both. -/
def same_layout (fs g : FileSystem) : Prop := ∀ q, stat fs q = stat g q

/-- Every listed entry lies below the root, in a directory that exists, and no
location is listed twice. -/
def fs_wf (fs : FileSystem) : Prop :=
  (fs.map (fun x => x.1)).Nodup ∧
    ∀ x ∈ fs, x.1 ≠ [] ∧ stat fs (parent_of x.1) = some Entry.Directory

instance (fs : FileSystem) : Decidable (fs_wf fs) := by
  unfold fs_wf; infer_instance

/-- A step of a move that meets no obstacle: `CleanStep fs step fs1` says that
`step` is one of the three steps a move consists of, that at `fs` its source is
in place and its destination is free, and that `fs1` is the filesystem after it. -/
inductive CleanStep : FileSystem → TransferStep → FileSystem → Prop
  | make (fs : FileSystem) (s d : FileReference)
      (hfree : stat fs d = none) (hempty : list_children fs d = [])
      (hparent : stat fs (parent_of d) = some Entry.Directory) :
      CleanStep fs (make_directory_step s d) ((d, Entry.Directory) :: fs)
  | move (fs : FileSystem) (s d : FileReference) (size : Nat)
      (hsrc : stat fs s = some (Entry.File size)) (hfree : stat fs d = none)
      (hparent : stat fs (parent_of d) = some Entry.Directory)
      (hback : stat fs (parent_of s) = some Entry.Directory) :
      CleanStep fs (file_step TransferMode.Move s d size)
        ((d, Entry.File size) :: remove_entry (remove_entry fs s) d)
  | cleanup (fs : FileSystem) (s d : FileReference) (hroot : s ≠ [])
      (hsrc : stat fs s = some Entry.Directory) (hempty : list_children fs s = [])
      (hback : stat fs (parent_of s) = some Entry.Directory) :
      CleanStep fs
        { kind := StepKind.DeleteEntry, source := some s, destination := d, size_hint := 0 }
        (remove_entry fs s)

/-- A run of clean steps from `fs` to `fs1`. -/
inductive CleanRun : TransferPlan → FileSystem → FileSystem → Prop
  | nil (fs : FileSystem) : CleanRun [] fs fs
  | cons (step : TransferStep) (rest : TransferPlan) (fs fs1 fs2 : FileSystem)
      (hstep : CleanStep fs step fs1) (hrest : CleanRun rest fs1 fs2) :
      CleanRun (step :: rest) fs fs2

/-- The entry a completed step of a clean run leaves in the Undo Record. -/
def clean_entry (step : TransferStep) : UndoEntry :=
  { step := step,
    removed := if step.kind = StepKind.DeleteEntry then some Entry.Directory else none }

/-- The steps of the move of `s` to the free location `d`: what the planner
generates when no destination is occupied. -/
def move_steps (fs0 : FileSystem) : Nat → FileReference → FileReference → TransferPlan
  | 0, _, _ => []
  | fuel + 1, s, d =>
    match stat fs0 s with
    | none => []
    | some (Entry.File size) => [file_step TransferMode.Move s d size]
    | some Entry.Directory =>
      make_directory_step s d ::
        ((list_children fs0 s).flatMap (fun c => move_steps fs0 fuel c (d ++ [entry_name c])) ++
          cleanup_steps TransferMode.Move s d)

/-- The layout after the subtrees at the first components of `pairs` went to the
second components: nothing is left at or below a source, a location at or
below a destination holds what the corresponding location below the source
held, and every other location is as before. -/
def relocated (pairs : List (FileReference × FileReference))
    (st : FileReference → Option Entry) (q : FileReference) : Option Entry :=
  if pairs.any (fun p => decide (p.1 <+: q)) then none
  else
    match pairs.find? (fun p => decide (p.2 <+: q)) with
    | some p => st (p.1 ++ q.drop p.2.length)
    | none => st q

/-- Neither location lies at or below the other. -/
def apart (a b : FileReference) : Prop := ¬ a <+: b ∧ ¬ b <+: a

/-- The sources with the destinations they get inside the directory `dir`. -/
def into_dir (dir : FileReference) (sources : List FileReference) :
    List (FileReference × FileReference) :=
  sources.map (fun s => (s, dir ++ [entry_name s]))

/-- The situation in which the subtree at `s`, as planned on `fs0`, can be moved
to `d` on the filesystem `fs`: the subtree is there, unchanged and not deeper
than `fuel`; nothing is at or below `d`; the directories that hold `s` and
`d` exist; and `d` is not inside the subtree. -/
structure Movable (fs0 fs : FileSystem) (fuel : Nat) (s d : FileReference) : Prop where
  deep : ∀ q, s <+: q → stat fs0 q ≠ none → q.length < s.length + fuel
  agree : ∀ q, s <+: q → stat fs q = stat fs0 q
  free : ∀ q, d <+: q → stat fs q = none
  dparent : stat fs (parent_of d) = some Entry.Directory
  sparent : stat fs (parent_of s) = some Entry.Directory
  outside : ¬ s <+: d
  present : stat fs0 s ≠ none

/-- Every existing entry lies in an existing directory. -/
def closed (fs : FileSystem) : Prop :=
  ∀ q, q ≠ [] → stat fs q ≠ none → stat fs (parent_of q) = some Entry.Directory

/-- The planner's steps for `s` achieve the move of `s`: from every filesystem
on which `s` is movable to `d`, they run clean and relocate the subtree. -/
def MovesRight (fs0 : FileSystem) (fuel : Nat) : Prop :=
  ∀ s d fs, Movable fs0 fs fuel s d →
    ∃ fs1, CleanRun (move_steps fs0 fuel s d) fs fs1 ∧
      ∀ q, stat fs1 q = relocated [(s, d)] (stat fs) q

instance (a b : FileReference) : Decidable (apart a b) := by
  unfold apart; infer_instance

/-- The plan of a move of `sources` into `destination` when no destination is
occupied: the steps of the sources, one source after the other. -/
def move_plan (fs : FileSystem) (sources : List FileReference) (destination : FileReference) :
    TransferPlan :=
  sources.flatMap (fun s =>
    move_steps fs (max_depth fs + 1) s (destination ++ [entry_name s]))

/-- A move that meets no collision: the filesystem is well formed, the
destination is an existing directory, every source exists, the destination is
neither a source nor inside one, the destination holds no entry with the name of
a source, and the sources are pairwise apart and differ in their names. -/
structure CleanMove (fs : FileSystem) (sources : List FileReference)
    (destination : FileReference) : Prop where
  wf : fs_wf fs
  dest : stat fs destination = some Entry.Directory
  present : ∀ s ∈ sources, stat fs s ≠ none
  outside : ∀ s ∈ sources, ¬ s <+: destination
  free : ∀ s ∈ sources, stat fs (destination ++ [entry_name s]) = none
  distinct : sources.Pairwise (fun s t => apart s t ∧ entry_name s ≠ entry_name t)

/-! ## Fixtures -/

/-- A manager with an empty history. -/
def UndoManager.empty : UndoManager := { applied := [], undone := [] }

/-- The policy of the tests, which pass `NULL` for everything: no strict mode and
no batch policy. -/
def no_policy : ConflictPolicy := { strict := false, batch := none }

/-- The fixture of `test_move_one_file`: `first_dir` with the file
`first_dir_child`, and the empty directory `second_dir`. -/
def fixture_one_file : World :=
  { fs := [(["first_dir"], Entry.Directory),
           (["first_dir", "first_dir_child"], Entry.File 0),
           (["second_dir"], Entry.Directory)],
    manager := UndoManager.empty }

/-- The fixture of `test_move_first_hierarchy`: `first_dir` with the empty
directory `first_dir_child`, and the empty directory `second_dir`. -/
def fixture_first_hierarchy : World :=
  { fs := [(["first_dir"], Entry.Directory),
           (["first_dir", "first_dir_child"], Entry.Directory),
           (["second_dir"], Entry.Directory)],
    manager := UndoManager.empty }

/-- The fixture of `test_move_first_hierarchy` with a destination that already
holds a regular file named `first_dir`. -/
def fixture_occupied : World :=
  { fs := [(["first_dir"], Entry.Directory),
           (["first_dir", "first_dir_child"], Entry.Directory),
           (["second_dir"], Entry.Directory),
           (["second_dir", "first_dir"], Entry.File 3)],
    manager := UndoManager.empty }

/-- The fixture of `test_move_fifth_hierarchy`: `first_dir` and `second_dir`, each
with one child, and the empty directory `third_dir`. -/
def fixture_fifth_hierarchy : World :=
  { fs := [(["first_dir"], Entry.Directory),
           (["first_dir", "first_dir_child"], Entry.Directory),
           (["second_dir"], Entry.Directory),
           (["second_dir", "second_dir_child"], Entry.Directory),
           (["third_dir"], Entry.Directory)],
    manager := UndoManager.empty }

/-- A batch fixture in the manner of `test_move_files_small`: three files in
`source_dir` and the empty directory `destination_dir`. -/
def fixture_batch : World :=
  { fs := [(["source_dir"], Entry.Directory),
           (["source_dir", "file_0"], Entry.File 1),
           (["source_dir", "file_1"], Entry.File 2),
           (["source_dir", "file_2"], Entry.File 3),
           (["destination_dir"], Entry.Directory)],
    manager := UndoManager.empty }

/-- Two files of the same name in two directories. -/
def fixture_same_name : World :=
  { fs := [(["a"], Entry.Directory), (["a", "x"], Entry.File 7),
           (["b"], Entry.Directory), (["b", "x"], Entry.File 9)],
    manager := UndoManager.empty }

/-- The call returned without an error. -/
def is_ok {ε α : Type} : Except ε α → Bool
  | Except.ok _ => true
  | Except.error _ => false

/-- The move was planned and every step of it completed. -/
def operation_succeeded : Except PlanError OperationResult → Bool
  | Except.ok result => result.successful
  | Except.error _ => false

/-- The batch policy "always overwrite". -/
def always_overwrite : ConflictPolicy :=
  { strict := false, batch := some ConflictDecision.Overwrite }

/-- The fixture of `test_move_fifth_hierarchy` with a destination `third_dir`
that already holds a regular file named `first_dir`. -/
def fixture_fifth_occupied : World :=
  { fs := [(["first_dir"], Entry.Directory),
           (["first_dir", "first_dir_child"], Entry.Directory),
           (["second_dir"], Entry.Directory),
           (["second_dir", "second_dir_child"], Entry.Directory),
           (["third_dir"], Entry.Directory),
           (["third_dir", "first_dir"], Entry.File 3)],
    manager := UndoManager.empty }

/-! ## `nautilus_canvas_item_hit_test_rectangle` -/

/-- The type `EelIRect`: an integer rectangle given by two corners. -/
structure EelIRect where
  x0 : Int
  y0 : Int
  x1 : Int
  y1 : Int
  deriving DecidableEq, Repr

/-- The two cached rectangles of `NautilusCanvasItemDetails` that `hit_test` reads. -/
structure CanvasItemRects where
  icon_rect : EelIRect
  text_rect : EelIRect
  deriving DecidableEq, Repr

/-- The static function `hit_test` of `nautilus-canvas-item.c`. The helper
`eel_irect_hits_irect` is not in the sources at hand and is the parameter `hits`. -/
def hit_test (hits : EelIRect → EelIRect → Bool) (canvas_item : CanvasItemRects)
    (icon_rect : EelIRect) : Bool :=
  if (!hits canvas_item.icon_rect icon_rect) && (!hits canvas_item.text_rect icon_rect) then
    false
  else if hits canvas_item.icon_rect icon_rect then
    true
  else if hits canvas_item.text_rect icon_rect then
    true
  else
    false

/-- The function `nautilus_canvas_item_hit_test_rectangle`. The argument is `none` when the
pointer passed is not a canvas item, the case `g_return_val_if_fail` answers with `FALSE`. -/
def nautilus_canvas_item_hit_test_rectangle (hits : EelIRect → EelIRect → Bool)
    (item : Option CanvasItemRects) (icon_rect : EelIRect) : Bool :=
  match item with
  | none => false
  | some canvas_item => hit_test hits canvas_item icon_rect

/-! ## The path bar: `nautilus_path_bar_update_path` and `nautilus_path_bar_set_path` -/

/-- The type `GFile`, a location, identified by its URI. -/
structure GFile where
  uri : String
  deriving DecidableEq, Repr

/-- The type `NautilusFile` as the path bar sees it: a location, a display name and the
parent that `nautilus_file_get_parent` returns. The helper is not in the sources at hand; a
file is kept together with its chain of parents, so that walking up ends. -/
inductive NautilusFile where
  | toplevel (location : GFile) (display_name : String) : NautilusFile
  | inside (location : GFile) (display_name : String) (parent : NautilusFile) : NautilusFile
  deriving DecidableEq, Repr

/-- The helper `nautilus_file_get_parent`: `none` is `NULL`. -/
def nautilus_file_get_parent : NautilusFile → Option NautilusFile
  | .toplevel _ _ => none
  | .inside _ _ parent => some parent

/-- The helper `nautilus_file_get_location`. -/
def nautilus_file_get_location : NautilusFile → GFile
  | .toplevel location _ => location
  | .inside location _ _ => location

/-- The helper `nautilus_file_get_display_name`. -/
def nautilus_file_get_display_name : NautilusFile → String
  | .toplevel _ display_name => display_name
  | .inside _ display_name _ => display_name

/-- The enumeration `ButtonType`. -/
inductive ButtonType where
  | NORMAL_BUTTON
  | OTHER_LOCATIONS_BUTTON
  | ROOT_BUTTON
  | ADMIN_ROOT_BUTTON
  | HOME_BUTTON
  | STARRED_BUTTON
  | RECENT_BUTTON
  | MOUNT_BUTTON
  deriving DecidableEq, Repr

/-- The predicates on locations that `setup_button_type` asks and that are not in the
sources at hand, taken as parameters. `nautilus_get_mounted_mount_for_root` gives the name
of the mount (`g_mount_get_name`), or `none` for `NULL`. -/
structure LocationKinds where
  nautilus_is_root_directory : GFile → Bool
  nautilus_is_home_directory : GFile → Bool
  nautilus_is_recent_directory : GFile → Bool
  nautilus_is_starred_directory : GFile → Bool
  nautilus_get_mounted_mount_for_root : GFile → Option String
  nautilus_is_other_locations_directory : GFile → Bool

/-- The fields of `ButtonData` that do not hold a widget; `current_dir` records the
visibility given to the disclosure arrow. -/
structure ButtonData where
  type : ButtonType
  dir_name : Option String
  path : Option GFile
  file : Option NautilusFile
  is_root : Bool
  current_dir : Bool
  deriving DecidableEq, Repr

/-- The block that `g_new0 (ButtonData, 1)` returns: every field is zero. -/
def ButtonData.zeroed : ButtonData :=
  { type := ButtonType.NORMAL_BUTTON, dir_name := none, path := none, file := none,
    is_root := false, current_dir := false }

/-- The static function `setup_button_type`. -/
def setup_button_type (kinds : LocationKinds) (button_data : ButtonData) (location : GFile) :
    ButtonData :=
  if kinds.nautilus_is_root_directory location then
    { button_data with type := ButtonType.ROOT_BUTTON }
  else if kinds.nautilus_is_home_directory location then
    { button_data with type := ButtonType.HOME_BUTTON, is_root := true }
  else if kinds.nautilus_is_recent_directory location then
    { button_data with type := ButtonType.RECENT_BUTTON, is_root := true }
  else if kinds.nautilus_is_starred_directory location then
    { button_data with type := ButtonType.STARRED_BUTTON, is_root := true }
  else
    match kinds.nautilus_get_mounted_mount_for_root location with
    | some mount_name =>
        { button_data with dir_name := some mount_name, type := ButtonType.MOUNT_BUTTON,
                           is_root := true }
    | none =>
        if kinds.nautilus_is_other_locations_directory location then
          { button_data with type := ButtonType.OTHER_LOCATIONS_BUTTON, is_root := true }
        else if location.uri = "admin:///" then
          { button_data with type := ButtonType.ADMIN_ROOT_BUTTON, is_root := true }
        else
          { button_data with type := ButtonType.NORMAL_BUTTON }

/-- The static function `make_button_data`, without the widgets it builds. -/
def make_button_data (kinds : LocationKinds) (file : NautilusFile) (current_dir : Bool) :
    ButtonData :=
  let path := nautilus_file_get_location file
  let button_data := setup_button_type kinds ButtonData.zeroed path
  let button_data := { button_data with current_dir := current_dir }
  let button_data :=
    if button_data.path = none then { button_data with path := some path } else button_data
  let button_data :=
    if button_data.dir_name = none then
      { button_data with dir_name := some (nautilus_file_get_display_name file) }
    else button_data
  if button_data.file = none then { button_data with file := some file } else button_data

/-- The `while (file != NULL)` loop of `nautilus_path_bar_update_path`, entered with a file
that is not `NULL`: the result is the list `new_buttons` when the loop is left. -/
def update_path_loop (kinds : LocationKinds) :
    NautilusFile → Bool → List ButtonData → List ButtonData
  | .toplevel location display_name, first_directory, new_buttons =>
      make_button_data kinds (.toplevel location display_name) first_directory :: new_buttons
  | .inside location display_name parent_file, first_directory, new_buttons =>
      let button_data :=
        make_button_data kinds (.inside location display_name parent_file) first_directory
      let new_buttons := button_data :: new_buttons
      if button_data.is_root then new_buttons
      else update_path_loop kinds parent_file false new_buttons

/-- The fields of `NautilusPathBarPrivate` that the two functions write. -/
structure NautilusPathBarPrivate where
  current_path : Option GFile
  current_button_data : Option ButtonData
  button_list : List ButtonData
  deriving DecidableEq, Repr

/-- The static function `nautilus_path_bar_update_path`. The argument `file` is the file
that `nautilus_file_get (file_path)` returns. -/
def nautilus_path_bar_update_path (kinds : LocationKinds) (priv : NautilusPathBarPrivate)
    (file : NautilusFile) : NautilusPathBarPrivate :=
  let new_buttons := update_path_loop kinds file true []
  { priv with button_list := new_buttons.reverse }

/-- The function `nautilus_path_bar_set_path`. The argument `file` is the file that
`nautilus_file_get (file_path)` returns, and `file_path` is its location. -/
def nautilus_path_bar_set_path (kinds : LocationKinds) (priv : NautilusPathBarPrivate)
    (file : NautilusFile) : NautilusPathBarPrivate :=
  let priv := nautilus_path_bar_update_path kinds priv file
  let button_data := priv.button_list.get? 0
  { priv with current_path := some (nautilus_file_get_location file),
              current_button_data := button_data }

/-- The file of a button, for buttons that have one. -/
def button_parent_link (inner outer : ButtonData) : Prop :=
  ∃ f g, inner.file = some f ∧ outer.file = some g ∧ nautilus_file_get_parent f = some g

/-- The button stands for a file that has no parent. -/
def button_without_parent (button_data : ButtonData) : Prop :=
  ∃ f, button_data.file = some f ∧ nautilus_file_get_parent f = none

/-- The buttons from a file up its chain of parents, innermost first, stopping after the
first button that is root-like; `current_dir` is true for the innermost button only. -/
def path_buttons (kinds : LocationKinds) : NautilusFile → Bool → List ButtonData
  | .toplevel location display_name, current_dir =>
      [make_button_data kinds (.toplevel location display_name) current_dir]
  | .inside location display_name parent_file, current_dir =>
      if (make_button_data kinds (.inside location display_name parent_file) current_dir).is_root
      then [make_button_data kinds (.inside location display_name parent_file) current_dir]
      else make_button_data kinds (.inside location display_name parent_file) current_dir ::
        path_buttons kinds parent_file false

/-- A sample answer of the location predicates: `file:///` is the root directory and
`file:///home/user` the home directory. -/
def fixture_kinds : LocationKinds :=
  { nautilus_is_root_directory := fun l => l.uri == "file:///",
    nautilus_is_home_directory := fun l => l.uri == "file:///home/user",
    nautilus_is_recent_directory := fun _ => false,
    nautilus_is_starred_directory := fun _ => false,
    nautilus_get_mounted_mount_for_root := fun _ => none,
    nautilus_is_other_locations_directory := fun _ => false }

/-- The file `file:///home/user/Documents/notes` with its parents up to `file:///`. -/
def fixture_notes : NautilusFile :=
  .inside ⟨"file:///home/user/Documents/notes"⟩ "notes"
    (.inside ⟨"file:///home/user/Documents"⟩ "Documents"
      (.inside ⟨"file:///home/user"⟩ "Home"
        (.inside ⟨"file:///home"⟩ "home" (.toplevel ⟨"file:///"⟩ "/"))))

/-- A path bar that shows nothing yet. -/
def fixture_path_bar : NautilusPathBarPrivate :=
  { current_path := none, current_button_data := none, button_list := [] }

/-! ## `measure_label_text`

Pango is not part of the sources. A layout is represented by what Pango reports of it: the
extents of the text and of its lines, as a function of the height the layout was given
(`pango_layout_set_height`), the width being the same in every call. Values of type `int`
are taken in `ℤ`; pixel sizes of labels stay far from the limits of `int`. -/

/-- The constant `PANGO_SCALE`. -/
def PANGO_SCALE : Int := 1024

/-- The constant `G_MININT`. -/
def G_MININT : Int := -(2 : Int) ^ 31

/-- The constant `LABEL_LINE_SPACING`. -/
def LABEL_LINE_SPACING : Int := 0

/-- The constant `TEXT_BACK_PADDING_X`. -/
def TEXT_BACK_PADDING_X : Int := 4

/-- The constant `TEXT_BACK_PADDING_Y`. -/
def TEXT_BACK_PADDING_Y : Int := 1

/-- The type `PangoRectangle`, in Pango units. -/
structure PangoRectangle where
  x : Int
  y : Int
  width : Int
  height : Int
  deriving DecidableEq, Repr

/-- What Pango reports of a laid-out text: the logical rectangle of
`pango_layout_get_extents`, the logical rectangles of its lines in order (their number is
`pango_layout_get_line_count`), and `pango_layout_get_spacing`. -/
structure LayoutMetrics where
  logical_rect : PangoRectangle
  lines : List PangoRectangle
  spacing : Int

/-- A `PangoLayout`: the height last set with `pango_layout_set_height` and the metrics of
the text for each such height. -/
structure PangoLayout where
  height : Int
  metrics : Int → LayoutMetrics

/-- The metrics of a layout at the height it has now. -/
def PangoLayout.current (layout : PangoLayout) : LayoutMetrics :=
  layout.metrics layout.height

/-- The function `pango_layout_set_height`. -/
def pango_layout_set_height (layout : PangoLayout) (height : Int) : PangoLayout :=
  { layout with height := height }

/-- The static function `layout_get_full_size`: the values stored through `width`, `height`
and `dx`. Division of `int` truncates. -/
def layout_get_full_size (layout : PangoLayout) : Int × Int × Int :=
  let logical_rect := layout.current.logical_rect
  let the_width := Int.tdiv (logical_rect.width + Int.tdiv PANGO_SCALE 2) PANGO_SCALE
  let total_width :=
    Int.tdiv (logical_rect.x + logical_rect.width + Int.tdiv PANGO_SCALE 2) PANGO_SCALE
  (the_width, Int.tdiv (logical_rect.height + Int.tdiv PANGO_SCALE 2) PANGO_SCALE,
    total_width - the_width)

/-- The `for` loop of `layout_get_size_for_layout`: `lines` are the lines from the one the
iterator is at, `i` the loop counter, and the last argument `*height_for_layout`. When the
iterator has no line to read, the loop is left. -/
def size_for_layout_loop (spacing : Int) (max_layout_line_count : Int) :
    List PangoRectangle → Int → Int → Int
  | [], _, height_for_layout => height_for_layout
  | logical_rect :: rest, i, height_for_layout =>
      if i < max_layout_line_count then
        let height_for_layout :=
          height_for_layout + Int.tdiv (logical_rect.height + Int.tdiv PANGO_SCALE 2) PANGO_SCALE
        if rest = [] then height_for_layout
        else size_for_layout_loop spacing max_layout_line_count rest (i + 1)
          (height_for_layout + spacing)
      else height_for_layout

/-- The static function `layout_get_size_for_layout`: the value stored through
`height_for_layout`. -/
def layout_get_size_for_layout (layout : PangoLayout) (max_layout_line_count : Int)
    (height_for_entire_text : Int) : Int :=
  if (layout.current.lines.length : Int) ≤ max_layout_line_count then
    height_for_entire_text
  else
    size_for_layout_loop layout.current.spacing max_layout_line_count layout.current.lines 0 0

/-- The two limits that `measure_label_text` asks of the container, with
`nautilus_canvas_container_get_max_layout_lines` and
`nautilus_canvas_container_get_max_layout_lines_for_pango`; both functions are not in the
sources at hand and their results are parameters. -/
structure CanvasContainerLimits where
  max_layout_lines : Int
  max_layout_lines_for_pango : Int
  deriving DecidableEq, Repr

/-- The fields of `NautilusCanvasItem` that `measure_label_text` reads or writes. -/
structure CanvasItemLabel where
  editable_text : Option String
  additional_text : Option String
  text_dx : Int
  text_width : Int
  text_height : Int
  text_height_for_entire_text : Int
  text_height_for_layout : Int
  editable_text_height : Int
  is_highlighted_for_selection : Bool
  is_highlighted_for_drop : Bool
  is_highlighted_as_keyboard_focus : Bool
  entire_text : Bool
  deriving DecidableEq, Repr

/-- The static function `prepare_pango_layout_for_measure_entire_text`. -/
def prepare_pango_layout_for_measure_entire_text (layout : PangoLayout) : PangoLayout :=
  pango_layout_set_height layout G_MININT

/-- The static function `prepare_pango_layout_for_draw`. -/
def prepare_pango_layout_for_draw (container : CanvasContainerLimits) (item : CanvasItemLabel)
    (layout : PangoLayout) : PangoLayout :=
  let needs_highlight := item.is_highlighted_for_selection || item.is_highlighted_for_drop
  if needs_highlight || item.is_highlighted_as_keyboard_focus || item.entire_text then
    pango_layout_set_height layout G_MININT
  else
    pango_layout_set_height layout container.max_layout_lines_for_pango

/-- The test `text != NULL && text[0] != '\0'`. -/
def have_text : Option String → Bool
  | none => false
  | some text => text != ""

/-- The static function `measure_label_text`. The layout that `get_label_layout` builds
for a text is the parameter of the same name. -/
def measure_label_text (container : CanvasContainerLimits)
    (get_label_layout : String → PangoLayout) (item : CanvasItemLabel) : CanvasItemLabel :=
  if item.text_width ≥ 0 ∧ item.text_height ≥ 0 then item
  else
    let have_editable := have_text item.editable_text
    let have_additional := have_text item.additional_text
    if !have_editable && !have_additional then
      { item with text_height := 0, text_height_for_layout := 0,
                  text_height_for_entire_text := 0, text_width := 0 }
    else
      let (editable_width, editable_height, editable_dx, editable_height_for_layout,
          editable_height_for_entire_text) :=
        if have_editable then
          let editable_layout := get_label_layout (item.editable_text.getD "")
          let editable_layout := prepare_pango_layout_for_measure_entire_text editable_layout
          let editable_height_for_entire_text := (layout_get_full_size editable_layout).2.1
          let editable_height_for_layout :=
            layout_get_size_for_layout editable_layout container.max_layout_lines
              editable_height_for_entire_text
          let editable_layout := prepare_pango_layout_for_draw container item editable_layout
          let size := layout_get_full_size editable_layout
          (size.1, size.2.1, size.2.2, editable_height_for_layout,
            editable_height_for_entire_text)
        else ((0 : Int), (0 : Int), (0 : Int), (0 : Int), (0 : Int))
      let (additional_width, additional_height, additional_dx) :=
        if have_additional then
          let additional_layout := get_label_layout (item.additional_text.getD "")
          let additional_layout := prepare_pango_layout_for_draw container item additional_layout
          layout_get_full_size additional_layout
        else ((0 : Int), (0 : Int), (0 : Int))
      let item := { item with editable_text_height := editable_height }
      let item :=
        if editable_width > additional_width then
          { item with text_width := editable_width, text_dx := editable_dx }
        else
          { item with text_width := additional_width, text_dx := additional_dx }
      let item :=
        if have_additional then
          { item with
            text_height := editable_height + LABEL_LINE_SPACING + additional_height,
            text_height_for_layout :=
              editable_height_for_layout + LABEL_LINE_SPACING + additional_height,
            text_height_for_entire_text :=
              editable_height_for_entire_text + LABEL_LINE_SPACING + additional_height }
        else
          { item with
            text_height := editable_height,
            text_height_for_layout := editable_height_for_layout,
            text_height_for_entire_text := editable_height_for_entire_text }
      { item with
        text_height := item.text_height + TEXT_BACK_PADDING_Y * 2,
        text_height_for_layout := item.text_height_for_layout + TEXT_BACK_PADDING_Y * 2,
        text_height_for_entire_text :=
          item.text_height_for_entire_text + TEXT_BACK_PADDING_Y * 2,
        editable_text_height := item.editable_text_height + TEXT_BACK_PADDING_Y * 2,
        text_width := item.text_width + TEXT_BACK_PADDING_X * 2 }

/-- A text of `count` lines, each 80 pixels wide and 16 pixels high, without spacing. -/
def block_of_lines (count : Nat) : LayoutMetrics :=
  { logical_rect := ⟨0, 0, 80 * 1024, count * (16 * 1024)⟩,
    lines := (List.range count).map (fun i => ⟨0, i * (16 * 1024), 80 * 1024, 16 * 1024⟩),
    spacing := 0 }

/-- A layout of a text that wraps to four lines: a negative height `-n` ellipsizes it to
at most `n` lines, and `G_MININT` leaves it whole. -/
def fixture_four_lines : PangoLayout :=
  { height := -1,
    metrics := fun height => block_of_lines (min 4 (Int.toNat (-height))) }

/-- A container that lays labels out on at most three lines. -/
def fixture_three_line_limit : CanvasContainerLimits :=
  { max_layout_lines := 3, max_layout_lines_for_pango := -3 }

/-- A canvas item with a name, whose label has not been measured, and whose entire text
must be visible. -/
def fixture_entire_text_item : CanvasItemLabel :=
  { editable_text := some "a name that wraps to four lines", additional_text := none,
    text_dx := 0, text_width := -1, text_height := -1, text_height_for_entire_text := -1,
    text_height_for_layout := -1, editable_text_height := -1,
    is_highlighted_for_selection := false, is_highlighted_for_drop := false,
    is_highlighted_as_keyboard_focus := false, entire_text := true }

/-- The offset `k` is a character boundary of the UTF-8 string `b`: the first `k` bytes of
`b` and the bytes after them are both well-formed UTF-8, so no character has bytes on both
sides of the cut. -/
def on_char_boundary (b : CString) (k : Nat) : Prop :=
  k ≤ b.length ∧ utf8_valid (b.take k) = true ∧ utf8_valid (b.drop k) = true

instance (b : CString) (k : Nat) : Decidable (on_char_boundary b k) := by
  unfold on_char_boundary; infer_instance

/-- The bytes of the UTF-8 string `grüße`: the two-byte characters `ü` and `ß` start at
offsets 2 and 4. -/
def fixture_utf8_base : CString := [0x67, 0x72, 0xC3, 0xBC, 0xC3, 0x9F, 0x65]

/-- The bytes of the name `grüße.txt`. -/
def fixture_utf8_name : CString := fixture_utf8_base ++ ascii ".txt"

/-- Modelled from the spec: a call to the Undo/Redo Manager of section 4.4, which is not
among the sources: `push(record)`, `undo()` or `redo()`. -/
inductive ManagerCall where
  | push (record : UndoRecord) : ManagerCall
  | undo : ManagerCall
  | redo : ManagerCall
  deriving Repr

/-- Modelled from the spec: the effect of one call to the Undo/Redo Manager (section 4.4,
not among the sources) on the filesystem and on the history; the result of `undo` and
`redo` is dropped. -/
def ManagerCall.run (call : ManagerCall) (state : FileSystem × UndoManager) :
    FileSystem × UndoManager :=
  match call with
  | .push record => (state.1, state.2.push record)
  | .undo => ((state.2.undo state.1).1, (state.2.undo state.1).2.1)
  | .redo => ((state.2.redo state.1).1, (state.2.redo state.1).2.1)

/-- Modelled from the spec: a sequence of calls to the Undo/Redo Manager (section 4.4, not
among the sources), run in order. -/
def run_calls (calls : List ManagerCall) (state : FileSystem × UndoManager) :
    FileSystem × UndoManager :=
  calls.foldl (fun s call => call.run s) state

/-- The state after the move of `test_move_one_file`: the file is in `second_dir` and the
history holds the record of the move. -/
def fixture_after_move : FileSystem × UndoManager :=
  ((move_sync fixture_one_file [["first_dir", "first_dir_child"]] ["second_dir"] no_policy).1.fs,
   (move_sync fixture_one_file [["first_dir", "first_dir_child"]] ["second_dir"]
      no_policy).1.manager)

/-- The record of an operation that created the directory `third_dir`. -/
def fixture_create_record : UndoRecord :=
  { kind := OperationKind.Create,
    entries := [{ step := { kind := StepKind.MakeDirectory, source := none,
                            destination := ["third_dir"], size_hint := 0 },
                  removed := none }] }

/-- The location `q` lies inside the directory `d`: `d` is a proper initial part of `q`. -/
def lies_inside (q d : FileReference) : Prop := d <+: q ∧ d ≠ q

instance (q d : FileReference) : Decidable (lies_inside q d) := by
  unfold lies_inside; infer_instance

/-- The step is a MakeDirectory step for the directory `d`. -/
def makes (step : TransferStep) (d : FileReference) : Prop :=
  step.kind = StepKind.MakeDirectory ∧ step.destination = d

instance (step : TransferStep) (d : FileReference) : Decidable (makes step d) := by
  unfold makes; infer_instance

/-- What holds of the steps planned into the directory `base` of the filesystem `fs`: every
destination lies inside `base`; a MakeDirectory step is never for a directory that exists
already; the source of a Copy/MoveFile step is a regular file and the source of a
DeleteEntry step a directory; the directories below `base` that a destination lies inside
exist already or are made by an earlier step; and the destination of a DeleteEntry step
exists already as a directory or is made by an earlier step with the same source. -/
structure PlanOk (fs : FileSystem) (base : FileReference) (p : TransferPlan) : Prop where
  below : ∀ step ∈ p, ∃ m rest, step.destination = base ++ m :: rest
  fresh : ∀ step ∈ p, step.kind = StepKind.MakeDirectory →
    stat fs step.destination ≠ some Entry.Directory
  files : ∀ step ∈ p, step.kind = StepKind.CopyFile ∨ step.kind = StepKind.MoveFile →
    ∃ src size, step.source = some src ∧ stat fs src = some (Entry.File size)
  dirs : ∀ step ∈ p, step.kind = StepKind.DeleteEntry →
    ∃ src, step.source = some src ∧ stat fs src = some Entry.Directory
  ordered : ∀ j step d, p[j]? = some step → (∃ m rest, d = base ++ m :: rest) →
    lies_inside step.destination d →
    (∃ mk ∈ p.take j, makes mk d) ∨ stat fs d = some Entry.Directory
  cleaned : ∀ j del, p[j]? = some del → del.kind = StepKind.DeleteEntry →
    (∃ mk ∈ p.take j, mk.kind = StepKind.MakeDirectory ∧ mk.source = del.source ∧
        mk.destination = del.destination) ∨
      stat fs del.destination = some Entry.Directory

/-- The plan of the move of `first_dir`, with its file `first_dir_child`, into
`second_dir`. -/
def fixture_one_file_plan : TransferPlan :=
  [{ kind := StepKind.MakeDirectory, source := some ["first_dir"],
     destination := ["second_dir", "first_dir"], size_hint := 1 },
   { kind := StepKind.MoveFile, source := some ["first_dir", "first_dir_child"],
     destination := ["second_dir", "first_dir", "first_dir_child"], size_hint := 0 },
   { kind := StepKind.DeleteEntry, source := some ["first_dir"],
     destination := ["second_dir", "first_dir"], size_hint := 0 }]

/-! ## `nautilus_file_get_by_uri`

The function and the cache of `NautilusFile` objects behind it are not among the sources.
The model follows section 3 of the specification: a File Reference is identified by its
canonical location, and references to one location are deduplicated by a reference-counted
cache. The specification does not say how a URI is brought to its canonical location; the
model keeps the scheme and the non-empty segments of the path, as file paths are
canonicalised. -/

/-- Modelled from the spec: the canonical location (scheme and path) that identifies a File
Reference (section 3); `nautilus_file_get_by_uri` and its cache are not among the sources. -/
structure CanonicalLocation where
  scheme : String
  path : List String
  deriving DecidableEq, Repr

/-- Modelled from the spec: the segments of a path (section 3, "canonical location"), for
`nautilus_file_get_by_uri`, which is not among the sources: the text between the `/`
characters, empty segments left out, so that a trailing or a doubled `/` does not change
the path. The second argument is the segment read so far. -/
def path_segments : List Char → List Char → List String
  | [], segment => if segment = [] then [] else [String.mk segment]
  | c :: rest, segment =>
    if c = '/' then
      if segment = [] then path_segments rest [] else String.mk segment :: path_segments rest []
    else path_segments rest (segment ++ [c])

/-- Modelled from the spec: the canonical location of a URI (section 3, "identity =
canonical location (scheme + path)"), for `nautilus_file_get_by_uri`, which is not among
the sources: the scheme is the text before the first `:`, the path the segments of the text
after it. -/
def canonical_location (uri : String) : CanonicalLocation :=
  { scheme := String.mk (uri.data.takeWhile (fun c => c ≠ ':')),
    path := path_segments ((uri.data.dropWhile (fun c => c ≠ ':')).drop 1) [] }

/-- Modelled from the spec: a `NautilusFile` object in the reference-counted cache of
section 3, which is not among the sources: `id` stands for the address of the object,
`ref_count` for the number of references held. -/
structure CachedFile where
  id : Nat
  location : CanonicalLocation
  ref_count : Nat
  deriving DecidableEq, Repr

/-- Modelled from the spec: the reference-counted cache of section 3, which is not among
the sources: the objects alive and the address the next object gets. -/
structure FileCache where
  files : List CachedFile
  next_id : Nat
  deriving DecidableEq, Repr

/-- Modelled from the spec: one more reference to the object `id` of the cache of
section 3, which is not among the sources. -/
def FileCache.add_ref (cache : FileCache) (id : Nat) : FileCache :=
  { cache with
    files := cache.files.map
      (fun g => if g.id = id then { g with ref_count := g.ref_count + 1 } else g) }

/-- Modelled from the spec: `nautilus_file_get_by_uri`, which is not among the sources, as
the lookup in the reference-counted cache that deduplicates the references to one location
(section 3). The object alive for the canonical location of the URI is returned with one
more reference; when there is none, a new object with one reference is made. The result is
the new cache and the address of the object. -/
def nautilus_file_get_by_uri (cache : FileCache)
    (uri : String) : FileCache × Nat :=
  match cache.files.find? (fun f => f.location = canonical_location uri) with
  | some f => (cache.add_ref f.id, f.id)
  | none =>
    (FileCache.mk (cache.files ++ [CachedFile.mk cache.next_id (canonical_location uri) 1])
      (cache.next_id + 1), cache.next_id)

/-- Modelled from the spec: `nautilus_file_unref`, which is not among the sources, on the
reference-counted cache of section 3: one reference less, and an object without references
is destroyed and leaves the cache. -/
def nautilus_file_unref (cache : FileCache) (id : Nat) : FileCache :=
  { cache with
    files := (cache.files.map
      (fun g => if g.id = id then { g with ref_count := g.ref_count - 1 } else g)).filter
        (fun g => g.ref_count ≠ 0) }

/-- Modelled from the spec: a call on the cache of section 3, which is not among the
sources: `nautilus_file_get_by_uri` or `nautilus_file_unref`. -/
inductive CacheCall where
  | get (uri : String) : CacheCall
  | unref (id : Nat) : CacheCall
  deriving Repr

/-- Modelled from the spec: a sequence of calls on the cache of section 3, which is not
among the sources, run in order. -/
def run_cache_calls (calls : List CacheCall)
    (cache : FileCache) : FileCache :=
  calls.foldl (fun c call =>
    match call with
    | .get uri => (nautilus_file_get_by_uri c uri).1
    | .unref id => nautilus_file_unref c id) cache

/-- The cache holds at most one object for a location, no two objects have the same
address, and the addresses in use are below the next address. -/
def cache_wf (cache : FileCache) : Prop :=
  (cache.files.map (fun f => f.location)).Nodup ∧ (cache.files.map (fun f => f.id)).Nodup ∧
    ∀ f ∈ cache.files, f.id < cache.next_id

instance (cache : FileCache) : Decidable (cache_wf cache) := by
  unfold cache_wf; infer_instance

/-- A reference to the object `id` is held: the object is alive in the cache. -/
def reference_held (cache : FileCache) (id : Nat) : Prop := ∃ f ∈ cache.files, f.id = id

instance (cache : FileCache) (id : Nat) : Decidable (reference_held cache id) := by
  unfold reference_held; infer_instance

/-- What a call keeps: the cache stays well formed, the addresses in use stay below the
next address, which does not decrease, and an object keeps its location. -/
def CacheStep (c c1 : FileCache) : Prop :=
  (cache_wf c → cache_wf c1) ∧ c.next_id ≤ c1.next_id ∧
    ∀ f ∈ c1.files, (∃ g ∈ c.files, g.id = f.id ∧ g.location = f.location) ∨
      (c.next_id ≤ f.id)

/-- The cache before any file was asked for. -/
def FileCache.empty : FileCache := { files := [], next_id := 0 }

/-- The bytes of a name whose base is two UTF-8 continuation bytes, followed by `.txt`:
not well-formed UTF-8. -/
def fixture_continuation_name : CString := [0x80, 0x80] ++ ascii ".txt"

/-- The locations that `setup_button_type` makes root-like: the home directory, the recent
and the starred directory, the root of a mounted mount, the other-locations directory and
the admin root `admin:///`; the root directory, which is tested before them, is not. -/
def root_like (kinds : LocationKinds) (location : GFile) : Bool :=
  !kinds.nautilus_is_root_directory location &&
    (kinds.nautilus_is_home_directory location || kinds.nautilus_is_recent_directory location ||
      kinds.nautilus_is_starred_directory location ||
      (kinds.nautilus_get_mounted_mount_for_root location).isSome ||
      kinds.nautilus_is_other_locations_directory location || location.uri == "admin:///")

/-- The types of the buttons that are root-like. -/
def root_like_type (type : ButtonType) : Bool :=
  type == ButtonType.HOME_BUTTON || type == ButtonType.RECENT_BUTTON ||
    type == ButtonType.STARRED_BUTTON || type == ButtonType.MOUNT_BUTTON ||
    type == ButtonType.OTHER_LOCATIONS_BUTTON || type == ButtonType.ADMIN_ROOT_BUTTON

/-- The file `recent:///` without parent, and the same location as a child of `file:///`:
a sample of a location that is root-like without being the home directory. -/
def fixture_recent : NautilusFile :=
  .inside ⟨"recent:///"⟩ "Recent" (.toplevel ⟨"file:///"⟩ "/")

/-- A sample answer of the location predicates with a recent directory. -/
def fixture_kinds_recent : LocationKinds :=
  { nautilus_is_root_directory := fun l => l.uri == "file:///",
    nautilus_is_home_directory := fun _ => false,
    nautilus_is_recent_directory := fun l => l.uri == "recent:///",
    nautilus_is_starred_directory := fun _ => false,
    nautilus_get_mounted_mount_for_root := fun _ => none,
    nautilus_is_other_locations_directory := fun _ => false }

/-- A string of `2 ^ 31` characters `a`: one more than the largest `int`. -/
def fixture_long_string : UString := List.replicate (2 ^ 31) 97

/-- The plan of the move of the file `first_dir/first_dir_child` into `second_dir`: a
single MoveFile step. -/
def fixture_file_move_plan : TransferPlan :=
  [{ kind := StepKind.MoveFile, source := some ["first_dir", "first_dir_child"],
     destination := ["second_dir", "first_dir_child"], size_hint := 0 }]

/-! # Theorems -/

/-! ## `nautilus_filename_shorten_base` -/

theorem size_sub_eq (a b : Nat) (ha : a < SIZE_MOD) (hb : b ≤ a) : size_sub a b = a - b := by
  unfold size_sub
  have hb' : b < SIZE_MOD := lt_of_le_of_lt hb ha
  rw [Nat.mod_eq_of_lt ha, Nat.mod_eq_of_lt hb']
  have : a + SIZE_MOD - b = (a - b) + SIZE_MOD := by omega
  rw [this, Nat.add_mod_right]
  exact Nat.mod_eq_of_lt (by omega)

theorem is_char_start_of_valid_head (b0 : Nat) (rest : List Nat) (h : utf8_valid (b0 :: rest) = true) :
    is_char_start b0 = true := by
  have hb : utf8_seq_len b0 ≠ 0 := by
    intro hc
    unfold utf8_valid at h
    rw [hc] at h
    exact Bool.false_ne_true h
  have hb : b0 < 0x80 ∨ (0xC2 ≤ b0 ∧ b0 ≤ 0xF4) := by
    by_contra hc
    push_neg at hc
    apply hb
    unfold utf8_seq_len
    rw [if_neg (by omega), if_neg (by omega), if_neg (by omega), if_neg (by omega)]
  unfold is_char_start
  rcases hb with hb | ⟨h1, h2⟩
  · interval_cases b0 <;> decide
  · interval_cases b0 <;> decide

theorem find_prev_char_some (str : CString) (h0 : is_char_start (str.getD 0 0) = true) :
    ∀ p, 0 < p → ∃ q, g_utf8_find_prev_char str p = some q ∧ q < p
  | 0, h => absurd h (by decide)
  | p + 1, _ => by
    unfold g_utf8_find_prev_char
    by_cases hc : is_char_start (str.getD p 0) = true
    · exact ⟨p, by rw [if_pos hc], Nat.lt_succ_self p⟩
    · rcases Nat.eq_zero_or_pos p with hp | hp
      · subst hp; exact absurd h0 hc
      · obtain ⟨q, hq, hlt⟩ := find_prev_char_some str h0 p hp
        exact ⟨q, by rw [if_neg hc, hq], Nat.lt_succ_of_lt hlt⟩

theorem shorten_search_some (base : CString) (reduced_length : Nat)
    (h0 : is_char_start (base.getD 0 0) = true) :
    ∀ fuel pos, 0 < pos → pos < fuel →
      ∃ q, shorten_search base reduced_length fuel pos = some q ∧ q ≤ reduced_length ∧ q < pos
  | 0, _, _, h => absurd h (Nat.not_lt_zero _)
  | fuel + 1, pos, hpos, hfuel => by
    obtain ⟨q, hq, hlt⟩ := find_prev_char_some base h0 pos hpos
    unfold shorten_search
    rw [hq]
    by_cases hgt : q > reduced_length
    · have hq0 : 0 < q := by omega
      obtain ⟨r, hr, hle, hrq⟩ := shorten_search_some base reduced_length h0 fuel q hq0 (by omega)
      exact ⟨r, by simp [hgt, hr], hle, by omega⟩
    · exact ⟨q, by simp [hgt], by omega, hlt⟩

theorem strncpy_bytes_take (s rest : List Nat) (hs : ∀ b ∈ s, b ≠ 0) :
    ∀ n, n ≤ s.length → strncpy_bytes (s ++ rest) n = some (s.take n) := by
  induction s with
  | nil => intro n hn; simp at hn; subst hn; simp [strncpy_bytes]
  | cons c cs ih =>
    intro n hn
    cases n with
    | zero => simp [strncpy_bytes]
    | succ n =>
      have hc : c ≠ 0 := hs c (List.mem_cons_self _ _)
      have := ih (fun b hb => hs b (List.mem_cons_of_mem _ hb)) n (by simpa using hn)
      simp [strncpy_bytes, hc, this]


theorem store_at_zero_block (n k : Nat) (bytes : List Nat) (h : bytes.length = k) :
    store_at (List.replicate (k + n) 0) 0 bytes = some (bytes ++ List.replicate n 0) := by
  unfold store_at
  rw [if_pos (by simp; omega)]
  simp [h]

theorem store_at_tail (pre bytes : List Nat) (n : Nat) (h : bytes.length = n) :
    store_at (pre ++ List.replicate n 0) pre.length bytes = some (pre ++ bytes) := by
  unfold store_at
  rw [if_pos (by simp; omega)]
  simp [h]

theorem find_prev_char_lt (str : CString) :
    ∀ p q, g_utf8_find_prev_char str p = some q → q < p
  | 0, q, h => by simp [g_utf8_find_prev_char] at h
  | p + 1, q, h => by
    unfold g_utf8_find_prev_char at h
    by_cases hc : is_char_start (str.getD p 0) = true
    · rw [if_pos hc] at h
      cases h
      exact Nat.lt_succ_self _
    · rw [if_neg hc] at h
      exact Nat.lt_succ_of_lt (find_prev_char_lt str p q h)

theorem shorten_search_bound (base : CString) (reduced_length : Nat) :
    ∀ fuel pos q, shorten_search base reduced_length fuel pos = some q →
      q < pos ∧ q ≤ reduced_length
  | 0, _, _, h => by simp [shorten_search] at h
  | fuel + 1, pos, q, h => by
    unfold shorten_search at h
    cases hfp : g_utf8_find_prev_char base pos with
    | none => rw [hfp] at h; cases h
    | some r =>
      rw [hfp] at h
      have hr := find_prev_char_lt base pos r hfp
      by_cases hgt : r > reduced_length
      · simp only [hgt, if_true] at h
        have := shorten_search_bound base reduced_length fuel r q h
        exact ⟨by omega, this.2⟩
      · simp only [hgt, if_false] at h
        cases h
        exact ⟨hr, by omega⟩

/-- Shape of the run of `nautilus_filename_shorten_base` once both early returns are passed. -/
theorem shorten_base_run (b s : CString) (max_length : Int)
    (hf : is_c_string (b ++ s)) (hlen : strlen (b ++ s) < SIZE_MOD)
    (hmax : 0 < max_length) (hgt : max_length < strlen (b ++ s))
    (hex : (strlen (b ++ s) : Int) - max_length ≤ strlen b) :
    nautilus_filename_shorten_base (b ++ s) b max_length =
      (shorten_search b (strlen b - (strlen (b ++ s) - max_length.toNat)) (strlen b + 1) (strlen b)).map
        (fun q => (true, b.take q ++ s)) := by
  have hm : (max_length.toNat : Int) = max_length := Int.toNat_of_nonneg (le_of_lt hmax)
  generalize max_length.toNat = m at hm
  subst hm
  simp only [strlen, List.length_append] at *
  have hgt' : m < b.length + s.length := by exact_mod_cast hgt
  have hex' : b.length + s.length - m ≤ b.length := by omega
  have hm0 : 0 < m := by exact_mod_cast hmax
  unfold nautilus_filename_shorten_base
  simp only [strlen, List.length_append]
  rw [if_neg (by push_neg; exact ⟨hmax, by simpa using hgt'⟩)]
  simp only [Int.toNat_ofNat]
  rw [size_sub_eq _ _ hlen (by omega), size_sub_eq _ _ hlen (by omega),
    size_sub_eq _ _ (by omega) hex', if_neg (by omega)]
  have hsl : b.length + s.length - b.length = s.length := by omega
  rw [hsl]
  cases hs : shorten_search b (b.length - (b.length + s.length - m)) (b.length + 1) b.length with
  | none => rfl
  | some q =>
    have hq := (shorten_search_bound b _ _ _ q hs).1
    have hbz : ∀ x ∈ b, x ≠ 0 := fun x hx => by
      have := (hf x (List.mem_append_left _ hx)).1; omega
    have hsz : ∀ x ∈ s, x ≠ 0 := fun x hx => by
      have := (hf x (List.mem_append_right _ hx)).1; omega
    have hadd : size_add s.length q = q + s.length := by
      unfold size_add; rw [Nat.add_comm]; exact Nat.mod_eq_of_lt (by omega)
    have h1 : strncpy (g_new0 (q + s.length)) 0 (c_block b) q
        = some (b.take q ++ List.replicate s.length 0) := by
      unfold strncpy c_block g_new0
      rw [strncpy_bytes_take b [0] hbz q (by omega)]
      exact store_at_zero_block s.length q (b.take q) (by simp; omega)
    have h2 : strncpy (b.take q ++ List.replicate s.length 0) q
        ((c_block (b ++ s)).drop b.length) s.length = some (b.take q ++ s) := by
      unfold strncpy c_block
      have hd : ((b ++ s) ++ [0]).drop b.length = s ++ [0] := by
        rw [List.append_assoc, List.drop_left]
      rw [hd, strncpy_bytes_take s [0] hsz s.length (le_refl _), List.take_length]
      have hl : (b.take q).length = q := by simp; omega
      have := store_at_tail (b.take q) s s.length rfl
      rw [hl] at this
      exact this
    simp only [hadd, h1, Option.bind_some, Option.map_some']
    rw [Option.some_bind, h2]
    rfl



theorem head_start_of_valid (f b : CString) (hpre : b <+: f) (hb : b ≠ [])
    (hutf : utf8_valid f = true ∨ utf8_valid b = true) : is_char_start (b.getD 0 0) = true := by
  obtain ⟨s, rfl⟩ := hpre
  cases b with
  | nil => exact absurd rfl hb
  | cons b0 rest =>
    rcases hutf with h | h
    · exact is_char_start_of_valid_head b0 (rest ++ s) h
    · exact is_char_start_of_valid_head b0 rest h

theorem strlen_in_block_none : ∀ blk : List Nat, (∀ x ∈ blk, x ≠ 0) → strlen_in_block blk = none
  | [], _ => rfl
  | c :: cs, h => by
    have hc : c ≠ 0 := h c (List.mem_cons_self _ _)
    have := strlen_in_block_none cs (fun x hx => h x (List.mem_cons_of_mem _ hx))
    simp [strlen_in_block, hc, this]

theorem strlen_in_block_c_block : ∀ s : CString, is_c_string s →
    strlen_in_block (c_block s) = some (strlen s)
  | [], _ => rfl
  | c :: cs, h => by
    have hc : c ≠ 0 := by
      have := (h c (List.mem_cons_self _ _)).1
      omega
    have := strlen_in_block_c_block cs (fun x hx => h x (List.mem_cons_of_mem _ hx))
    simp only [c_block, strlen] at this ⊢
    simp [strlen_in_block, hc, this]

/-- C3. The claim fails in the code: under its conditions (the name longer than
`max_length`, the excess at most the length of the base, a prefix of the name, valid UTF-8)
the function returns `TRUE` and the block it stores holds at most `max_length` bytes, but
none of them is NUL, so `strlen` of the stored name has no defined value: it reads past the
block. -/
theorem shorten_base_stored_length_undefined (f b : CString) (max_length : Int)
    (hf : is_c_string f) (hlen : strlen f < SIZE_MOD) (hpre : b <+: f)
    (hutf : utf8_valid f = true ∨ utf8_valid b = true)
    (hmax : 0 < max_length) (hgt : max_length < strlen f)
    (hex : (strlen f : Int) - max_length ≤ strlen b) :
    ∃ blk, nautilus_filename_shorten_base f b max_length = some (true, blk) ∧
      (blk.length : Int) ≤ max_length ∧ strlen_in_block blk = none := by
  have hb : b ≠ [] := by
    rintro rfl
    simp only [strlen, List.length_nil] at hex hgt
    omega
  have h0 := head_start_of_valid f b hpre hb hutf
  obtain ⟨s, rfl⟩ := hpre
  rw [shorten_base_run b s max_length hf hlen hmax hgt hex]
  have hbl : 0 < strlen b := List.length_pos.mpr hb
  obtain ⟨q, hq, hle, hlt⟩ := shorten_search_some b
    (strlen b - (strlen (b ++ s) - max_length.toNat)) h0 (strlen b + 1) (strlen b) hbl
    (Nat.lt_succ_self _)
  refine ⟨b.take q ++ s, by rw [hq]; rfl, ?_, ?_⟩
  · have h2 : (b.take q ++ s).length = q + s.length := by
      simp only [strlen] at hlt
      simp; omega
    simp only [strlen, List.length_append] at *
    omega
  · apply strlen_in_block_none
    intro x hx
    have hx' : x ∈ b ++ s := by
      rcases List.mem_append.mp hx with hx | hx
      · exact List.mem_append_left _ (List.mem_of_mem_take hx)
      · exact List.mem_append_right _ hx
    have := (hf x hx').1
    omega

/-- C3, on the input of the test: the call returns `TRUE` and stores the 20 bytes of
`great-text-123456789` in a block of 20 bytes; `strlen` on it finds no NUL. -/
theorem shorten_base_stored_length_undefined_witness :
    nautilus_filename_shorten_base (ascii "great-text-but-sadly-too-long-123456789")
        (ascii "great-text-but-sadly-too-long") 20 = some (true, ascii "great-text-123456789") ∧
      strlen_in_block (ascii "great-text-123456789") = none ∧
      ∃ blk, nautilus_filename_shorten_base (ascii "great-text-but-sadly-too-long-123456789")
          (ascii "great-text-but-sadly-too-long") 20 = some (true, blk) ∧
        (blk.length : Int) ≤ 20 ∧ strlen_in_block blk = none :=
  ⟨by decide, by decide,
    shorten_base_stored_length_undefined (ascii "great-text-but-sadly-too-long-123456789")
      (ascii "great-text-but-sadly-too-long") 20 (by decide) (by decide) (by decide)
      (Or.inl (by decide)) (by decide) (by decide) (by decide)⟩

/-- Both early returns of `nautilus_filename_shorten_base`. -/
theorem shorten_base_early (f b : CString) (max_length : Int) (hlen : strlen f < SIZE_MOD)
    (h : max_length ≤ 0 ∨ (strlen f : Int) ≤ max_length ∨
      (strlen b : Int) < (strlen f : Int) - max_length) :
    nautilus_filename_shorten_base f b max_length = some (false, c_block f) := by
  unfold nautilus_filename_shorten_base
  by_cases h1 : max_length ≤ 0 ∨ strlen f ≤ max_length.toNat
  · rw [if_pos h1]
  · rw [if_neg h1]
    push_neg at h1
    have hm : (max_length.toNat : Int) = max_length := Int.toNat_of_nonneg (le_of_lt h1.1)
    have h3 : (strlen b : Int) < (strlen f : Int) - max_length := by
      rcases h with h | h | h
      · omega
      · omega
      · exact h
    have hsub : size_sub (strlen f) max_length.toNat = strlen f - max_length.toNat :=
      size_sub_eq _ _ hlen (by omega)
    simp only [hsub]
    rw [if_pos (by omega)]

/-- C5: a name of at most `max_length` bytes is left alone: the function returns
`FALSE` and `*filename` still points to the block of the old string. -/
theorem shorten_base_not_needed (f b : CString) (max_length : Int)
    (h : (strlen f : Int) ≤ max_length) :
    nautilus_filename_shorten_base f b max_length = some (false, c_block f) := by
  unfold nautilus_filename_shorten_base
  rw [if_pos]
  by_cases h0 : max_length ≤ 0
  · exact Or.inl h0
  · right
    have hm : (max_length.toNat : Int) = max_length := Int.toNat_of_nonneg (by omega)
    omega

theorem shorten_base_not_needed_witness :
    (strlen (ascii "great-text-123456789") : Int) ≤ 20 ∧
    nautilus_filename_shorten_base (ascii "great-text-123456789") (ascii "great-text") 20 =
      some (false, c_block (ascii "great-text-123456789")) :=
  ⟨by decide, shorten_base_not_needed (ascii "great-text-123456789") (ascii "great-text") 20
    (by decide)⟩

/-- C4: when the function returns `TRUE`, the bytes it stores are a prefix of the
base followed by the part of the old name after its first `strlen (base)`
bytes, unchanged. -/
theorem shorten_base_keeps_suffix (f b : CString) (max_length : Int) (blk : List Nat)
    (hf : is_c_string f) (hlen : strlen f < SIZE_MOD) (hpre : b <+: f)
    (h : nautilus_filename_shorten_base f b max_length = some (true, blk)) :
    ∃ p : CString, p <+: b ∧ blk = p ++ f.drop (strlen b) := by
  by_cases hc : max_length ≤ 0 ∨ (strlen f : Int) ≤ max_length ∨
      (strlen b : Int) < (strlen f : Int) - max_length
  · rw [shorten_base_early f b max_length hlen hc] at h
    simp at h
  · push_neg at hc
    obtain ⟨s, rfl⟩ := hpre
    rw [shorten_base_run b s max_length hf hlen hc.1 hc.2.1 hc.2.2] at h
    cases hs : shorten_search b (strlen b - (strlen (b ++ s) - max_length.toNat)) (strlen b + 1)
        (strlen b) with
    | none => rw [hs] at h; simp at h
    | some q =>
      rw [hs] at h
      simp only [Option.map_some', Option.some.injEq, Prod.mk.injEq, true_and] at h
      refine ⟨b.take q, List.take_prefix q b, ?_⟩
      rw [← h]
      simp [strlen]

theorem shorten_base_keeps_suffix_witness :
    ∃ p : CString, p <+: ascii "great-text-but-sadly-too-long" ∧
      ascii "great-text-123456789" =
        p ++ (ascii "great-text-but-sadly-too-long-123456789").drop
          (strlen (ascii "great-text-but-sadly-too-long")) :=
  shorten_base_keeps_suffix (ascii "great-text-but-sadly-too-long-123456789")
    (ascii "great-text-but-sadly-too-long") 20 (ascii "great-text-123456789")
    (by decide) (by decide) (by decide) (by decide)

/-! ## `eel_str_get_common_prefix` -/


theorem to_int_of_small (n : Nat) (h : (n : Int) < 2 ^ 31) : to_int n = n := by
  unfold to_int
  norm_num at h ⊢
  omega

theorem common_prefix2_prefix_left : ∀ a b : UString, common_prefix2 a b <+: a
  | [], _ => by simp [common_prefix2]
  | _ :: _, [] => by simp [common_prefix2]
  | x :: as, y :: bs => by
    unfold common_prefix2
    by_cases h : x = y
    · rw [if_pos h]
      exact (List.prefix_cons_inj x).mpr (common_prefix2_prefix_left as bs)
    · rw [if_neg h]; exact List.nil_prefix

theorem common_prefix2_prefix_right : ∀ a b : UString, common_prefix2 a b <+: b
  | [], _ => by simp [common_prefix2]
  | _ :: _, [] => by simp [common_prefix2]
  | x :: as, y :: bs => by
    unfold common_prefix2
    by_cases h : x = y
    · rw [if_pos h]; subst h
      exact (List.prefix_cons_inj x).mpr (common_prefix2_prefix_right as bs)
    · rw [if_neg h]; exact List.nil_prefix

theorem common_prefix2_greatest : ∀ (q a b : UString), q <+: a → q <+: b → q <+: common_prefix2 a b
  | [], _, _, _, _ => List.nil_prefix
  | c :: q, [], _, ha, _ => by simp at ha
  | c :: q, _ :: _, [], _, hb => by simp at hb
  | c :: q, x :: as, y :: bs, ha, hb => by
    rw [List.cons_prefix_cons] at ha hb
    obtain ⟨rfl, ha⟩ := ha
    obtain ⟨rfl, hb⟩ := hb
    unfold common_prefix2
    rw [if_pos rfl]
    exact (List.prefix_cons_inj c).mpr (common_prefix2_greatest q as bs ha hb)

theorem common_prefix_loop_eq : ∀ (n : Nat) (m : Int) (a b : UString),
    n ≤ a.length → n ≤ b.length →
    common_prefix_loop n m a b = m + (min n (common_prefix2 a b).length : Nat)
  | 0, m, a, b, _, _ => by simp [common_prefix_loop]
  | n + 1, m, [], b, ha, _ => by simp at ha
  | n + 1, m, _ :: _, [], _, hb => by simp at hb
  | n + 1, m, x :: as, y :: bs, ha, hb => by
    unfold common_prefix_loop common_prefix2
    simp only [g_utf8_get_char, g_utf8_next_char, List.headD_cons, List.tail_cons]
    by_cases h : x = y
    · rw [if_neg (by simpa using h), if_pos h,
        common_prefix_loop_eq n (m + 1) as bs (by simpa using ha) (by simpa using hb)]
      simp only [List.length_cons, Nat.succ_min_succ]
      push_cast
      omega
    · rw [if_pos (by simpa using h), if_neg h]
      simp

theorem get_common_prefix_length_eq (a b : UString) (min_required_len : Int)
    (ha : (a.length : Int) < 2 ^ 31) (hb : (b.length : Int) < 2 ^ 31) :
    get_common_prefix_length a b min_required_len =
      if ((common_prefix2 a b).length : Int) < min_required_len then -1
      else ((common_prefix2 a b).length : Int) := by
  have hl := (common_prefix2_prefix_left a b).length_le
  have hr := (common_prefix2_prefix_right a b).length_le
  unfold get_common_prefix_length
  simp only [g_utf8_strlen, to_int_of_small _ ha, to_int_of_small _ hb, sub_zero]
  have hmin : min (a.length : Int) (b.length : Int) = ((min a.length b.length : Nat) : Int) := by
    simp
  rw [hmin, Int.toNat_ofNat,
    common_prefix_loop_eq (min a.length b.length) 0 a b (Nat.min_le_left _ _) (Nat.min_le_right _ _)]
  have hk : min (min a.length b.length) (common_prefix2 a b).length = (common_prefix2 a b).length := by
    omega
  rw [hk, zero_add]
  by_cases h1 : ((min a.length b.length : Nat) : Int) < min_required_len
  · rw [if_pos h1, if_pos (by omega)]
  · rw [if_neg h1]


theorem foldl_common_prefix2_init : ∀ (rest : List UString) (cp : UString),
    rest.foldl common_prefix2 cp <+: cp
  | [], cp => List.prefix_refl cp
  | name :: l, cp => by
    rw [List.foldl_cons]
    exact (foldl_common_prefix2_init l _).trans (common_prefix2_prefix_left cp name)

theorem foldl_common_prefix2_mem : ∀ (rest : List UString) (cp : UString),
    ∀ s ∈ rest, rest.foldl common_prefix2 cp <+: s
  | [], _, s, hs => by simp at hs
  | name :: l, cp, s, hs => by
    rw [List.foldl_cons]
    rcases List.mem_cons.mp hs with rfl | hs
    · exact (foldl_common_prefix2_init l _).trans (common_prefix2_prefix_right cp s)
    · exact foldl_common_prefix2_mem l _ s hs

theorem foldl_common_prefix2_greatest : ∀ (rest : List UString) (cp q : UString),
    q <+: cp → (∀ s ∈ rest, q <+: s) → q <+: rest.foldl common_prefix2 cp
  | [], _, _, h, _ => h
  | name :: l, cp, q, h, hq => by
    rw [List.foldl_cons]
    exact foldl_common_prefix2_greatest l _ q
      (common_prefix2_greatest q cp name h (hq name (List.mem_cons_self _ _)))
      (fun s hs => hq s (List.mem_cons_of_mem _ hs))

theorem substring_common_prefix2 (a b : UString) :
    g_utf8_substring a 0 ((common_prefix2 a b).length : Int) = common_prefix2 a b := by
  unfold g_utf8_substring
  simp only [Int.toNat_zero, List.drop_zero, Int.toNat_ofNat, Nat.sub_zero]
  exact List.prefix_iff_eq_take.mp (common_prefix2_prefix_left a b) |>.symm

/-- The loop and the final length test of `eel_str_get_common_prefix` compute the
folded pairwise common prefix, and give `NULL` exactly when it is too short. -/
theorem common_prefix_for_eq (min_required_len : Int) :
    ∀ (rest : List UString) (cp : UString), (cp.length : Int) < 2 ^ 31 →
      (∀ s ∈ rest, (s.length : Int) < 2 ^ 31) →
      (match common_prefix_for min_required_len (rest.map some) cp with
        | none => none
        | some common_part =>
          if to_int (g_utf8_strlen common_part) < min_required_len then none
          else some common_part) =
      if ((rest.foldl common_prefix2 cp).length : Int) < min_required_len then none
      else some (rest.foldl common_prefix2 cp)
  | [], cp, hcp, _ => by
    simp only [List.map_nil, common_prefix_for, List.foldl_nil, g_utf8_strlen,
      to_int_of_small _ hcp]
  | name :: l, cp, hcp, hrest => by
    have hname := hrest name (List.mem_cons_self _ _)
    have hl : ∀ s ∈ l, (s.length : Int) < 2 ^ 31 := fun s hs => hrest s (List.mem_cons_of_mem _ hs)
    have hle := (common_prefix2_prefix_left cp name).length_le
    have hfold := (foldl_common_prefix2_init l (common_prefix2 cp name)).length_le
    simp only [List.map_cons, common_prefix_for, List.foldl_cons]
    rw [get_common_prefix_length_eq cp name min_required_len hcp hname]
    by_cases hk : ((common_prefix2 cp name).length : Int) < min_required_len
    · rw [if_pos hk, if_pos rfl, if_pos (by omega)]
    · rw [if_neg hk, if_neg (by omega), substring_common_prefix2]
      exact common_prefix_for_eq min_required_len l (common_prefix2 cp name) (by omega) hl

theorem eel_common_prefix_eq (name : UString) (rest : List UString) (min_required_len : Int)
    (hlen : ∀ s ∈ name :: rest, (s.length : Int) < 2 ^ 31) :
    eel_str_get_common_prefix ((name :: rest).map some) min_required_len =
      if ((rest.foldl common_prefix2 name).length : Int) < min_required_len then none
      else some (rest.foldl common_prefix2 name) := by
  simp only [List.map_cons, eel_str_get_common_prefix]
  exact common_prefix_for_eq min_required_len rest name (hlen name (List.mem_cons_self _ _))
    (fun s hs => hlen s (List.mem_cons_of_mem _ hs))

/-- On non-`NULL` strings the function returns `NULL` exactly when the common
prefix of the list has fewer than `min_required_len` characters. -/
theorem eel_common_prefix_null_iff (name : UString) (rest : List UString)
    (min_required_len : Int) (hlen : ∀ s ∈ name :: rest, (s.length : Int) < 2 ^ 31) :
    eel_str_get_common_prefix ((name :: rest).map some) min_required_len = none ↔
      ((rest.foldl common_prefix2 name).length : Int) < min_required_len := by
  rw [eel_common_prefix_eq name rest min_required_len hlen]
  by_cases h : ((rest.foldl common_prefix2 name).length : Int) < min_required_len
  · simp [h]
  · simp [h]

theorem longest_common_prefix_unique (name : UString) (rest : List UString) (p : UString)
    (hp : is_longest_common_prefix p (name :: rest)) : p = rest.foldl common_prefix2 name := by
  have h1 : p <+: rest.foldl common_prefix2 name :=
    foldl_common_prefix2_greatest rest name p (hp.1 name (List.mem_cons_self _ _))
      (fun s hs => hp.1 s (List.mem_cons_of_mem _ hs))
  have h2 : (rest.foldl common_prefix2 name).length ≤ p.length := by
    apply hp.2
    intro s hs
    rcases List.mem_cons.mp hs with rfl | hs
    · exact foldl_common_prefix2_init rest s
    · exact foldl_common_prefix2_mem rest name s hs
  exact h1.eq_of_length_le h2

/-- C6, as amended: when the longest common prefix `p` of a non-empty list of strings,
each of fewer than `2 ^ 31` characters, has at least `min_required_len` characters,
`eel_str_get_common_prefix` returns `p`. -/
theorem eel_str_get_common_prefix_longest (strs : List UString) (min_required_len : Int)
    (p : UString) (hne : strs ≠ []) (hlen : ∀ s ∈ strs, (s.length : Int) < 2 ^ 31)
    (hp : is_longest_common_prefix p strs) (hmin : min_required_len ≤ (p.length : Int)) :
    eel_str_get_common_prefix (strs.map some) min_required_len = some p := by
  cases strs with
  | nil => exact absurd rfl hne
  | cons name rest =>
    rw [eel_common_prefix_eq name rest min_required_len hlen,
      ← longest_common_prefix_unique name rest p hp, if_neg (by omega)]

theorem is_longest_common_prefix_foldl (name : UString) (rest : List UString) :
    is_longest_common_prefix (rest.foldl common_prefix2 name) (name :: rest) := by
  refine ⟨fun s hs => ?_, fun q hq => ?_⟩
  · rcases List.mem_cons.mp hs with rfl | hs
    · exact foldl_common_prefix2_init rest s
    · exact foldl_common_prefix2_mem rest name s hs
  · exact (foldl_common_prefix2_greatest rest name q (hq name (List.mem_cons_self _ _))
      (fun s hs => hq s (List.mem_cons_of_mem _ hs))).length_le

theorem eel_str_get_common_prefix_longest_witness :
    eel_str_get_common_prefix ([ascii "photo-01.jpg", ascii "photo-02.jpg", ascii "photo-1.png"].map
      some) 4 = some (ascii "photo-") :=
  eel_str_get_common_prefix_longest [ascii "photo-01.jpg", ascii "photo-02.jpg", ascii "photo-1.png"]
    4 (ascii "photo-") (by decide) (by decide)
    (is_longest_common_prefix_foldl (ascii "photo-01.jpg") [ascii "photo-02.jpg", ascii "photo-1.png"])
    (by decide)

/-- C7: for the strings "a" and "b", which share no leading character, and
`min_required_len = 0` the function returns the empty string, not `NULL`. -/
theorem eel_str_get_common_prefix_no_common_not_null :
    eel_str_get_common_prefix [some (ascii "a"), some (ascii "b")] 0 = some [] := by
  decide

/-! ## The move engine -/

theorem lookup_entry_eq_none {fs : FileSystem} {q : FileReference} :
    lookup_entry fs q = none ↔ ∀ x ∈ fs, x.1 ≠ q := by
  induction fs with
  | nil => simp [lookup_entry]
  | cons x rest ih =>
    obtain ⟨p, e⟩ := x
    by_cases h : p = q
    · simp [lookup_entry, h]
    · simp [lookup_entry, h, ih]

theorem lookup_entry_ne_none {fs : FileSystem} {q : FileReference} :
    lookup_entry fs q ≠ none ↔ ∃ x ∈ fs, x.1 = q := by
  rw [Ne, lookup_entry_eq_none]
  push_neg
  rfl

theorem stat_root (fs : FileSystem) : stat fs [] = some Entry.Directory := by
  simp [stat]

theorem stat_of_ne_root {fs : FileSystem} {q : FileReference} (h : q ≠ []) :
    stat fs q = lookup_entry fs q := by
  simp [stat, h]

theorem ne_root_of_stat_none {fs : FileSystem} {q : FileReference} (h : stat fs q = none) :
    q ≠ [] := by
  rintro rfl
  rw [stat_root] at h
  cases h

theorem stat_cons (fs : FileSystem) (p q : FileReference) (e : Entry) (hp : p ≠ []) :
    stat ((p, e) :: fs) q = if q = p then some e else stat fs q := by
  by_cases hq : q = []
  · subst hq
    rw [if_neg (fun h => hp h.symm), stat_root, stat_root]
  · rw [stat_of_ne_root hq, stat_of_ne_root hq, lookup_entry]
    by_cases h : p = q
    · rw [if_pos h, if_pos h.symm]
    · rw [if_neg h, if_neg (fun h' => h h'.symm)]

theorem lookup_remove_entry (fs : FileSystem) (r q : FileReference) :
    lookup_entry (remove_entry fs r) q = if q = r then none else lookup_entry fs q := by
  induction fs with
  | nil => simp [remove_entry, lookup_entry]
  | cons x rest ih =>
    obtain ⟨p, e⟩ := x
    unfold remove_entry at ih ⊢
    by_cases hp : p = r
    · subst hp
      rw [List.filter_cons_of_neg (by simp), ih]
      by_cases hq : q = p
      · simp [hq]
      · rw [if_neg hq, if_neg hq, lookup_entry, if_neg (fun h => hq h.symm)]
    · rw [List.filter_cons_of_pos (by simpa using hp), lookup_entry, lookup_entry, ih]
      by_cases hq : q = r
      · rw [if_pos hq, if_pos hq, if_neg (by rw [hq]; exact hp)]
      · rw [if_neg hq, if_neg hq]

theorem stat_remove_entry (fs : FileSystem) (r q : FileReference) (hr : r ≠ []) :
    stat (remove_entry fs r) q = if q = r then none else stat fs q := by
  by_cases hq : q = []
  · subst hq
    rw [if_neg (fun h => hr h.symm), stat_root, stat_root]
  · rw [stat_of_ne_root hq, stat_of_ne_root hq, lookup_remove_entry]

theorem mem_list_children {fs : FileSystem} {p c : FileReference} :
    c ∈ list_children fs p ↔ c ≠ [] ∧ parent_of c = p ∧ stat fs c ≠ none := by
  unfold list_children
  simp only [List.mem_map, List.mem_filter, decide_eq_true_eq]
  constructor
  · rintro ⟨x, ⟨hx, h1, h2⟩, rfl⟩
    refine ⟨h1, h2, ?_⟩
    rw [stat_of_ne_root h1]
    exact lookup_entry_ne_none.mpr ⟨x, hx, rfl⟩
  · rintro ⟨h1, h2, h3⟩
    rw [stat_of_ne_root h1] at h3
    obtain ⟨x, hx, rfl⟩ := lookup_entry_ne_none.mp h3
    exact ⟨x, ⟨hx, h1, h2⟩, rfl⟩

theorem list_children_eq_nil {fs : FileSystem} {p : FileReference} :
    list_children fs p = [] ↔ ∀ c, c ≠ [] → parent_of c = p → stat fs c = none := by
  rw [List.eq_nil_iff_forall_not_mem]
  constructor
  · intro h c h1 h2
    by_contra h3
    exact h c (mem_list_children.mpr ⟨h1, h2, h3⟩)
  · intro h c hc
    obtain ⟨h1, h2, h3⟩ := mem_list_children.mp hc
    exact h3 (h c h1 h2)

theorem list_children_nodup {fs : FileSystem} (h : (fs.map (fun x => x.1)).Nodup)
    (p : FileReference) : (list_children fs p).Nodup := by
  unfold list_children
  exact (List.filter_sublist _).map _ |>.nodup h


theorem same_layout_refl (fs : FileSystem) : same_layout fs fs := fun _ => rfl

theorem same_layout_symm {fs g : FileSystem} (h : same_layout fs g) : same_layout g fs :=
  fun q => (h q).symm

theorem same_layout_trans {fs g k : FileSystem} (h1 : same_layout fs g) (h2 : same_layout g k) :
    same_layout fs k := fun q => (h1 q).trans (h2 q)

theorem parent_of_ne_self {q : FileReference} (h : q ≠ []) : parent_of q ≠ q := by
  intro hq
  have := congrArg List.length hq
  unfold parent_of at this
  rw [List.length_dropLast] at this
  have := List.length_pos.mpr h
  omega

theorem CleanStep.apply_ok {fs fs1 : FileSystem} {step : TransferStep}
    (h : CleanStep fs step fs1) : apply_step fs step = Except.ok fs1 := by
  cases h with
  | make s d hfree hempty hparent =>
    have hd := ne_root_of_stat_none hfree
    simp [apply_step, make_directory_step, create_directory, hd, hfree, hparent]
  | move s d size hsrc hfree hparent hback =>
    have hd := ne_root_of_stat_none hfree
    simp [apply_step, file_step, rename, hsrc, hd, hfree, hparent]
  | cleanup s d hroot hsrc hempty hback =>
    simp [apply_step, delete, hroot, hsrc, hempty]

theorem CleanStep.attempt_ok {fs fs1 : FileSystem} {step : TransferStep}
    (h : CleanStep fs step fs1) : attempt_step fs step = Except.ok fs1 := by
  unfold attempt_step
  rw [h.apply_ok]

theorem CleanStep.not_blocked {fs fs1 : FileSystem} {step : TransferStep}
    (h : CleanStep fs step fs1) : cleanup_blocked fs step = false := by
  cases h with
  | make s d hfree hempty hparent => simp [cleanup_blocked, make_directory_step]
  | move s d size hsrc hfree hparent hback => simp [cleanup_blocked, file_step]
  | cleanup s d hroot hsrc hempty hback => simp [cleanup_blocked, hempty]

theorem CleanStep.kind_ne {fs fs1 : FileSystem} {step : TransferStep}
    (h : CleanStep fs step fs1) : step.kind ≠ StepKind.SetMetadata := by
  cases h <;> simp [make_directory_step, file_step]

theorem CleanStep.removed_eq {fs fs1 : FileSystem} {step : TransferStep}
    (h : CleanStep fs step fs1) :
    ({ step := step, removed := removed_by fs step } : UndoEntry) = clean_entry step := by
  cases h with
  | make s d hfree hempty hparent => simp [clean_entry, removed_by, make_directory_step]
  | move s d size hsrc hfree hparent hback => simp [clean_entry, removed_by, file_step]
  | cleanup s d hroot hsrc hempty hback => simp [clean_entry, removed_by, hsrc]

theorem CleanRun.append {p1 p2 : TransferPlan} {fs fs1 fs2 : FileSystem}
    (h1 : CleanRun p1 fs fs1) (h2 : CleanRun p2 fs1 fs2) : CleanRun (p1 ++ p2) fs fs2 := by
  induction h1 with
  | nil fs => exact h2
  | cons step rest fs fsa fsb hstep _ ih => exact CleanRun.cons step _ fs fsa fs2 hstep (ih h2)

theorem CleanRun.single {fs fs1 : FileSystem} {step : TransferStep} (h : CleanStep fs step fs1) :
    CleanRun [step] fs fs1 :=
  CleanRun.cons step [] fs fs1 fs1 h (CleanRun.nil fs1)

/-- The executor completes every step of a clean run. -/
theorem CleanRun.run_steps_eq {p : TransferPlan} {fs fs1 : FileSystem} (h : CleanRun p fs fs1)
    (on_failure : FailurePolicy) (index : Nat) :
    run_steps on_failure none index p fs =
      { fs := fs1, outcomes := p.map (fun s => (s, TransferOutcome.Completed)),
        undo_entries := p.map clean_entry, cancelled := false } := by
  induction h generalizing index with
  | nil fs => simp [run_steps]
  | cons step rest fs fsa fsb hstep _ ih =>
    simp only [run_steps, is_cancelled, hstep.not_blocked, hstep.attempt_ok, if_neg hstep.kind_ne,
      ih (index + 1), Execution.after, hstep.removed_eq]
    simp

theorem apply_all_append (action : FileSystem → UndoEntry → Except ErrorKind FileSystem)
    (l1 l2 : List UndoEntry) (fs fs1 : FileSystem)
    (h : apply_all action l1 fs = Except.ok fs1) :
    apply_all action (l1 ++ l2) fs = apply_all action l2 fs1 := by
  induction l1 generalizing fs with
  | nil => simp only [apply_all] at h; cases h; rfl
  | cons e rest ih =>
    simp only [List.cons_append, apply_all] at h ⊢
    cases ha : action fs e with
    | error err => rw [ha] at h; cases h
    | ok fsa => rw [ha] at h; exact ih fsa h

/-- Replaying the entries of a clean run from its start gives its end. -/
theorem CleanRun.replay {p : TransferPlan} {fs fs1 : FileSystem} (h : CleanRun p fs fs1) :
    apply_all (fun g e => apply_step g e.step) (p.map clean_entry) fs = Except.ok fs1 := by
  induction h with
  | nil fs => rfl
  | cons step rest fs fsa fsb hstep _ ih =>
    simp only [List.map_cons, apply_all, clean_entry, hstep.apply_ok]
    exact ih


/-- The inverse action of a clean step, applied to a filesystem with the layout
after the step, gives back the layout before the step. -/
theorem CleanStep.invert {fs fs1 g : FileSystem} {step : TransferStep}
    (h : CleanStep fs step fs1) (hg : same_layout g fs1) :
    ∃ g1, invert_entry g (clean_entry step) = Except.ok g1 ∧ same_layout g1 fs := by
  cases h with
  | make s d hfree hempty hparent =>
    have hd := ne_root_of_stat_none hfree
    have hst : ∀ q, stat g q = if q = d then some Entry.Directory else stat fs q := fun q => by
      rw [hg q, stat_cons _ _ _ _ hd]
    have hgd : stat g d = some Entry.Directory := by rw [hst, if_pos rfl]
    have hch : list_children g d = [] := by
      rw [list_children_eq_nil] at hempty ⊢
      intro c h1 h2
      rw [hst, if_neg (fun hc => parent_of_ne_self h1 (by rw [h2, hc])), hempty c h1 h2]
    refine ⟨remove_entry g d, ?_, ?_⟩
    · simp [invert_entry, clean_entry, make_directory_step, delete, hd, hgd, hch]
    · intro q
      rw [stat_remove_entry _ _ _ hd, hst]
      by_cases hq : q = d
      · rw [if_pos hq, hq, hfree]
      · rw [if_neg hq, if_neg hq]
  | move s d size hsrc hfree hparent hback =>
    have hd := ne_root_of_stat_none hfree
    have hs : s ≠ [] := by
      rintro rfl; rw [stat_root] at hsrc; cases hsrc
    have hsd : s ≠ d := by
      rintro rfl; rw [hsrc] at hfree; cases hfree
    have hst : ∀ q, stat g q =
        if q = d then some (Entry.File size) else if q = s then none else stat fs q := fun q => by
      rw [hg q, stat_cons _ _ _ _ hd, stat_remove_entry _ _ _ hd, stat_remove_entry _ _ _ hs]
      by_cases h1 : q = d
      · simp [h1]
      · simp [h1]
    have hgd : stat g d = some (Entry.File size) := by rw [hst, if_pos rfl]
    have hgs : stat g s = none := by rw [hst, if_neg hsd, if_pos rfl]
    have hps : parent_of s ≠ d := by
      intro hc; rw [hc, hfree] at hback; cases hback
    have hgp : stat g (parent_of s) = some Entry.Directory := by
      rw [hst, if_neg hps, if_neg (parent_of_ne_self hs), hback]
    refine ⟨(s, Entry.File size) :: remove_entry (remove_entry g d) s, ?_, ?_⟩
    · simp [invert_entry, clean_entry, file_step, rename, hgd, hs, hgp, hgs]
    · intro q
      rw [stat_cons _ _ _ _ hs, stat_remove_entry _ _ _ hs, stat_remove_entry _ _ _ hd, hst]
      by_cases h1 : q = s
      · rw [if_pos h1, h1, hsrc]
      · by_cases h2 : q = d
        · simp [h2, hfree, Ne.symm hsd]
        · simp [h1, h2]
  | cleanup s d hroot hsrc hempty hback =>
    have hst : ∀ q, stat g q = if q = s then none else stat fs q := fun q => by
      rw [hg q, stat_remove_entry _ _ _ hroot]
    have hgs : stat g s = none := by rw [hst, if_pos rfl]
    have hgp : stat g (parent_of s) = some Entry.Directory := by
      rw [hst, if_neg (parent_of_ne_self hroot), hback]
    refine ⟨(s, Entry.Directory) :: g, ?_, ?_⟩
    · simp [invert_entry, clean_entry, create_directory, hroot, hgs, hgp]
    · intro q
      rw [stat_cons _ _ _ _ hroot, hst]
      by_cases h1 : q = s
      · rw [if_pos h1, h1, hsrc]
      · rw [if_neg h1, if_neg h1]

/-- Inverting the entries of a clean run in reverse order, from a filesystem with
the layout of its end, gives back the layout of its start. -/
theorem CleanRun.invert_all {p : TransferPlan} {fs fs1 : FileSystem} (h : CleanRun p fs fs1) :
    ∀ g, same_layout g fs1 →
      ∃ g1, apply_all invert_entry (p.map clean_entry).reverse g = Except.ok g1 ∧
        same_layout g1 fs := by
  induction h with
  | nil fs => intro g hg; exact ⟨g, rfl, hg⟩
  | cons step rest fs fsa fsb hstep _ ih =>
    intro g hg
    obtain ⟨g1, h1, hl1⟩ := ih g hg
    obtain ⟨g2, h2, hl2⟩ := hstep.invert hl1
    refine ⟨g2, ?_, hl2⟩
    rw [List.map_cons, List.reverse_cons, apply_all_append _ _ _ _ _ h1]
    simp only [apply_all, h2]

theorem apart_symm {a b : FileReference} (h : apart a b) : apart b a := ⟨h.2, h.1⟩

theorem apart_not_both {a b q : FileReference} (h : apart a b) (ha : a <+: q) : ¬ b <+: q := by
  intro hb
  rcases List.prefix_or_prefix_of_prefix ha hb with h1 | h1
  · exact h.1 h1
  · exact h.2 h1

theorem child_eq {c p : FileReference} (h1 : c ≠ []) (h2 : parent_of c = p) :
    c = p ++ [entry_name c] := by
  have := List.dropLast_append_getLast h1
  unfold parent_of at h2
  unfold entry_name
  rw [List.getLast?_eq_getLast _ h1, Option.getD_some, ← h2, this]

theorem parent_of_child (p : FileReference) (n : String) : parent_of (p ++ [n]) = p := by
  simp [parent_of]

theorem entry_name_child (p : FileReference) (n : String) : entry_name (p ++ [n]) = n := by
  simp [entry_name]

theorem prefix_child {a p : FileReference} {n : String} (h : a <+: p ++ [n]) :
    a <+: p ∨ a = p ++ [n] := by
  rcases List.prefix_concat_iff.mp h with h1 | h1
  · exact Or.inr h1
  · exact Or.inl h1

theorem child_prefix_child {p : FileReference} {n m : String} {q : FileReference}
    (h1 : p ++ [n] <+: q) (h2 : p ++ [m] <+: q) : n = m := by
  have h := List.prefix_of_prefix_length_le h1 h2 (by simp)
  have := h.eq_of_length (by simp)
  simpa using this

theorem relocated_nil (st : FileReference → Option Entry) (q : FileReference) :
    relocated [] st q = st q := by
  simp [relocated]

theorem relocated_source {pairs : List (FileReference × FileReference)}
    (st : FileReference → Option Entry) {p : FileReference × FileReference} {q : FileReference}
    (hp : p ∈ pairs) (hq : p.1 <+: q) : relocated pairs st q = none := by
  unfold relocated
  rw [if_pos]
  simp only [List.any_eq_true, decide_eq_true_eq]
  exact ⟨p, hp, hq⟩

theorem relocated_frame {pairs : List (FileReference × FileReference)}
    (st : FileReference → Option Entry) {q : FileReference}
    (h : ∀ p ∈ pairs, ¬ p.1 <+: q ∧ ¬ p.2 <+: q) : relocated pairs st q = st q := by
  unfold relocated
  rw [if_neg, List.find?_eq_none.mpr]
  · intro p hp; simpa using (h p hp).2
  · simp only [List.any_eq_true, decide_eq_true_eq, not_exists, not_and]
    intro p hp; exact (h p hp).1

theorem relocated_destination {pairs : List (FileReference × FileReference)}
    (st : FileReference → Option Entry) {p : FileReference × FileReference} {q : FileReference}
    (hp : p ∈ pairs) (hq : p.2 <+: q)
    (hsrc : ∀ p' ∈ pairs, ¬ p'.1 <+: q)
    (huniq : ∀ p' ∈ pairs, p'.2 <+: q → p' = p) :
    relocated pairs st q = st (p.1 ++ q.drop p.2.length) := by
  unfold relocated
  rw [if_neg]
  · cases hf : pairs.find? (fun p => decide (p.2 <+: q)) with
    | none =>
      have := List.find?_eq_none.mp hf p hp
      simp at this
      exact absurd hq this
    | some p' =>
      have h1 := List.find?_some hf
      have h2 := List.mem_of_find?_eq_some hf
      simp only [decide_eq_true_eq] at h1
      rw [huniq p' h2 h1]
  · simp only [List.any_eq_true, decide_eq_true_eq, not_exists, not_and]
    exact hsrc


theorem relocated_no_source {pairs : List (FileReference × FileReference)}
    (st : FileReference → Option Entry) {q : FileReference}
    (h : ∀ p ∈ pairs, ¬ p.1 <+: q) :
    relocated pairs st q =
      match pairs.find? (fun p => decide (p.2 <+: q)) with
      | some p => st (p.1 ++ q.drop p.2.length)
      | none => st q := by
  unfold relocated
  have hany : ¬ (pairs.any (fun p => decide (p.1 <+: q)) = true) := by
    simp only [List.any_eq_true, decide_eq_true_eq, not_exists, not_and]
    exact h
  rw [if_neg hany]

theorem relocated_single (s d : FileReference) (st : FileReference → Option Entry)
    (q : FileReference) :
    relocated [(s, d)] st q =
      if s <+: q then none else if d <+: q then st (s ++ q.drop d.length) else st q := by
  unfold relocated
  by_cases h1 : s <+: q
  · simp [h1]
  · by_cases h2 : d <+: q
    · simp [h1, h2, List.find?]
    · simp [h1, h2, List.find?]

/-- Relocating one more subtree, apart from the others, is relocating it first. -/
theorem relocated_cons (s d : FileReference) (rest : List (FileReference × FileReference))
    (st : FileReference → Option Entry)
    (h : ∀ p ∈ rest, apart s p.1 ∧ apart s p.2 ∧ apart d p.1 ∧ apart d p.2) (q : FileReference) :
    relocated rest (relocated [(s, d)] st) q = relocated ((s, d) :: rest) st q := by
  by_cases hA : ∃ p ∈ rest, p.1 <+: q
  · obtain ⟨p, hp, hq⟩ := hA
    rw [relocated_source _ hp hq, relocated_source _ (List.mem_cons_of_mem _ hp) hq]
  · push_neg at hA
    by_cases hB : s <+: q
    · rw [relocated_source st (List.mem_cons_self (s, d) rest) hB, relocated_frame,
        relocated_single, if_pos hB]
      intro p hp
      exact ⟨hA p hp, apart_not_both (h p hp).2.1 hB⟩
    · have hsrc : ∀ p ∈ (s, d) :: rest, ¬ p.1 <+: q := by
        intro p hp
        rcases List.mem_cons.mp hp with rfl | hp
        · exact hB
        · exact hA p hp
      rw [relocated_no_source st hsrc, relocated_no_source _ hA]
      by_cases hC : d <+: q
      · have hnone : rest.find? (fun p => decide (p.2 <+: q)) = none := by
          rw [List.find?_eq_none]
          intro p hp
          simpa using apart_not_both (h p hp).2.2.2 hC
        rw [hnone, List.find?_cons_of_pos _ (by simpa using hC), relocated_single, if_neg hB,
          if_pos hC]
      · rw [List.find?_cons_of_neg _ (by simpa using hC)]
        cases hf : rest.find? (fun p => decide (p.2 <+: q)) with
        | none => simp only; rw [relocated_single, if_neg hB, if_neg hC]
        | some p =>
          have hp := List.mem_of_find?_eq_some hf
          simp only
          rw [relocated_single,
            if_neg (apart_not_both (apart_symm (h p hp).1) (List.prefix_append _ _)),
            if_neg (apart_not_both (apart_symm (h p hp).2.2.1) (List.prefix_append _ _))]

theorem closed_of_fs_wf {fs : FileSystem} (h : fs_wf fs) : closed fs := by
  intro q hq hst
  rw [stat_of_ne_root hq] at hst
  obtain ⟨x, hx, rfl⟩ := lookup_entry_ne_none.mp hst
  exact (h.2 x hx).2

/-- Below a location that is not a directory there is nothing. -/
theorem nothing_below {fs : FileSystem} (hc : closed fs) {a : FileReference}
    (ha : stat fs a ≠ some Entry.Directory) :
    ∀ r : FileReference, r ≠ [] → stat fs (a ++ r) = none := by
  intro r
  induction r using List.reverseRecOn with
  | nil => intro h; exact absurd rfl h
  | append_singleton r x ih =>
    intro _
    by_contra hne
    have hp := hc (a ++ (r ++ [x])) (by simp) hne
    rw [← List.append_assoc, parent_of_child] at hp
    by_cases hr : r = []
    · subst hr
      rw [List.append_nil] at hp
      exact ha hp
    · rw [ih hr] at hp
      cases hp

/-- `Movable` only looks at the subtree of the source, at the destination and at
the two directories that hold them. -/
theorem Movable.frame {fs0 fs g : FileSystem} {fuel : Nat} {s d : FileReference}
    (h : Movable fs0 fs fuel s d)
    (h1 : ∀ q, s <+: q → stat g q = stat fs q)
    (h2 : ∀ q, d <+: q → stat g q = stat fs q)
    (h3 : stat g (parent_of d) = stat fs (parent_of d))
    (h4 : stat g (parent_of s) = stat fs (parent_of s)) : Movable fs0 g fuel s d :=
  { deep := h.deep
    agree := fun q hq => (h1 q hq).trans (h.agree q hq)
    free := fun q hq => (h2 q hq).trans (h.free q hq)
    dparent := h3.trans h.dparent
    sparent := h4.trans h.sparent
    outside := h.outside
    present := h.present }

theorem Movable.source_exists {fs0 fs : FileSystem} {fuel : Nat} {s d : FileReference}
    (h : Movable fs0 fs fuel s d) : stat fs s ≠ none := by
  rw [h.agree s (List.prefix_refl s)]
  exact h.present

theorem Movable.not_below {fs0 fs : FileSystem} {fuel : Nat} {s d : FileReference}
    (h : Movable fs0 fs fuel s d) : ¬ d <+: s :=
  fun hds => h.source_exists (h.free s hds)

/-- Two sources that go into the same directory under different names: each is
apart from the destination of the other, and the destinations are apart. -/
theorem movable_apart_other {fs0 fs : FileSystem} {fuel : Nat} {s t dir : FileReference}
    (hs : Movable fs0 fs fuel s (dir ++ [entry_name s]))
    (ht : Movable fs0 fs fuel t (dir ++ [entry_name t]))
    (hname : entry_name s ≠ entry_name t) (hsd : ¬ s <+: dir) :
    apart s (dir ++ [entry_name t]) ∧ apart (dir ++ [entry_name s]) (dir ++ [entry_name t]) := by
  refine ⟨⟨fun h => ?_, fun h => hs.source_exists (ht.free s h)⟩, fun h => ?_, fun h => ?_⟩
  · rcases prefix_child h with h1 | h1
    · exact hsd h1
    · exact hs.source_exists (ht.free s (by rw [h1]))
  · exact hname (child_prefix_child h (List.prefix_refl _))
  · exact hname (child_prefix_child (List.prefix_refl _) h)

theorem mem_into_dir {dir : FileReference} {l : List FileReference}
    {p : FileReference × FileReference} (h : p ∈ into_dir dir l) :
    p.1 ∈ l ∧ p.2 = dir ++ [entry_name p.1] := by
  unfold into_dir at h
  obtain ⟨s, hs, rfl⟩ := List.mem_map.mp h
  exact ⟨hs, rfl⟩

/-- The loop over the sources that go into one directory: the subtrees move one
after the other, and together they are relocated. -/
theorem move_each (fs0 : FileSystem) (fuel : Nat) (hP : MovesRight fs0 fuel)
    (dir : FileReference) :
    ∀ (l : List FileReference) (fs : FileSystem),
      (∀ s ∈ l, Movable fs0 fs fuel s (dir ++ [entry_name s])) →
      l.Pairwise (fun s t => apart s t ∧ entry_name s ≠ entry_name t) →
      (∀ s ∈ l, ¬ s <+: dir) →
      ∃ fs1, CleanRun (l.flatMap (fun s => move_steps fs0 fuel s (dir ++ [entry_name s]))) fs fs1 ∧
        ∀ q, stat fs1 q = relocated (into_dir dir l) (stat fs) q := by
  intro l
  induction l with
  | nil =>
    intro fs _ _ _
    exact ⟨fs, CleanRun.nil fs, fun q => (relocated_nil _ q).symm⟩
  | cons s l ih =>
    intro fs hmov hpw hdir
    have hs := hmov s (List.mem_cons_self _ _)
    obtain ⟨fsa, hrun, hst⟩ := hP s _ fs hs
    have hsdir := hdir s (List.mem_cons_self _ _)
    rw [List.pairwise_cons] at hpw
    have hfacts : ∀ t ∈ l, apart s t ∧ apart s (dir ++ [entry_name t]) ∧
        apart (dir ++ [entry_name s]) t ∧
        apart (dir ++ [entry_name s]) (dir ++ [entry_name t]) := by
      intro t ht
      have hmt := hmov t (List.mem_cons_of_mem _ ht)
      have h1 := hpw.1 t ht
      have h2 := movable_apart_other hs hmt h1.2 hsdir
      have h3 := movable_apart_other hmt hs (Ne.symm h1.2) (hdir t (List.mem_cons_of_mem _ ht))
      exact ⟨h1.1, h2.1, apart_symm h3.1, h2.2⟩
    have hsame : ∀ t ∈ l, ∀ q, (t <+: q ∨ dir ++ [entry_name t] <+: q) →
        stat fsa q = stat fs q := by
      intro t ht q hq
      have hf := hfacts t ht
      rw [hst, relocated_single]
      rcases hq with hq | hq
      · rw [if_neg (apart_not_both (apart_symm hf.1) hq),
          if_neg (apart_not_both (apart_symm hf.2.2.1) hq)]
      · rw [if_neg (apart_not_both (apart_symm hf.2.1) hq),
          if_neg (apart_not_both (apart_symm hf.2.2.2) hq)]
    have hmov1 : ∀ t ∈ l, Movable fs0 fsa fuel t (dir ++ [entry_name t]) := by
      intro t ht
      have hmt := hmov t (List.mem_cons_of_mem _ ht)
      have hf := hfacts t ht
      refine hmt.frame (fun q hq => hsame t ht q (Or.inl hq))
        (fun q hq => hsame t ht q (Or.inr hq)) ?_ ?_
      · rw [parent_of_child, hst, relocated_single, if_neg hsdir, if_neg]
        intro hc
        have := hc.length_le
        simp at this
      · rw [hst, relocated_single, if_neg, if_neg]
        · intro hc
          exact hf.2.2.1.1 (hc.trans (List.dropLast_prefix t))
        · intro hc
          exact hf.1.1 (hc.trans (List.dropLast_prefix t))
    obtain ⟨fs1, hrun1, hst1⟩ := ih fsa hmov1 hpw.2 (fun t ht => hdir t (List.mem_cons_of_mem _ ht))
    refine ⟨fs1, ?_, ?_⟩
    · rw [List.flatMap_cons]
      exact hrun.append hrun1
    · intro q
      have hfun : stat fsa = relocated [(s, dir ++ [entry_name s])] (stat fs) := funext hst
      rw [hst1, hfun]
      have := relocated_cons s (dir ++ [entry_name s]) (into_dir dir l) (stat fs) (fun p hp => by
        obtain ⟨h1, h2⟩ := mem_into_dir hp
        rw [h2]
        exact hfacts p.1 h1) q
      rw [this]
      rfl

theorem stat_below_missing {fs : FileSystem} (hc : closed fs) {a : FileReference}
    (ha : stat fs a ≠ some Entry.Directory) (x : String) (r : FileReference) :
    stat fs (a ++ x :: r) = none :=
  nothing_below hc ha (x :: r) (by simp)

theorem stat_below_none {fs : FileSystem} (hc : closed fs) {a : FileReference}
    (ha : stat fs a = none) (r : FileReference) : stat fs (a ++ r) = none := by
  cases r with
  | nil => rw [List.append_nil]; exact ha
  | cons x r => exact stat_below_missing hc (by rw [ha]; simp) x r

/-- The single MoveFile step of a regular file moves it. -/
theorem moves_right_file (fs0 : FileSystem) (hc : closed fs0) (fuel : Nat)
    (s d : FileReference) (fs : FileSystem) (hm : Movable fs0 fs (fuel + 1) s d) (size : Nat)
    (hfile : stat fs0 s = some (Entry.File size)) :
    ∃ fs1, CleanRun [file_step TransferMode.Move s d size] fs fs1 ∧
      ∀ q, stat fs1 q = relocated [(s, d)] (stat fs) q := by
  have hsrc : stat fs s = some (Entry.File size) := (hm.agree s (List.prefix_refl s)).trans hfile
  have hfree : stat fs d = none := hm.free d (List.prefix_refl d)
  have hd := ne_root_of_stat_none hfree
  have hs : s ≠ [] := by
    rintro rfl; exact hm.outside List.nil_prefix
  refine ⟨_, CleanRun.single (CleanStep.move fs s d size hsrc hfree hm.dparent hm.sparent), ?_⟩
  intro q
  rw [stat_cons _ _ _ _ hd, stat_remove_entry _ _ _ hd, stat_remove_entry _ _ _ hs,
    relocated_single]
  by_cases h1 : s <+: q
  · have hqd : q ≠ d := fun h => hm.outside (h ▸ h1)
    rw [if_pos h1, if_neg hqd, if_neg hqd]
    obtain ⟨t, rfl⟩ := h1
    cases t with
    | nil => simp
    | cons x r =>
      rw [if_neg (by simp), hm.agree _ (List.prefix_append _ _)]
      exact stat_below_missing hc (by rw [hfile]; simp) x r
  · have hqs : q ≠ s := fun h => h1 (h ▸ List.prefix_refl _)
    rw [if_neg h1]
    by_cases h2 : d <+: q
    · rw [if_pos h2]
      obtain ⟨t, rfl⟩ := h2
      cases t with
      | nil => simp [hsrc]
      | cons x r =>
        rw [if_neg (by simp), if_neg (by simp), if_neg hqs, hm.free _ (List.prefix_append _ _),
          List.drop_left, hm.agree _ (List.prefix_append _ _)]
        exact (stat_below_missing hc (by rw [hfile]; simp) x r).symm
    · have hqd : q ≠ d := fun h => h2 (h ▸ List.prefix_refl _)
      rw [if_neg h2, if_neg hqd, if_neg hqd, if_neg hqs]


theorem child_length {c p : FileReference} (h1 : c ≠ []) (h2 : parent_of c = p) :
    c.length = p.length + 1 := by
  have := congrArg List.length (child_eq h1 h2)
  simpa using this

theorem parent_of_le (q : FileReference) : parent_of q <+: q := List.dropLast_prefix q

/-- A directory moves: it is created at the destination, its children move into
it, and the emptied source is deleted. -/
theorem moves_right_directory (fs0 : FileSystem) (hc : closed fs0)
    (hnd : (fs0.map (fun x => x.1)).Nodup) (fuel : Nat) (hP : MovesRight fs0 fuel)
    (s d : FileReference) (fs : FileSystem) (hm : Movable fs0 fs (fuel + 1) s d)
    (hdir : stat fs0 s = some Entry.Directory) :
    ∃ fs1, CleanRun (make_directory_step s d ::
        ((list_children fs0 s).flatMap (fun c => move_steps fs0 fuel c (d ++ [entry_name c])) ++
          cleanup_steps TransferMode.Move s d)) fs fs1 ∧
      ∀ q, stat fs1 q = relocated [(s, d)] (stat fs) q := by
  have hsd := hm.outside
  have hds := hm.not_below
  have hs_fs : stat fs s = some Entry.Directory := (hm.agree s (List.prefix_refl s)).trans hdir
  have hd_free : stat fs d = none := hm.free d (List.prefix_refl d)
  have hd_ne := ne_root_of_stat_none hd_free
  have hs_ne : s ≠ [] := by
    rintro rfl; exact hsd List.nil_prefix
  have hne_sd : s ≠ d := fun h => hsd (h ▸ List.prefix_refl _)
  -- the directory is created
  have hstep1 : CleanStep fs (make_directory_step s d) ((d, Entry.Directory) :: fs) :=
    CleanStep.make fs s d hd_free
      (list_children_eq_nil.mpr (fun c h1 h2 =>
        hm.free c (by rw [child_eq h1 h2]; exact List.prefix_append _ _)))
      hm.dparent
  have hst1 : ∀ q, stat ((d, Entry.Directory) :: fs) q =
      if q = d then some Entry.Directory else stat fs q := fun q => stat_cons _ _ _ _ hd_ne
  -- the children
  have hch : ∀ c ∈ list_children fs0 s,
      c = s ++ [entry_name c] ∧ stat fs0 c ≠ none ∧ s <+: c ∧ c.length = s.length + 1 := by
    intro c hcm
    obtain ⟨h1, h2, h3⟩ := mem_list_children.mp hcm
    have := child_eq h1 h2
    exact ⟨this, h3, by rw [this]; exact List.prefix_append _ _, child_length h1 h2⟩
  have hmov : ∀ c ∈ list_children fs0 s,
      Movable fs0 ((d, Entry.Directory) :: fs) fuel c (d ++ [entry_name c]) := by
    intro c hcm
    obtain ⟨hceq, hcex, hsc, hlen⟩ := hch c hcm
    exact
      { deep := fun q hq hne => by
          have := hm.deep q (hsc.trans hq) hne
          omega
        agree := fun q hq => by
          have hqd : q ≠ d := by
            rintro rfl
            exact hsd (hsc.trans hq)
          rw [hst1, if_neg hqd]
          exact hm.agree q (hsc.trans hq)
        free := fun q hq => by
          have hqd : q ≠ d := by
            rintro rfl
            have := hq.length_le
            simp at this
          rw [hst1, if_neg hqd]
          exact hm.free q ((List.prefix_append d _).trans hq)
        dparent := by rw [parent_of_child, hst1, if_pos rfl]
        sparent := by
          rw [(mem_list_children.mp hcm).2.1, hst1, if_neg hne_sd, hs_fs]
        outside := fun h => by
          rcases prefix_child h with h1 | h1
          · exact hsd (hsc.trans h1)
          · rw [hceq] at h1
            simp only [parent_of_child, entry_name_child] at h1
            exact hne_sd (List.append_cancel_right h1)
        present := hcex }
  have hpw : (list_children fs0 s).Pairwise
      (fun a b => apart a b ∧ entry_name a ≠ entry_name b) := by
    refine (list_children_nodup hnd s).imp_of_mem ?_
    intro a b ha hb hne
    obtain ⟨haeq, -, -, -⟩ := hch a ha
    obtain ⟨hbeq, -, -, -⟩ := hch b hb
    have hname : entry_name a ≠ entry_name b := by
      intro h
      apply hne
      rw [haeq, hbeq, h]
    refine ⟨⟨fun h => hname ?_, fun h => hname ?_⟩, hname⟩
    · rw [haeq] at h
      exact child_prefix_child h (by rw [← hbeq])
    · rw [hbeq] at h
      exact (child_prefix_child h (by rw [← haeq])).symm
  have hcd : ∀ c ∈ list_children fs0 s, ¬ c <+: d := fun c hcm h =>
    hsd ((hch c hcm).2.2.1.trans h)
  obtain ⟨fs2, hrun2, hst2⟩ := move_each fs0 fuel hP d (list_children fs0 s) _ hmov hpw hcd
  -- what the children loop leaves alone
  have hframe : ∀ q, (∀ c ∈ list_children fs0 s, ¬ c <+: q) →
      (∀ c ∈ list_children fs0 s, ¬ d ++ [entry_name c] <+: q) →
      stat fs2 q = if q = d then some Entry.Directory else stat fs q := by
    intro q h1 h2
    rw [hst2, ← hst1]
    refine relocated_frame _ (fun p hp => ?_)
    obtain ⟨a, b⟩ := mem_into_dir hp
    rw [b]
    exact ⟨h1 _ a, h2 _ a⟩
  have hnotd : ∀ (n : String) (q : FileReference), s <+: q → ¬ d ++ [n] <+: q := by
    intro n q hq hdq
    rcases List.prefix_or_prefix_of_prefix hq hdq with h | h
    · rcases prefix_child h with h1 | h1
      · exact hsd h1
      · exact hds (by rw [h1]; exact List.prefix_append _ _)
    · exact hds ((List.prefix_append _ _).trans h)
  have hmissing : ∀ x : String, s ++ [x] ∉ list_children fs0 s → stat fs0 (s ++ [x]) = none := by
    intro x hx
    by_contra hne
    exact hx (mem_list_children.mpr ⟨by simp, parent_of_child s x, hne⟩)
  have hchild_pre : ∀ c ∈ list_children fs0 s, ∀ (x : String) (r : FileReference),
      c <+: s ++ x :: r → c = s ++ [x] := by
    intro c hcm x r h
    obtain ⟨hceq, -, -, -⟩ := hch c hcm
    rw [hceq] at h ⊢
    have hx : s ++ [x] <+: s ++ x :: r := by
      rw [List.prefix_append_right_inj]; simp
    rw [child_prefix_child h hx]
  -- the emptied source is deleted
  have hs2 : stat fs2 s = some Entry.Directory := by
    rw [hframe s (fun c hcm h => by
        have := h.length_le
        have := (hch c hcm).2.2.2
        omega) (fun c _ => hnotd _ s (List.prefix_refl s)), if_neg hne_sd, hs_fs]
  have hempty2 : list_children fs2 s = [] := by
    rw [list_children_eq_nil]
    intro c h1 h2
    have hceq := child_eq h1 h2
    by_cases hx : c ∈ list_children fs0 s
    · rw [hst2]
      exact relocated_source _ (List.mem_map.mpr ⟨c, hx, rfl⟩) (List.prefix_refl c)
    · have hsc : s <+: c := by rw [hceq]; exact List.prefix_append _ _
      have hcd' : c ≠ d := by
        rintro rfl; exact hsd hsc
      rw [hframe c (fun c' hcm h => by
          rw [hceq] at h
          have h3 := hchild_pre c' hcm (entry_name c) [] h
          rw [← hceq] at h3
          exact hx (h3 ▸ hcm)) (fun c' _ => hnotd _ c hsc), if_neg hcd', hm.agree c hsc]
      rw [hceq] at hx ⊢
      exact hmissing _ hx
  have hback2 : stat fs2 (parent_of s) = some Entry.Directory := by
    have hpd : parent_of s ≠ d := fun h => hds (h ▸ parent_of_le s)
    rw [hframe (parent_of s) (fun c hcm h => by
        have := (h.trans (parent_of_le s)).length_le
        have := (hch c hcm).2.2.2
        omega) (fun c _ h => hnotd _ s (List.prefix_refl s) (h.trans (parent_of_le s))),
      if_neg hpd, hm.sparent]
  have hstep3 := CleanStep.cleanup fs2 s d hs_ne hs2 hempty2 hback2
  refine ⟨remove_entry fs2 s, CleanRun.cons _ _ _ _ _ hstep1
    (hrun2.append (CleanRun.single hstep3)), ?_⟩
  intro q
  rw [stat_remove_entry _ _ _ hs_ne, relocated_single]
  by_cases h1 : s <+: q
  · rw [if_pos h1]
    obtain ⟨t, rfl⟩ := h1
    cases t with
    | nil => simp
    | cons x r =>
      rw [if_neg (by simp)]
      have hsq : s <+: s ++ x :: r := List.prefix_append _ _
      have hx1 : s ++ [x] <+: s ++ x :: r := by
        rw [List.prefix_append_right_inj]; simp
      by_cases hx : s ++ [x] ∈ list_children fs0 s
      · rw [hst2]
        exact relocated_source _ (List.mem_map.mpr ⟨s ++ [x], hx, rfl⟩) hx1
      · have hqd : s ++ x :: r ≠ d := fun h => hsd (h ▸ hsq)
        rw [hframe _ (fun c hcm h => hx (hchild_pre c hcm x r h ▸ hcm))
          (fun c _ => hnotd _ _ hsq), if_neg hqd, hm.agree _ hsq]
        have := stat_below_none hc (hmissing x hx) r
        simpa using this
  · have hqs : q ≠ s := fun h => h1 (h ▸ List.prefix_refl _)
    have hnochild : ∀ c ∈ list_children fs0 s, ¬ c <+: q := fun c hcm h =>
      h1 ((hch c hcm).2.2.1.trans h)
    rw [if_neg hqs, if_neg h1]
    by_cases h2 : d <+: q
    · rw [if_pos h2]
      obtain ⟨t, rfl⟩ := h2
      cases t with
      | nil =>
        rw [hframe _ hnochild (fun c _ h => by
          have := h.length_le
          simp at this)]
        simp [hs_fs]
      | cons x r =>
        have hqd : d ++ x :: r ≠ d := by simp
        have hx1 : d ++ [x] <+: d ++ x :: r := by
          rw [List.prefix_append_right_inj]; simp
        rw [List.drop_left]
        by_cases hx : s ++ [x] ∈ list_children fs0 s
        · have hmem : (s ++ [x], d ++ [x]) ∈ into_dir d (list_children fs0 s) :=
            List.mem_map.mpr ⟨s ++ [x], hx, by rw [entry_name_child]⟩
          rw [hst2, relocated_destination _ hmem hx1
            (fun p hp => hnochild _ (mem_into_dir hp).1)
            (fun p hp hpq => by
              obtain ⟨hp1, hp2⟩ := mem_into_dir hp
              rw [hp2] at hpq
              have hn := child_prefix_child hpq hx1
              have hpe := (hch _ hp1).1
              rw [hn] at hpe hp2
              exact Prod.ext hpe hp2)]
          have hdrop : (d ++ x :: r).drop (d ++ [x]).length = r := by
            have : d ++ x :: r = (d ++ [x]) ++ r := by simp
            rw [this, List.drop_left]
          have hne' : s ++ [x] ++ r ≠ d := fun h => hsd (by
            rw [← h, List.append_assoc]; exact List.prefix_append _ _)
          simp only [hdrop]
          rw [hst1, if_neg hne']
          simp
        · rw [hframe _ hnochild (fun c hcm h => by
            have hn := child_prefix_child h hx1
            have hpe := (hch c hcm).1
            rw [hn] at hpe
            exact hx (hpe ▸ hcm)), if_neg hqd, hm.free _ (List.prefix_append _ _),
            hm.agree _ (List.prefix_append _ _)]
          have := stat_below_none hc (hmissing x hx) r
          simpa using this.symm
    · have hqd : q ≠ d := fun h => h2 (h ▸ List.prefix_refl _)
      rw [if_neg h2, hframe q hnochild
        (fun c _ h => h2 ((List.prefix_append _ _).trans h)), if_neg hqd]

/-- The steps the planner generates for a source move it, whatever its depth. -/
theorem moves_right (fs0 : FileSystem) (hc : closed fs0) (hnd : (fs0.map (fun x => x.1)).Nodup) :
    ∀ fuel, MovesRight fs0 fuel
  | 0 => fun s _ _ hm => by
    have := hm.deep s (List.prefix_refl s) hm.present
    omega
  | fuel + 1 => fun s d fs hm => by
    unfold move_steps
    cases hst : stat fs0 s with
    | none => exact absurd hst hm.present
    | some e =>
      cases e with
      | File size => exact moves_right_file fs0 hc fuel s d fs hm size hst
      | Directory =>
        exact moves_right_directory fs0 hc hnd fuel (moves_right fs0 hc hnd fuel) s d fs hm hst

theorem plan_each_ok (f : FileReference → Except PlanError TransferPlan)
    (g : FileReference → TransferPlan) :
    ∀ l : List FileReference, (∀ c ∈ l, f c = Except.ok (g c)) →
      plan_each f l = Except.ok (l.flatMap g)
  | [], _ => rfl
  | c :: cs, h => by
    simp only [plan_each, h c (List.mem_cons_self _ _),
      plan_each_ok f g cs (fun c' hc' => h c' (List.mem_cons_of_mem _ hc')), List.flatMap_cons]

/-- With nothing at or below the destination the planner meets no conflict and
generates the steps of a plain move. -/
theorem plan_entry_free (fs0 : FileSystem) (policy : ConflictPolicy) :
    ∀ (fuel : Nat) (s d : FileReference), (∀ q, d <+: q → stat fs0 q = none) →
      plan_entry fs0 policy TransferMode.Move fuel s d = Except.ok (move_steps fs0 fuel s d)
  | 0, _, _, _ => rfl
  | fuel + 1, s, d, hfree => by
    have hd : stat fs0 d = none := hfree d (List.prefix_refl d)
    have hchildren := plan_each_ok
      (fun c => plan_entry fs0 policy TransferMode.Move fuel c (d ++ [entry_name c]))
      (fun c => move_steps fs0 fuel c (d ++ [entry_name c])) (list_children fs0 s)
      (fun c _ => plan_entry_free fs0 policy fuel c (d ++ [entry_name c])
        (fun q hq => hfree q ((List.prefix_append _ _).trans hq)))
    unfold plan_entry move_steps
    cases hs : stat fs0 s with
    | none => rfl
    | some e =>
      cases e with
      | File size => simp only [hd]
      | Directory => simp only [hd, hchildren, List.cons_append]

theorem length_le_max_depth {fs : FileSystem} {x : FileReference × Entry} (h : x ∈ fs) :
    x.1.length ≤ max_depth fs := by
  induction fs with
  | nil => cases h
  | cons y rest ih =>
    obtain ⟨p, e⟩ := y
    unfold max_depth
    rcases List.mem_cons.mp h with rfl | h
    · exact le_max_left _ _
    · exact le_trans (ih h) (le_max_right _ _)

theorem length_le_of_stat {fs : FileSystem} {q : FileReference} (h : stat fs q ≠ none) :
    q.length ≤ max_depth fs := by
  by_cases hq : q = []
  · subst hq; simp
  · rw [stat_of_ne_root hq] at h
    obtain ⟨x, hx, rfl⟩ := lookup_entry_ne_none.mp h
    exact length_le_max_depth hx

theorem check_sources_ok (fs : FileSystem) :
    ∀ sources : List FileReference, (∀ s ∈ sources, stat fs s ≠ none) →
      check_sources fs sources = Except.ok ()
  | [], _ => rfl
  | s :: rest, h1 => by
    have ih := check_sources_ok fs rest (fun t ht => h1 t (List.mem_cons_of_mem _ ht))
    have hs := h1 s (List.mem_cons_self _ _)
    unfold check_sources check_source
    cases hst : stat fs s with
    | none => exact absurd hst hs
    | some e => simpa using ih

theorem not_moves_into_itself (fs : FileSystem) (mode : TransferMode)
    (destination : FileReference) (sources : List FileReference)
    (h : ∀ s ∈ sources, ¬ s <+: destination) :
    ¬ (sources.any (moves_into_itself fs mode destination) = true) := by
  intro hany
  obtain ⟨s, hs, hm⟩ := List.any_eq_true.mp hany
  unfold moves_into_itself at hm
  exact h s hs (of_decide_eq_true hm).2.2

theorem CleanMove.source_ne_root {fs : FileSystem} {sources : List FileReference}
    {destination : FileReference} (h : CleanMove fs sources destination) {s : FileReference}
    (hs : s ∈ sources) : s ≠ [] := by
  rintro rfl
  exact h.outside [] hs List.nil_prefix

theorem CleanMove.region_free {fs : FileSystem} {sources : List FileReference}
    {destination : FileReference} (h : CleanMove fs sources destination) {s : FileReference}
    (hs : s ∈ sources) (q : FileReference) (hq : destination ++ [entry_name s] <+: q) :
    stat fs q = none := by
  obtain ⟨r, rfl⟩ := hq
  exact stat_below_none (closed_of_fs_wf h.wf) (h.free s hs) r

theorem CleanMove.plan_eq {fs : FileSystem} {sources : List FileReference}
    {destination : FileReference} (h : CleanMove fs sources destination)
    (policy : ConflictPolicy) :
    plan fs policy sources destination TransferMode.Move =
      Except.ok (move_plan fs sources destination) := by
  unfold plan move_plan
  rw [if_neg (not_moves_into_itself fs _ destination sources h.outside),
    if_neg (by rw [h.dest]; simp), check_sources_ok fs sources h.present]
  exact plan_each_ok _ _ sources (fun s hs =>
    plan_entry_free fs policy _ s _ (h.region_free hs))

theorem CleanMove.movable {fs : FileSystem} {sources : List FileReference}
    {destination : FileReference} (h : CleanMove fs sources destination) (g : FileSystem)
    (hg : same_layout g fs) {s : FileReference} (hs : s ∈ sources) :
    Movable fs g (max_depth fs + 1) s (destination ++ [entry_name s]) :=
  { deep := fun q _ hne => by
      have := length_le_of_stat hne
      omega
    agree := fun q _ => hg q
    free := fun q hq => (hg q).trans (h.region_free hs q hq)
    dparent := by rw [parent_of_child, hg]; exact h.dest
    sparent := by
      rw [hg]
      exact closed_of_fs_wf h.wf s (h.source_ne_root hs) (h.present s hs)
    outside := fun hc => by
      rcases prefix_child hc with h1 | h1
      · exact h.outside s hs h1
      · exact h.present s hs (by
          have := h.free s hs
          rw [← h1] at this
          exact this)
    present := h.present s hs }

/-- A move without collision runs clean, from every filesystem with the layout
the plan was made for, and relocates the subtrees of the sources. -/
theorem CleanMove.run {fs : FileSystem} {sources : List FileReference}
    {destination : FileReference} (h : CleanMove fs sources destination) (g : FileSystem)
    (hg : same_layout g fs) :
    ∃ g1, CleanRun (move_plan fs sources destination) g g1 ∧
      ∀ q, stat g1 q = relocated (into_dir destination sources) (stat fs) q := by
  obtain ⟨g1, hrun, hst⟩ := move_each fs (max_depth fs + 1)
    (moves_right fs (closed_of_fs_wf h.wf) h.wf.1 _) destination sources g
    (fun s hs => h.movable g hg hs) h.distinct h.outside
  refine ⟨g1, hrun, fun q => ?_⟩
  rw [hst, show stat g = stat fs from funext hg]

theorem CleanMove.name_inj {fs : FileSystem} {sources : List FileReference}
    {destination : FileReference} (h : CleanMove fs sources destination) {s t : FileReference}
    (hs : s ∈ sources) (ht : t ∈ sources) (hn : entry_name s = entry_name t) : s = t := by
  by_contra hne
  have hsym : Symmetric (fun s t : FileReference => apart s t ∧ entry_name s ≠ entry_name t) :=
    fun a b hab => ⟨apart_symm hab.1, Ne.symm hab.2⟩
  exact (h.distinct.forall hsym hs ht hne).2 hn

/-- After a move without collision nothing is left at or below a source. -/
theorem CleanMove.source_gone {fs : FileSystem} {sources : List FileReference}
    {destination : FileReference} (_h : CleanMove fs sources destination) {s : FileReference}
    (hs : s ∈ sources) (r : FileReference) :
    relocated (into_dir destination sources) (stat fs) (s ++ r) = none :=
  relocated_source _ (List.mem_map.mpr ⟨s, hs, rfl⟩) (List.prefix_append _ _)

/-- After a move without collision the subtree of a source is found below its
name in the destination. -/
theorem CleanMove.arrived {fs : FileSystem} {sources : List FileReference}
    {destination : FileReference} (h : CleanMove fs sources destination) {s : FileReference}
    (hs : s ∈ sources) (r : FileReference) :
    relocated (into_dir destination sources) (stat fs) (destination ++ [entry_name s] ++ r) =
      stat fs (s ++ r) := by
  have hmem : (s, destination ++ [entry_name s]) ∈ into_dir destination sources :=
    List.mem_map.mpr ⟨s, hs, rfl⟩
  rw [relocated_destination _ hmem (List.prefix_append _ _) ?_ ?_]
  · simp
  · intro p hp hpq
    obtain ⟨hp1, -⟩ := mem_into_dir hp
    rcases List.prefix_or_prefix_of_prefix hpq
      (List.prefix_append (destination ++ [entry_name s]) r) with h1 | h1
    · rcases prefix_child h1 with h2 | h2
      · exact h.outside _ hp1 h2
      · exact h.present _ hp1 (by rw [h2]; exact h.free s hs)
    · exact h.present _ hp1 (h.region_free hs _ h1)
  · intro p hp hpq
    obtain ⟨hp1, hp2⟩ := mem_into_dir hp
    rw [hp2] at hpq
    have hn := child_prefix_child hpq (List.prefix_append (destination ++ [entry_name s]) r)
    have := h.name_inj hp1 hs hn
    exact Prod.ext this (by rw [hp2, this])

/-- A move without collision leaves every other location as it was. -/
theorem CleanMove.elsewhere {fs : FileSystem} {sources : List FileReference}
    {destination : FileReference} (_h : CleanMove fs sources destination) (q : FileReference)
    (hq : ∀ s ∈ sources, ¬ s <+: q ∧ ¬ destination ++ [entry_name s] <+: q) :
    relocated (into_dir destination sources) (stat fs) q = stat fs q := by
  refine relocated_frame _ (fun p hp => ?_)
  obtain ⟨hp1, hp2⟩ := mem_into_dir hp
  rw [hp2]
  exact hq _ hp1

theorem operation_result_completed (p : TransferPlan) (fs1 : FileSystem) :
    operation_result p
      { fs := fs1, outcomes := p.map (fun s => (s, TransferOutcome.Completed)),
        undo_entries := p.map clean_entry, cancelled := false } =
      { total_steps := p.length, completed := p.length, skipped := 0, failed := [],
        cancelled := false } := by
  have h1 : ∀ l : TransferPlan, ((l.map (fun s => (s, TransferOutcome.Completed))).filter
      (fun o => decide (o.2 = TransferOutcome.Completed))).length = l.length := by
    intro l
    induction l with
    | nil => rfl
    | cons a l ih => simp [ih]
  have h2 : ∀ l : TransferPlan, ((l.map (fun s => (s, TransferOutcome.Completed))).filter
      (fun o => decide (o.2 = TransferOutcome.Skipped))).length = 0 := by
    intro l
    induction l with
    | nil => rfl
    | cons a l ih => simp
  have h3 : ∀ l : TransferPlan,
      failed_entries (l.map (fun s => (s, TransferOutcome.Completed))) = [] := by
    intro l
    induction l with
    | nil => rfl
    | cons a l ih => simp [failed_entries, ih]
  simp only [operation_result, h1, h2, h3]

/-- The executor on a clean run: every step completes and is recorded. -/
theorem CleanRun.execute_eq {p : TransferPlan} {fs fs1 : FileSystem} (h : CleanRun p fs fs1)
    (on_failure : FailurePolicy) :
    execute fs p on_failure none =
      (fs1, { total_steps := p.length, completed := p.length, skipped := 0, failed := [],
              cancelled := false }, p.map clean_entry) := by
  unfold execute
  simp only [h.run_steps_eq on_failure 0, operation_result_completed]

theorem move_steps_ne_nil (fs0 : FileSystem) (fuel : Nat) (s d : FileReference)
    (h : stat fs0 s ≠ none) : move_steps fs0 (fuel + 1) s d ≠ [] := by
  unfold move_steps
  cases hs : stat fs0 s with
  | none => exact absurd hs h
  | some e => cases e <;> simp

theorem CleanMove.plan_ne_nil {fs : FileSystem} {sources : List FileReference}
    {destination : FileReference} (h : CleanMove fs sources destination) (hne : sources ≠ []) :
    move_plan fs sources destination ≠ [] := by
  cases sources with
  | nil => exact absurd rfl hne
  | cons s rest =>
    unfold move_plan
    rw [List.flatMap_cons]
    intro hc
    exact move_steps_ne_nil fs _ s _ (h.present s (List.mem_cons_self _ _))
      (List.append_eq_nil.mp hc).1

/-- The synchronous entry point on a move without collision: the plan runs
clean, the subtrees are relocated, the operation is reported successful and its
record is pushed. -/
theorem CleanMove.move_sync_eq {fs : FileSystem} {sources : List FileReference}
    {destination : FileReference} (h : CleanMove fs sources destination)
    (m : UndoManager) (policy : ConflictPolicy) (hne : sources ≠ []) :
    ∃ fs1, CleanRun (move_plan fs sources destination) fs fs1 ∧
      (∀ q, stat fs1 q = relocated (into_dir destination sources) (stat fs) q) ∧
      move_sync { fs := fs, manager := m } sources destination policy =
        ({ fs := fs1,
           manager := m.push { kind := OperationKind.Move,
                               entries := (move_plan fs sources destination).map clean_entry } },
         Except.ok { total_steps := (move_plan fs sources destination).length,
                     completed := (move_plan fs sources destination).length,
                     skipped := 0, failed := [], cancelled := false }) := by
  obtain ⟨fs1, hrun, hst⟩ := h.run fs (same_layout_refl fs)
  refine ⟨fs1, hrun, hst, ?_⟩
  unfold move_sync
  simp only [h.plan_eq policy, hrun.execute_eq]
  rw [if_neg]
  intro hc
  exact h.plan_ne_nil hne (List.map_eq_nil_iff.mp hc)

/-- The filesystem after the synchronous entry point ran a move without
collision, whatever the number of sources. -/
theorem CleanMove.move_sync_stat {fs : FileSystem} {sources : List FileReference}
    {destination : FileReference} (h : CleanMove fs sources destination)
    (m : UndoManager) (policy : ConflictPolicy) (q : FileReference) :
    stat (move_sync { fs := fs, manager := m } sources destination policy).1.fs q =
      relocated (into_dir destination sources) (stat fs) q := by
  obtain ⟨fs1, hrun, hst⟩ := h.run fs (same_layout_refl fs)
  unfold move_sync
  simp only [h.plan_eq policy, hrun.execute_eq]
  exact hst q

theorem exists_child_of_below {fs : FileSystem} (hc : closed fs) {a : FileReference} {x : String}
    {r : FileReference} (h : stat fs (a ++ x :: r) ≠ none) : stat fs (a ++ [x]) ≠ none := by
  intro hn
  apply h
  have := stat_below_none hc hn r
  simpa using this

theorem file_exists_eq_true {fs : FileSystem} {q : FileReference} :
    file_exists fs q = true ↔ stat fs q ≠ none := by
  unfold file_exists
  cases stat fs q <;> simp

theorem file_exists_eq_false {fs : FileSystem} {q : FileReference} :
    file_exists fs q = false ↔ stat fs q = none := by
  unfold file_exists
  cases stat fs q <;> simp

/-- A single file or empty directory, moved into another directory that is not
the entry itself and holds nothing of its name, is a move without collision. -/
theorem clean_move_single {fs : FileSystem} {A B : FileReference} {name : String}
    (hwf : fs_wf fs)
    (he : (∃ size, stat fs (A ++ [name]) = some (Entry.File size)) ∨
      (stat fs (A ++ [name]) = some Entry.Directory ∧ list_children fs (A ++ [name]) = []))
    (hB : stat fs B = some Entry.Directory) (hBe : B ≠ A ++ [name])
    (hfree : stat fs (B ++ [name]) = none) : CleanMove fs [A ++ [name]] B := by
  have hc := closed_of_fs_wf hwf
  have hpresent : stat fs (A ++ [name]) ≠ none := by
    rcases he with ⟨size, h⟩ | ⟨h, -⟩ <;> rw [h] <;> simp
  refine
    { wf := hwf, dest := hB
      present := fun s hs => by rw [List.mem_singleton.mp hs]; exact hpresent
      outside := fun s hs hpre => ?_
      free := fun s hs => by rw [List.mem_singleton.mp hs, entry_name_child]; exact hfree
      distinct := List.pairwise_singleton _ _ }
  rw [List.mem_singleton.mp hs] at hpre
  obtain ⟨r, rfl⟩ := hpre
  cases r with
  | nil => exact hBe (by simp)
  | cons x r =>
    rcases he with ⟨size, h⟩ | ⟨-, h⟩
    · rw [stat_below_missing hc (by rw [h]; simp) x r] at hB
      cases hB
    · have hx : stat fs (A ++ [name] ++ [x]) ≠ none :=
        exists_child_of_below hc (by rw [hB]; simp)
      exact hx (list_children_eq_nil.mp h _ (by simp) (parent_of_child _ _))

/-- C1 (amended): a single entry (a regular file or an empty directory) with the
name `name` in the directory `A`, moved into an existing directory `B` that is
different from `A` and from the entry itself and holds no entry of that name,
exists in `B` afterwards (the same entry) and no longer exists in `A`. -/
theorem move_sync_single_entry (w : World) (A B : FileReference) (name : String)
    (policy : ConflictPolicy) (hwf : fs_wf w.fs)
    (he : (∃ size, stat w.fs (A ++ [name]) = some (Entry.File size)) ∨
      (stat w.fs (A ++ [name]) = some Entry.Directory ∧ list_children w.fs (A ++ [name]) = []))
    (hB : stat w.fs B = some Entry.Directory) (_hAB : B ≠ A) (hBe : B ≠ A ++ [name])
    (hfree : stat w.fs (B ++ [name]) = none) :
    file_exists (move_sync w [A ++ [name]] B policy).1.fs (B ++ [name]) = true ∧
      stat (move_sync w [A ++ [name]] B policy).1.fs (B ++ [name]) = stat w.fs (A ++ [name]) ∧
      file_exists (move_sync w [A ++ [name]] B policy).1.fs (A ++ [name]) = false := by
  have hcm := clean_move_single hwf he hB hBe hfree
  have hmem : A ++ [name] ∈ [A ++ [name]] := List.mem_singleton.mpr rfl
  have h1 : stat (move_sync w [A ++ [name]] B policy).1.fs (B ++ [name]) =
      stat w.fs (A ++ [name]) := by
    have := hcm.arrived hmem []
    rw [entry_name_child, List.append_nil, List.append_nil] at this
    rw [← this]
    exact hcm.move_sync_stat w.manager policy _
  have h2 : stat (move_sync w [A ++ [name]] B policy).1.fs (A ++ [name]) = none := by
    have := hcm.source_gone hmem []
    rw [List.append_nil] at this
    rw [← this]
    exact hcm.move_sync_stat w.manager policy _
  refine ⟨?_, h1, file_exists_eq_false.mpr h2⟩
  rw [file_exists_eq_true, h1]
  exact hcm.present _ hmem

theorem move_sync_single_entry_witness :
    file_exists (move_sync fixture_one_file [["first_dir"] ++ ["first_dir_child"]] ["second_dir"]
        no_policy).1.fs (["second_dir"] ++ ["first_dir_child"]) = true ∧
      stat (move_sync fixture_one_file [["first_dir"] ++ ["first_dir_child"]] ["second_dir"]
        no_policy).1.fs (["second_dir"] ++ ["first_dir_child"]) =
        stat fixture_one_file.fs (["first_dir"] ++ ["first_dir_child"]) ∧
      file_exists (move_sync fixture_one_file [["first_dir"] ++ ["first_dir_child"]] ["second_dir"]
        no_policy).1.fs (["first_dir"] ++ ["first_dir_child"]) = false :=
  move_sync_single_entry fixture_one_file ["first_dir"] ["second_dir"] "first_dir_child" no_policy
    (by decide) (Or.inl ⟨0, by decide⟩) (by decide) (by decide) (by decide) (by decide)

/-- C1 fails as stated: the empty directory `first_dir/first_dir_child` is an
existing directory different from `first_dir` that holds no entry named
`first_dir_child`; moved into itself it stays where it is, and nothing named
`first_dir_child` appears inside it. -/
theorem move_sync_single_entry_counterexample :
    (stat fixture_first_hierarchy.fs ["first_dir", "first_dir_child"] = some Entry.Directory ∧
      list_children fixture_first_hierarchy.fs ["first_dir", "first_dir_child"] = [] ∧
      (["first_dir", "first_dir_child"] : FileReference) ≠ ["first_dir"] ∧
      stat fixture_first_hierarchy.fs (["first_dir", "first_dir_child"] ++ ["first_dir_child"])
        = none) ∧
    ¬ (file_exists (move_sync fixture_first_hierarchy [["first_dir", "first_dir_child"]]
          ["first_dir", "first_dir_child"] no_policy).1.fs
          (["first_dir", "first_dir_child"] ++ ["first_dir_child"]) = true ∧
       file_exists (move_sync fixture_first_hierarchy [["first_dir", "first_dir_child"]]
          ["first_dir", "first_dir_child"] no_policy).1.fs
          ["first_dir", "first_dir_child"] = false) := by
  decide

/-- What a move without collision does to the subtree of one of its sources:
every path of the subtree is gone, and the corresponding path in the
destination holds what it held. -/
theorem CleanMove.subtree_moved {fs : FileSystem} {sources : List FileReference}
    {destination : FileReference} (h : CleanMove fs sources destination) (m : UndoManager)
    (policy : ConflictPolicy) {s : FileReference} (hs : s ∈ sources) (r : FileReference) :
    file_exists (move_sync { fs := fs, manager := m } sources destination policy).1.fs (s ++ r)
        = false ∧
      stat (move_sync { fs := fs, manager := m } sources destination policy).1.fs
        (destination ++ [entry_name s] ++ r) = stat fs (s ++ r) := by
  constructor
  · rw [file_exists_eq_false, h.move_sync_stat m policy, h.source_gone hs]
  · rw [h.move_sync_stat m policy, h.arrived hs]

theorem clean_move_tree {fs : FileSystem} {D B : FileReference} (hwf : fs_wf fs)
    (hD : stat fs D ≠ none) (hB : stat fs B = some Entry.Directory) (hout : ¬ D <+: B)
    (hfree : stat fs (B ++ [entry_name D]) = none) : CleanMove fs [D] B :=
  { wf := hwf, dest := hB
    present := fun s hs => by rw [List.mem_singleton.mp hs]; exact hD
    outside := fun s hs => by rw [List.mem_singleton.mp hs]; exact hout
    free := fun s hs => by rw [List.mem_singleton.mp hs]; exact hfree
    distinct := List.pairwise_singleton _ _ }

/-- C2 (amended): a directory tree rooted at `D`, moved into an existing
directory `B` outside the tree that holds no entry with the name of `D`: every
path of the tree is gone afterwards, and the corresponding path under
`B/name(D)` exists and holds the same entry. -/
theorem move_sync_tree (w : World) (D B : FileReference) (policy : ConflictPolicy)
    (hwf : fs_wf w.fs) (hD : stat w.fs D = some Entry.Directory)
    (hB : stat w.fs B = some Entry.Directory) (hout : ¬ D <+: B)
    (hfree : stat w.fs (B ++ [entry_name D]) = none)
    (r : FileReference) (hr : file_exists w.fs (D ++ r) = true) :
    file_exists (move_sync w [D] B policy).1.fs (D ++ r) = false ∧
      file_exists (move_sync w [D] B policy).1.fs (B ++ [entry_name D] ++ r) = true ∧
      stat (move_sync w [D] B policy).1.fs (B ++ [entry_name D] ++ r) = stat w.fs (D ++ r) := by
  have hcm := clean_move_tree hwf (by rw [hD]; simp) hB hout hfree
  have h := hcm.subtree_moved w.manager policy (List.mem_singleton.mpr rfl) r
  refine ⟨h.1, ?_, h.2⟩
  rw [file_exists_eq_true] at hr ⊢
  rw [h.2]
  exact hr

theorem move_sync_tree_witness :
    file_exists (move_sync fixture_first_hierarchy [["first_dir"]] ["second_dir"] no_policy).1.fs
        (["first_dir"] ++ ["first_dir_child"]) = false ∧
      file_exists (move_sync fixture_first_hierarchy [["first_dir"]] ["second_dir"] no_policy).1.fs
        (["second_dir"] ++ [entry_name ["first_dir"]] ++ ["first_dir_child"]) = true ∧
      stat (move_sync fixture_first_hierarchy [["first_dir"]] ["second_dir"] no_policy).1.fs
        (["second_dir"] ++ [entry_name ["first_dir"]] ++ ["first_dir_child"]) =
        stat fixture_first_hierarchy.fs (["first_dir"] ++ ["first_dir_child"]) :=
  move_sync_tree fixture_first_hierarchy ["first_dir"] ["second_dir"] no_policy
    (by decide) (by decide) (by decide) (by decide) (by decide) ["first_dir_child"] (by decide)

/-- C2 fails as stated: `second_dir` is an existing directory outside the tree
of `first_dir`, but it holds a regular file named `first_dir`; the move is
refused for the unresolved conflict and the tree stays where it was. -/
theorem move_sync_tree_counterexample :
    (stat fixture_occupied.fs ["first_dir"] = some Entry.Directory ∧
      stat fixture_occupied.fs ["second_dir"] = some Entry.Directory ∧
      ¬ (["first_dir"] : FileReference) <+: ["second_dir"] ∧
      file_exists fixture_occupied.fs (["first_dir"] ++ ["first_dir_child"]) = true) ∧
    ¬ (file_exists (move_sync fixture_occupied [["first_dir"]] ["second_dir"] no_policy).1.fs
          (["first_dir"] ++ ["first_dir_child"]) = false ∧
       file_exists (move_sync fixture_occupied [["first_dir"]] ["second_dir"] no_policy).1.fs
          (["second_dir"] ++ [entry_name ["first_dir"]] ++ ["first_dir_child"]) = true) := by
  decide

theorem clean_move_batch {fs : FileSystem} {A B : FileReference} {names : List String}
    (hwf : fs_wf fs) (hnd : names.Nodup) (hex : ∀ n ∈ names, stat fs (A ++ [n]) ≠ none)
    (hB : stat fs B = some Entry.Directory) (hout : ∀ n ∈ names, ¬ A ++ [n] <+: B)
    (hfree : ∀ n ∈ names, stat fs (B ++ [n]) = none) :
    CleanMove fs (names.map (fun n => A ++ [n])) B :=
  { wf := hwf, dest := hB
    present := fun s hs => by
      obtain ⟨n, hn, rfl⟩ := List.mem_map.mp hs
      exact hex n hn
    outside := fun s hs => by
      obtain ⟨n, hn, rfl⟩ := List.mem_map.mp hs
      exact hout n hn
    free := fun s hs => by
      obtain ⟨n, hn, rfl⟩ := List.mem_map.mp hs
      rw [entry_name_child]
      exact hfree n hn
    distinct := by
      rw [List.pairwise_map]
      refine hnd.imp ?_
      intro a b hab
      simp only [entry_name_child]
      exact ⟨⟨fun h => hab (child_prefix_child h (List.prefix_refl _)),
        fun h => hab (child_prefix_child (List.prefix_refl _) h)⟩, hab⟩ }

/-- C8 (amended): entries with distinct names in one directory `A` (files,
directories, or both), moved in one call into an existing directory `B` that
is none of the moved entries, lies inside none of them, and holds no entry with
one of their names: afterwards every destination path exists, with the entry
that was moved, and no source path exists. -/
theorem move_sync_batch (w : World) (A B : FileReference) (names : List String)
    (policy : ConflictPolicy) (hwf : fs_wf w.fs) (hnd : names.Nodup)
    (hex : ∀ n ∈ names, file_exists w.fs (A ++ [n]) = true)
    (hB : stat w.fs B = some Entry.Directory) (hout : ∀ n ∈ names, ¬ A ++ [n] <+: B)
    (hfree : ∀ n ∈ names, stat w.fs (B ++ [n]) = none) (n : String) (hn : n ∈ names) :
    file_exists (move_sync w (names.map (fun n => A ++ [n])) B policy).1.fs (B ++ [n]) = true ∧
      stat (move_sync w (names.map (fun n => A ++ [n])) B policy).1.fs (B ++ [n]) =
        stat w.fs (A ++ [n]) ∧
      file_exists (move_sync w (names.map (fun n => A ++ [n])) B policy).1.fs (A ++ [n])
        = false := by
  have hcm := clean_move_batch hwf hnd (fun n hn => file_exists_eq_true.mp (hex n hn)) hB hout hfree
  have h := hcm.subtree_moved w.manager policy (List.mem_map.mpr ⟨n, hn, rfl⟩) []
  simp only [entry_name_child, List.append_nil] at h
  refine ⟨?_, h.2, h.1⟩
  rw [file_exists_eq_true, h.2]
  exact file_exists_eq_true.mp (hex n hn)

theorem move_sync_batch_witness :
    file_exists (move_sync fixture_batch
        (["file_0", "file_1", "file_2"].map (fun n => ["source_dir"] ++ [n]))
        ["destination_dir"] no_policy).1.fs (["destination_dir"] ++ ["file_1"]) = true ∧
      stat (move_sync fixture_batch
        (["file_0", "file_1", "file_2"].map (fun n => ["source_dir"] ++ [n]))
        ["destination_dir"] no_policy).1.fs (["destination_dir"] ++ ["file_1"]) =
        stat fixture_batch.fs (["source_dir"] ++ ["file_1"]) ∧
      file_exists (move_sync fixture_batch
        (["file_0", "file_1", "file_2"].map (fun n => ["source_dir"] ++ [n]))
        ["destination_dir"] no_policy).1.fs (["source_dir"] ++ ["file_1"]) = false :=
  move_sync_batch fixture_batch ["source_dir"] ["destination_dir"] ["file_0", "file_1", "file_2"]
    no_policy (by decide) (by decide) (by decide) (by decide) (by decide) (by decide)
    "file_1" (by decide)

/-- C8 fails as stated, in two ways. The directories `first_dir` and
`second_dir` of the root, moved into the existing directory `second_dir`, stay
where they are (a directory cannot be moved into itself). The file `a/x`,
moved into the existing directory `b` that holds a file `x`, stays where it
is (the conflict is unresolved). -/
theorem move_sync_batch_counterexample :
    ((stat fixture_fifth_hierarchy.fs ["first_dir"] = some Entry.Directory ∧
        stat fixture_fifth_hierarchy.fs ["second_dir"] = some Entry.Directory) ∧
      ¬ (file_exists (move_sync fixture_fifth_hierarchy [["first_dir"], ["second_dir"]]
            ["second_dir"] no_policy).1.fs ["second_dir", "first_dir"] = true ∧
         file_exists (move_sync fixture_fifth_hierarchy [["first_dir"], ["second_dir"]]
            ["second_dir"] no_policy).1.fs ["first_dir"] = false)) ∧
    ((stat fixture_same_name.fs ["a", "x"] = some (Entry.File 7) ∧
        stat fixture_same_name.fs ["b"] = some Entry.Directory) ∧
      ¬ (file_exists (move_sync fixture_same_name [["a", "x"]] ["b"] no_policy).1.fs ["b", "x"]
            = true ∧
         file_exists (move_sync fixture_same_name [["a", "x"]] ["b"] no_policy).1.fs ["a", "x"]
            = false)) := by
  decide

/-- Every step of the plain move of `s` to `d` takes a path of the subtree of `s`
to the corresponding path below `d`. -/
theorem move_steps_shape (fs0 : FileSystem) :
    ∀ (fuel : Nat) (s d : FileReference) (step : TransferStep),
      step ∈ move_steps fs0 fuel s d →
      ∃ r, step.source = some (s ++ r) ∧ step.destination = d ++ r ∧ stat fs0 (s ++ r) ≠ none
  | 0, _, _, _, h => by simp [move_steps] at h
  | fuel + 1, s, d, step, h => by
    unfold move_steps at h
    cases hs : stat fs0 s with
    | none => rw [hs] at h; simp at h
    | some e =>
      have hex : stat fs0 (s ++ []) ≠ none := by rw [List.append_nil, hs]; simp
      rw [hs] at h
      cases e with
      | File size =>
        simp only [List.mem_singleton] at h
        subst h
        exact ⟨[], by simp [file_step], by simp [file_step], hex⟩
      | Directory =>
        simp only [List.mem_cons, List.mem_append, List.mem_flatMap, cleanup_steps,
          List.mem_singleton] at h
        rcases h with h | ⟨c, hc, hstep⟩ | h | h
        · subst h
          exact ⟨[], by simp [make_directory_step], by simp [make_directory_step], hex⟩
        · obtain ⟨r, h1, h2, h3⟩ := move_steps_shape fs0 fuel c _ step hstep
          obtain ⟨hc1, hc2, -⟩ := mem_list_children.mp hc
          have hceq := child_eq hc1 hc2
          generalize entry_name c = n at hceq h2
          subst hceq
          refine ⟨n :: r, ?_, ?_, ?_⟩
          · rw [h1]; simp
          · rw [h2]; simp
          · simpa using h3
        · subst h
          exact ⟨[], by simp, by simp, hex⟩
        · cases h

theorem CleanMove.plan_shape {fs : FileSystem} {sources : List FileReference}
    {destination : FileReference} (_h : CleanMove fs sources destination) {step : TransferStep}
    (hstep : step ∈ move_plan fs sources destination) :
    ∃ s ∈ sources, ∃ r, step.source = some (s ++ r) ∧
      step.destination = destination ++ [entry_name s] ++ r ∧ stat fs (s ++ r) ≠ none := by
  unfold move_plan at hstep
  obtain ⟨s, hs, hmem⟩ := List.mem_flatMap.mp hstep
  exact ⟨s, hs, move_steps_shape fs _ s _ step hmem⟩

/-- Right after a move without collision its record passes the validation of an undo. -/
theorem CleanMove.undo_valid_after {fs : FileSystem} {sources : List FileReference}
    {destination : FileReference} (h : CleanMove fs sources destination) (fs1 : FileSystem)
    (hst : ∀ q, stat fs1 q = relocated (into_dir destination sources) (stat fs) q) :
    undo_valid fs1 { kind := OperationKind.Move,
                     entries := (move_plan fs sources destination).map clean_entry } = true := by
  unfold undo_valid
  simp only [List.all_eq_true, List.mem_map, Bool.and_eq_true]
  rintro e ⟨step, hstep, rfl⟩
  obtain ⟨s, hs, r, h1, h2, h3⟩ := h.plan_shape hstep
  simp only [UndoEntry.new_location, UndoEntry.original_location, clean_entry, h1, h2]
  constructor
  · rw [file_exists_eq_true, hst, h.arrived hs]
    exact h3
  · simp only [Bool.not_eq_true']
    rw [file_exists_eq_false, hst, h.source_gone hs]

/-- With the layout from before a move without collision its record passes the
validation of a redo. -/
theorem CleanMove.redo_valid_before {fs : FileSystem} {sources : List FileReference}
    {destination : FileReference} (h : CleanMove fs sources destination) (g : FileSystem)
    (hg : same_layout g fs) :
    redo_valid g { kind := OperationKind.Move,
                   entries := (move_plan fs sources destination).map clean_entry } = true := by
  unfold redo_valid
  simp only [List.all_eq_true, List.mem_map, Bool.and_eq_true]
  rintro e ⟨step, hstep, rfl⟩
  obtain ⟨s, hs, r, h1, h2, h3⟩ := h.plan_shape hstep
  simp only [UndoEntry.new_location, UndoEntry.original_location, clean_entry, h1, h2]
  constructor
  · simp only [Bool.not_eq_true']
    rw [file_exists_eq_false, hg]
    exact h.region_free hs _ (List.prefix_append _ _)
  · rw [file_exists_eq_true, hg]
    exact h3

theorem undo_top (r : UndoRecord) (older undone : List UndoRecord) (fs1 g1 : FileSystem)
    (hv : undo_valid fs1 r = true)
    (hinv : apply_all invert_entry r.entries.reverse fs1 = Except.ok g1) :
    (UndoManager.mk (r :: older) undone).undo fs1 =
      (g1, UndoManager.mk older (r :: undone), Except.ok ()) := by
  simp only [UndoManager.undo, undo_record, hv, if_true, hinv]

theorem redo_top (r : UndoRecord) (applied later : List UndoRecord) (g1 g2 : FileSystem)
    (hv : redo_valid g1 r = true)
    (hrep : apply_all (fun g e => apply_step g e.step) r.entries g1 = Except.ok g2) :
    (UndoManager.mk applied (r :: later)).redo g1 =
      (g2, UndoManager.mk (r :: applied) later, Except.ok ()) := by
  simp only [UndoManager.redo, redo_record, hv, if_true, hrep]

/-- C10 (amended): a move of at least one entry that meets no collision is
successful; the undo directly after it succeeds and restores the layout from
before the move, and the redo directly after that undo succeeds and gives the
layout from right after the move. -/
theorem move_undo_redo_round_trip (w : World) (sources : List FileReference)
    (destination : FileReference) (policy : ConflictPolicy)
    (h : CleanMove w.fs sources destination) (hne : sources ≠ []) :
    operation_succeeded (move_sync w sources destination policy).2 = true ∧
      is_ok ((move_sync w sources destination policy).1.manager.undo
        (move_sync w sources destination policy).1.fs).2.2 = true ∧
      same_layout ((move_sync w sources destination policy).1.manager.undo
        (move_sync w sources destination policy).1.fs).1 w.fs ∧
      is_ok (((move_sync w sources destination policy).1.manager.undo
          (move_sync w sources destination policy).1.fs).2.1.redo
        ((move_sync w sources destination policy).1.manager.undo
          (move_sync w sources destination policy).1.fs).1).2.2 = true ∧
      same_layout (((move_sync w sources destination policy).1.manager.undo
          (move_sync w sources destination policy).1.fs).2.1.redo
        ((move_sync w sources destination policy).1.manager.undo
          (move_sync w sources destination policy).1.fs).1).1
        (move_sync w sources destination policy).1.fs := by
  obtain ⟨fs1, hrun, hst, heq⟩ := h.move_sync_eq w.manager policy hne
  have hw : move_sync w sources destination policy = _ := heq
  obtain ⟨g1, hinv, hg1⟩ := hrun.invert_all fs1 (same_layout_refl fs1)
  obtain ⟨g2, hrun2, hst2⟩ := h.run g1 hg1
  have hundo := undo_top (UndoRecord.mk OperationKind.Move
    ((move_plan w.fs sources destination).map clean_entry)) w.manager.applied [] fs1 g1
    (h.undo_valid_after fs1 hst) hinv
  have hredo := redo_top (UndoRecord.mk OperationKind.Move
    ((move_plan w.fs sources destination).map clean_entry)) w.manager.applied [] g1 g2
    (h.redo_valid_before g1 hg1) hrun2.replay
  rw [hw]
  simp only [UndoManager.push, hundo, hredo]
  refine ⟨?_, rfl, hg1, rfl, fun q => ?_⟩
  · simp [operation_succeeded, OperationResult.successful]
  · rw [hst2, hst]

theorem move_undo_redo_round_trip_witness :
    operation_succeeded (move_sync fixture_first_hierarchy [["first_dir"]] ["second_dir"]
        no_policy).2 = true ∧
      is_ok ((move_sync fixture_first_hierarchy [["first_dir"]] ["second_dir"]
          no_policy).1.manager.undo
        (move_sync fixture_first_hierarchy [["first_dir"]] ["second_dir"] no_policy).1.fs).2.2
        = true ∧
      same_layout ((move_sync fixture_first_hierarchy [["first_dir"]] ["second_dir"]
          no_policy).1.manager.undo
        (move_sync fixture_first_hierarchy [["first_dir"]] ["second_dir"] no_policy).1.fs).1
        fixture_first_hierarchy.fs ∧
      is_ok (((move_sync fixture_first_hierarchy [["first_dir"]] ["second_dir"]
            no_policy).1.manager.undo
          (move_sync fixture_first_hierarchy [["first_dir"]] ["second_dir"]
            no_policy).1.fs).2.1.redo
        ((move_sync fixture_first_hierarchy [["first_dir"]] ["second_dir"]
            no_policy).1.manager.undo
          (move_sync fixture_first_hierarchy [["first_dir"]] ["second_dir"]
            no_policy).1.fs).1).2.2 = true ∧
      same_layout (((move_sync fixture_first_hierarchy [["first_dir"]] ["second_dir"]
            no_policy).1.manager.undo
          (move_sync fixture_first_hierarchy [["first_dir"]] ["second_dir"]
            no_policy).1.fs).2.1.redo
        ((move_sync fixture_first_hierarchy [["first_dir"]] ["second_dir"]
            no_policy).1.manager.undo
          (move_sync fixture_first_hierarchy [["first_dir"]] ["second_dir"]
            no_policy).1.fs).1).1
        (move_sync fixture_first_hierarchy [["first_dir"]] ["second_dir"] no_policy).1.fs :=
  move_undo_redo_round_trip fixture_first_hierarchy [["first_dir"]] ["second_dir"] no_policy
    { wf := by decide, dest := by decide, present := by decide, outside := by decide,
      free := by decide, distinct := by decide }
    (by decide)

/-- C10 fails as stated: the move of `a/x` into `b`, where a file `x` exists
and the policy is to overwrite, is successful; the undo after it succeeds and
brings `a/x` back, but the overwritten `b/x` is not restored, so the layout is
not the layout from before the move. -/
theorem move_undo_redo_round_trip_counterexample :
    operation_succeeded (move_sync fixture_same_name [["a", "x"]] ["b"] always_overwrite).2
        = true ∧
      is_ok ((move_sync fixture_same_name [["a", "x"]] ["b"] always_overwrite).1.manager.undo
        (move_sync fixture_same_name [["a", "x"]] ["b"] always_overwrite).1.fs).2.2 = true ∧
      ¬ same_layout
        ((move_sync fixture_same_name [["a", "x"]] ["b"] always_overwrite).1.manager.undo
          (move_sync fixture_same_name [["a", "x"]] ["b"] always_overwrite).1.fs).1
        fixture_same_name.fs := by
  refine ⟨by decide, by decide, fun h => ?_⟩
  have := h ["b", "x"]
  revert this
  decide

/-- Two directories that are apart and differ in their names, moved into a
directory outside of both that holds nothing of their names, are a move without
collision. -/
theorem clean_move_two {fs : FileSystem} {D1 D2 B : FileReference} (hwf : fs_wf fs)
    (h1 : stat fs D1 ≠ none) (h2 : stat fs D2 ≠ none) (hind : apart D1 D2)
    (hnames : entry_name D1 ≠ entry_name D2) (hB : stat fs B = some Entry.Directory)
    (hout1 : ¬ D1 <+: B) (hout2 : ¬ D2 <+: B)
    (hfree1 : stat fs (B ++ [entry_name D1]) = none)
    (hfree2 : stat fs (B ++ [entry_name D2]) = none) : CleanMove fs [D1, D2] B :=
  { wf := hwf, dest := hB
    present := fun s hs => by
      rcases List.mem_pair.mp hs with rfl | rfl
      · exact h1
      · exact h2
    outside := fun s hs => by
      rcases List.mem_pair.mp hs with rfl | rfl
      · exact hout1
      · exact hout2
    free := fun s hs => by
      rcases List.mem_pair.mp hs with rfl | rfl
      · exact hfree1
      · exact hfree2
    distinct := by
      rw [List.pairwise_pair]
      exact ⟨hind, hnames⟩ }

/-- C9 (amended): two directories `D1` and `D2`, neither inside the other and
with different names, moved in one call into an existing directory `B` that
lies outside both subtrees and holds no entry with one of their names: every
path of either subtree is gone afterwards, the corresponding path under `B`
holds the same entry, and each subtree is found in `B` exactly as after moving
it alone. -/
theorem move_sync_two_roots (w : World) (D1 D2 B : FileReference) (policy : ConflictPolicy)
    (hwf : fs_wf w.fs) (h1 : stat w.fs D1 = some Entry.Directory)
    (h2 : stat w.fs D2 = some Entry.Directory) (hind : apart D1 D2)
    (hnames : entry_name D1 ≠ entry_name D2) (hB : stat w.fs B = some Entry.Directory)
    (hout1 : ¬ D1 <+: B) (hout2 : ¬ D2 <+: B)
    (hfree1 : stat w.fs (B ++ [entry_name D1]) = none)
    (hfree2 : stat w.fs (B ++ [entry_name D2]) = none) (r : FileReference) :
    (file_exists (move_sync w [D1, D2] B policy).1.fs (D1 ++ r) = false ∧
      stat (move_sync w [D1, D2] B policy).1.fs (B ++ [entry_name D1] ++ r) =
        stat w.fs (D1 ++ r) ∧
      file_exists (move_sync w [D1, D2] B policy).1.fs (D2 ++ r) = false ∧
      stat (move_sync w [D1, D2] B policy).1.fs (B ++ [entry_name D2] ++ r) =
        stat w.fs (D2 ++ r)) ∧
    (stat (move_sync w [D1, D2] B policy).1.fs (B ++ [entry_name D1] ++ r) =
        stat (move_sync w [D1] B policy).1.fs (B ++ [entry_name D1] ++ r) ∧
      stat (move_sync w [D1, D2] B policy).1.fs (B ++ [entry_name D2] ++ r) =
        stat (move_sync w [D2] B policy).1.fs (B ++ [entry_name D2] ++ r)) := by
  have hp1 : stat w.fs D1 ≠ none := by rw [h1]; simp
  have hp2 : stat w.fs D2 ≠ none := by rw [h2]; simp
  have hcm := clean_move_two hwf hp1 hp2 hind hnames hB hout1 hout2 hfree1 hfree2
  have hc1 := clean_move_tree hwf hp1 hB hout1 hfree1
  have hc2 := clean_move_tree hwf hp2 hB hout2 hfree2
  have ha := hcm.subtree_moved w.manager policy (List.mem_cons_self _ _) r
  have hb := hcm.subtree_moved w.manager policy
    (List.mem_cons_of_mem _ (List.mem_singleton.mpr rfl)) r
  have ha1 := hc1.subtree_moved w.manager policy (List.mem_singleton.mpr rfl) r
  have hb1 := hc2.subtree_moved w.manager policy (List.mem_singleton.mpr rfl) r
  exact ⟨⟨ha.1, ha.2, hb.1, hb.2⟩, ha.2.trans ha1.2.symm, hb.2.trans hb1.2.symm⟩

theorem move_sync_two_roots_witness :
    (file_exists (move_sync fixture_fifth_hierarchy [["first_dir"], ["second_dir"]] ["third_dir"]
        no_policy).1.fs (["first_dir"] ++ ["first_dir_child"]) = false ∧
      stat (move_sync fixture_fifth_hierarchy [["first_dir"], ["second_dir"]] ["third_dir"]
        no_policy).1.fs (["third_dir"] ++ [entry_name ["first_dir"]] ++ ["first_dir_child"]) =
        stat fixture_fifth_hierarchy.fs (["first_dir"] ++ ["first_dir_child"]) ∧
      file_exists (move_sync fixture_fifth_hierarchy [["first_dir"], ["second_dir"]] ["third_dir"]
        no_policy).1.fs (["second_dir"] ++ ["first_dir_child"]) = false ∧
      stat (move_sync fixture_fifth_hierarchy [["first_dir"], ["second_dir"]] ["third_dir"]
        no_policy).1.fs (["third_dir"] ++ [entry_name ["second_dir"]] ++ ["first_dir_child"]) =
        stat fixture_fifth_hierarchy.fs (["second_dir"] ++ ["first_dir_child"])) ∧
    (stat (move_sync fixture_fifth_hierarchy [["first_dir"], ["second_dir"]] ["third_dir"]
        no_policy).1.fs (["third_dir"] ++ [entry_name ["first_dir"]] ++ ["first_dir_child"]) =
        stat (move_sync fixture_fifth_hierarchy [["first_dir"]] ["third_dir"] no_policy).1.fs
          (["third_dir"] ++ [entry_name ["first_dir"]] ++ ["first_dir_child"]) ∧
      stat (move_sync fixture_fifth_hierarchy [["first_dir"], ["second_dir"]] ["third_dir"]
        no_policy).1.fs (["third_dir"] ++ [entry_name ["second_dir"]] ++ ["first_dir_child"]) =
        stat (move_sync fixture_fifth_hierarchy [["second_dir"]] ["third_dir"] no_policy).1.fs
          (["third_dir"] ++ [entry_name ["second_dir"]] ++ ["first_dir_child"])) :=
  move_sync_two_roots fixture_fifth_hierarchy ["first_dir"] ["second_dir"] ["third_dir"] no_policy
    (by decide) (by decide) (by decide) (by decide) (by decide) (by decide) (by decide)
    (by decide) (by decide) (by decide) ["first_dir_child"]

/-- C9 fails as stated, in two ways. With the existing directory `second_dir`
itself as the destination the move of `first_dir` and `second_dir` is refused
and `first_dir` stays where it is. With the destination `third_dir` that holds
a regular file named `first_dir` the move is refused for the unresolved
conflict and both directories stay where they are. -/
theorem move_sync_two_roots_counterexample :
    ((stat fixture_fifth_hierarchy.fs ["first_dir"] = some Entry.Directory ∧
        stat fixture_fifth_hierarchy.fs ["second_dir"] = some Entry.Directory ∧
        apart ["first_dir"] ["second_dir"]) ∧
      ¬ file_exists (move_sync fixture_fifth_hierarchy [["first_dir"], ["second_dir"]]
          ["second_dir"] no_policy).1.fs ["first_dir"] = false) ∧
    ((stat fixture_fifth_occupied.fs ["first_dir"] = some Entry.Directory ∧
        stat fixture_fifth_occupied.fs ["second_dir"] = some Entry.Directory ∧
        apart ["first_dir"] ["second_dir"] ∧
        stat fixture_fifth_occupied.fs ["third_dir"] = some Entry.Directory) ∧
      ¬ file_exists (move_sync fixture_fifth_occupied [["first_dir"], ["second_dir"]]
          ["third_dir"] no_policy).1.fs ["second_dir", "second_dir_child"] = false) := by
  decide

/-! ## Well-formedness is kept by every operation of the engine -/

theorem not_listed_of_stat_none {fs : FileSystem} {q : FileReference} (h : stat fs q = none) :
    q ∉ fs.map (fun x => x.1) := by
  have hq := ne_root_of_stat_none h
  rw [stat_of_ne_root hq, lookup_entry_eq_none] at h
  intro hm
  obtain ⟨x, hx, hxq⟩ := List.mem_map.mp hm
  exact h x hx hxq

theorem remove_entry_nodup {fs : FileSystem} (h : (fs.map (fun x => x.1)).Nodup)
    (r : FileReference) : ((remove_entry fs r).map (fun x => x.1)).Nodup :=
  ((List.filter_sublist _).map _).nodup h

theorem mem_remove_entry {fs : FileSystem} {r : FileReference} {x : FileReference × Entry} :
    x ∈ remove_entry fs r ↔ x ∈ fs ∧ x.1 ≠ r := by
  simp [remove_entry]

theorem stat_of_listed {fs : FileSystem} (hw : fs_wf fs) {x : FileReference × Entry}
    (hx : x ∈ fs) : stat fs x.1 ≠ none := by
  rw [stat_of_ne_root (hw.2 x hx).1]
  exact lookup_entry_ne_none.mpr ⟨x, hx, rfl⟩

/-- Creating a directory keeps the filesystem well formed. -/
theorem create_directory_wf {fs fs1 : FileSystem} {ref : FileReference} (hw : fs_wf fs)
    (h : create_directory fs ref = Except.ok fs1) : fs_wf fs1 := by
  unfold create_directory at h
  split_ifs at h with h1 h2 h3
  cases h
  have hnone : stat fs ref = none := by
    cases hs : stat fs ref with
    | none => rfl
    | some e => rw [hs] at h2; simp at h2
  push_neg at h3
  refine ⟨?_, ?_⟩
  · rw [List.map_cons, List.nodup_cons]
    exact ⟨not_listed_of_stat_none hnone, hw.1⟩
  · intro x hx
    rcases List.mem_cons.mp hx with rfl | hx
    · refine ⟨h1, ?_⟩
      rw [stat_cons _ _ _ _ h1, if_neg (parent_of_ne_self h1), h3]
    · refine ⟨(hw.2 x hx).1, ?_⟩
      rw [stat_cons _ _ _ _ h1]
      split_ifs
      · rfl
      · exact (hw.2 x hx).2

/-- Deleting an entry keeps the filesystem well formed. -/
theorem delete_wf {fs fs1 : FileSystem} {ref : FileReference} (hw : fs_wf fs)
    (h : delete fs ref = Except.ok fs1) : fs_wf fs1 := by
  by_cases h1 : ref = []
  · simp [delete, h1] at h
  · by_cases h2 : list_children fs ref = []
    · cases hs : stat fs ref with
      | none => simp [delete, h1, hs] at h
      | some e =>
        simp only [delete, if_neg h1, hs, h2, ne_eq, not_true_eq_false, if_false] at h
        cases h
        refine ⟨remove_entry_nodup hw.1 ref, ?_⟩
        intro x hx
        obtain ⟨hx1, hx2⟩ := mem_remove_entry.mp hx
        refine ⟨(hw.2 x hx1).1, ?_⟩
        rw [stat_remove_entry _ _ _ h1, if_neg, (hw.2 x hx1).2]
        intro hp
        exact stat_of_listed hw hx1 (list_children_eq_nil.mp h2 x.1 (hw.2 x hx1).1 hp)
    · cases hs : stat fs ref <;> simp [delete, h1, hs, h2] at h

/-- The entries left when a regular file takes the place `destination`. -/
theorem place_file_wf {fs : FileSystem} {base : FileSystem} {destination : FileReference}
    {size : Nat} (hw : fs_wf fs) (hd : destination ≠ [])
    (hpar : stat fs (parent_of destination) = some Entry.Directory)
    (hnd : stat fs destination ≠ some Entry.Directory)
    (hbase_nodup : (base.map (fun x => x.1)).Nodup)
    (hbase_mem : ∀ x ∈ base, x ∈ fs)
    (hbase_stat : ∀ q, q ≠ destination → stat base q = stat fs q ∨
      (stat base q = none ∧ stat fs q ≠ some Entry.Directory)) :
    fs_wf ((destination, Entry.File size) :: remove_entry base destination) := by
  refine ⟨?_, ?_⟩
  · rw [List.map_cons, List.nodup_cons]
    refine ⟨?_, remove_entry_nodup hbase_nodup _⟩
    apply not_listed_of_stat_none
    rw [stat_remove_entry _ _ _ hd, if_pos rfl]
  · have hkeep : ∀ q, stat fs q = some Entry.Directory →
        stat ((destination, Entry.File size) :: remove_entry base destination) q =
          some Entry.Directory := by
      intro q hq
      have hqd : q ≠ destination := by
        rintro rfl; exact hnd hq
      rw [stat_cons _ _ _ _ hd, if_neg hqd, stat_remove_entry _ _ _ hd, if_neg hqd]
      rcases hbase_stat q hqd with h | ⟨-, h⟩
      · rw [h, hq]
      · exact absurd hq h
    intro x hx
    rcases List.mem_cons.mp hx with rfl | hx
    · exact ⟨hd, hkeep _ hpar⟩
    · have hx1 := hbase_mem x (mem_remove_entry.mp hx).1
      exact ⟨(hw.2 x hx1).1, hkeep _ (hw.2 x hx1).2⟩

/-- Renaming a regular file keeps the filesystem well formed. -/
theorem rename_wf {fs fs1 : FileSystem} {source destination : FileReference} (hw : fs_wf fs)
    (h : rename fs source destination = Except.ok fs1) : fs_wf fs1 := by
  unfold rename at h
  cases hs : stat fs source with
  | none => rw [hs] at h; cases h
  | some e =>
    rw [hs] at h
    cases e with
    | Directory => cases h
    | File size =>
      simp only at h
      split_ifs at h with h1 h2
      cases h
      push_neg at h1
      have hsrc : source ≠ [] := by
        rintro rfl; rw [stat_root] at hs; cases hs
      refine place_file_wf hw h1.1 h1.2 h2 (remove_entry_nodup hw.1 _)
        (fun x hx => (mem_remove_entry.mp hx).1) (fun q _ => ?_)
      rw [stat_remove_entry _ _ _ hsrc]
      by_cases hq : q = source
      · right
        rw [if_pos hq, hq, hs]
        simp
      · left
        rw [if_neg hq]

/-- Copying a regular file keeps the filesystem well formed. -/
theorem copy_file_wf {fs fs1 : FileSystem} {source destination : FileReference} (hw : fs_wf fs)
    (h : copy_file fs source destination = Except.ok fs1) : fs_wf fs1 := by
  unfold copy_file at h
  cases hs : stat fs source with
  | none => rw [hs] at h; cases h
  | some e =>
    rw [hs] at h
    cases e with
    | Directory => cases h
    | File size =>
      simp only at h
      split_ifs at h with h1 h2
      cases h
      push_neg at h1
      exact place_file_wf hw h1.1 h1.2 h2 hw.1 (fun x hx => hx) (fun q _ => Or.inl rfl)

/-- Every step of the executor keeps the filesystem well formed. -/
theorem apply_step_wf {fs fs1 : FileSystem} {step : TransferStep} (hw : fs_wf fs)
    (h : apply_step fs step = Except.ok fs1) : fs_wf fs1 := by
  unfold apply_step at h
  split at h
  · exact create_directory_wf hw h
  · exact copy_file_wf hw h
  · exact rename_wf hw h
  · exact delete_wf hw h
  · cases h; exact hw
  · cases h


theorem attempt_step_wf {fs fs1 : FileSystem} {step : TransferStep} (hw : fs_wf fs)
    (h : attempt_step fs step = Except.ok fs1) : fs_wf fs1 := by
  unfold attempt_step at h
  split at h
  · exact apply_step_wf hw h
  · exact apply_step_wf hw h

/-- The executor keeps the filesystem well formed, whatever the plan. -/
theorem run_steps_wf (on_failure : FailurePolicy) (cancel_at : Option Nat) :
    ∀ (p : TransferPlan) (index : Nat) (fs : FileSystem), fs_wf fs →
      fs_wf (run_steps on_failure cancel_at index p fs).fs
  | [], _, _, hw => by simpa [run_steps] using hw
  | step :: rest, index, fs, hw => by
    unfold run_steps
    by_cases hc : is_cancelled cancel_at index = true
    · rw [if_pos hc]; exact hw
    · rw [if_neg hc]
      by_cases hb : cleanup_blocked fs step = true
      · rw [if_pos hb]
        exact run_steps_wf on_failure cancel_at rest (index + 1) fs hw
      · rw [if_neg hb]
        cases ha : attempt_step fs step with
        | ok fs1 =>
          exact run_steps_wf on_failure cancel_at rest (index + 1) fs1 (attempt_step_wf hw ha)
        | error e =>
          cases on_failure with
          | Abort => exact hw
          | SkipAndContinue => exact run_steps_wf _ cancel_at rest (index + 1) fs hw

/-- The synchronous entry point keeps the filesystem well formed, for every
list of sources, every destination and every conflict policy. -/
theorem move_sync_wf (w : World) (sources : List FileReference) (destination : FileReference)
    (policy : ConflictPolicy) (hw : fs_wf w.fs) :
    fs_wf (move_sync w sources destination policy).1.fs := by
  unfold move_sync
  cases plan w.fs policy sources destination TransferMode.Move with
  | error e => exact hw
  | ok p => exact run_steps_wf _ none p 0 w.fs hw

theorem invert_entry_wf {fs fs1 : FileSystem} {e : UndoEntry} (hw : fs_wf fs)
    (h : invert_entry fs e = Except.ok fs1) : fs_wf fs1 := by
  unfold invert_entry at h
  split at h
  · exact delete_wf hw h
  · exact delete_wf hw h
  · exact rename_wf hw h
  · split at h
    · exact create_directory_wf hw h
    · cases h
  · cases h; exact hw
  · cases h

theorem apply_all_wf (action : FileSystem → UndoEntry → Except ErrorKind FileSystem)
    (hact : ∀ fs fs1 e, fs_wf fs → action fs e = Except.ok fs1 → fs_wf fs1) :
    ∀ (l : List UndoEntry) (fs fs1 : FileSystem), fs_wf fs →
      apply_all action l fs = Except.ok fs1 → fs_wf fs1
  | [], fs, fs1, hw, h => by
    simp only [apply_all] at h
    cases h
    exact hw
  | e :: rest, fs, fs1, hw, h => by
    simp only [apply_all] at h
    cases ha : action fs e with
    | error err => rw [ha] at h; cases h
    | ok fsa =>
      rw [ha] at h
      exact apply_all_wf action hact rest fsa fs1 (hact fs fsa e hw ha) h

/-- An undo keeps the filesystem well formed. -/
theorem undo_wf (m : UndoManager) (fs : FileSystem) (hw : fs_wf fs) : fs_wf (m.undo fs).1 := by
  unfold UndoManager.undo
  cases m.applied with
  | nil => exact hw
  | cons r older =>
    simp only
    cases hu : undo_record fs r with
    | error e => exact hw
    | ok fs1 =>
      simp only
      unfold undo_record at hu
      split_ifs at hu
      cases ha : apply_all invert_entry r.entries.reverse fs with
      | error e => rw [ha] at hu; cases hu
      | ok fs2 =>
        rw [ha] at hu
        cases hu
        exact apply_all_wf invert_entry (fun _ _ _ h1 h2 => invert_entry_wf h1 h2) _ _ _ hw ha

/-- A redo keeps the filesystem well formed. -/
theorem redo_wf (m : UndoManager) (fs : FileSystem) (hw : fs_wf fs) : fs_wf (m.redo fs).1 := by
  unfold UndoManager.redo
  cases m.undone with
  | nil => exact hw
  | cons r later =>
    simp only
    cases hu : redo_record fs r with
    | error e => exact hw
    | ok fs1 =>
      simp only
      unfold redo_record at hu
      split_ifs at hu
      cases ha : apply_all (fun fs1 e => apply_step fs1 e.step) r.entries fs with
      | error e => rw [ha] at hu; cases hu
      | ok fs2 =>
        rw [ha] at hu
        cases hu
        exact apply_all_wf _ (fun _ _ _ h1 h2 => apply_step_wf h1 h2) _ _ _ hw ha

/-! ## `nautilus_canvas_item_hit_test_rectangle` -/

/-- C17. For a canvas item, `nautilus_canvas_item_hit_test_rectangle (item, r)` returns
TRUE exactly when `eel_irect_hits_irect` holds of the cached `icon_rect` and `r`, or of the
cached `text_rect` and `r`. -/
theorem hit_test_rectangle_iff (hits : EelIRect → EelIRect → Bool) (item : CanvasItemRects)
    (r : EelIRect) :
    nautilus_canvas_item_hit_test_rectangle hits (some item) r = true ↔
      (hits item.icon_rect r = true ∨ hits item.text_rect r = true) := by
  unfold nautilus_canvas_item_hit_test_rectangle hit_test
  cases h1 : hits item.icon_rect r <;> cases h2 : hits item.text_rect r <;> simp [h1, h2]

/-! ## The path bar -/

theorem setup_button_type_file (kinds : LocationKinds) (b : ButtonData) (l : GFile) :
    (setup_button_type kinds b l).file = b.file ∧ (setup_button_type kinds b l).path = b.path := by
  unfold setup_button_type
  cases kinds.nautilus_get_mounted_mount_for_root l <;> (split_ifs <;> exact ⟨rfl, rfl⟩)

theorem make_button_data_file (kinds : LocationKinds) (f : NautilusFile) (c : Bool) :
    (make_button_data kinds f c).file = some f ∧
      (make_button_data kinds f c).path = some (nautilus_file_get_location f) := by
  have h := setup_button_type_file kinds ButtonData.zeroed (nautilus_file_get_location f)
  have hf : (setup_button_type kinds ButtonData.zeroed (nautilus_file_get_location f)).file
      = none := h.1
  have hp : (setup_button_type kinds ButtonData.zeroed (nautilus_file_get_location f)).path
      = none := h.2
  dsimp only [make_button_data]
  split_ifs <;> simp_all

theorem update_path_loop_eq (kinds : LocationKinds) (f : NautilusFile) :
    ∀ (c : Bool) (acc : List ButtonData),
      update_path_loop kinds f c acc = (path_buttons kinds f c).reverse ++ acc := by
  induction f with
  | toplevel l n => intro c acc; simp [update_path_loop, path_buttons]
  | inside l n p ih =>
      intro c acc
      unfold update_path_loop path_buttons
      by_cases h : (make_button_data kinds (.inside l n p) c).is_root = true
      · simp [h]
      · simp [h, ih]

theorem update_path_button_list (kinds : LocationKinds) (priv : NautilusPathBarPrivate)
    (f : NautilusFile) :
    (nautilus_path_bar_update_path kinds priv f).button_list = path_buttons kinds f true := by
  simp [nautilus_path_bar_update_path, update_path_loop_eq]

theorem path_buttons_head (kinds : LocationKinds) (f : NautilusFile) (c : Bool) :
    ∃ rest, path_buttons kinds f c = make_button_data kinds f c :: rest := by
  cases f with
  | toplevel l n => exact ⟨[], rfl⟩
  | inside l n p =>
      unfold path_buttons
      split_ifs
      · exact ⟨[], rfl⟩
      · exact ⟨_, rfl⟩

theorem path_buttons_chain (kinds : LocationKinds) (f : NautilusFile) :
    ∀ c, List.Chain' button_parent_link (path_buttons kinds f c) := by
  induction f with
  | toplevel l n => intro c; simp [path_buttons]
  | inside l n p ih =>
      intro c
      unfold path_buttons
      split_ifs
      · simp
      · obtain ⟨rest, hrest⟩ := path_buttons_head kinds p false
        have hc := ih false
        rw [hrest] at hc ⊢
        refine List.Chain'.cons ?_ hc
        exact ⟨_, _, (make_button_data_file kinds _ c).1, (make_button_data_file kinds p false).1,
          rfl⟩

theorem path_buttons_inner (kinds : LocationKinds) (f : NautilusFile) :
    ∀ c, ∀ b ∈ (path_buttons kinds f c).dropLast, b.is_root = false := by
  induction f with
  | toplevel l n => intro c b hb; simp [path_buttons] at hb
  | inside l n p ih =>
      intro c b hb
      unfold path_buttons at hb
      split_ifs at hb with h
      · simp at hb
      · obtain ⟨rest, hrest⟩ := path_buttons_head kinds p false
        rw [hrest, List.dropLast_cons₂] at hb
        rcases List.mem_cons.mp hb with rfl | hb
        · simpa using h
        · rw [← hrest] at hb
          exact ih false b hb

theorem path_buttons_last (kinds : LocationKinds) (f : NautilusFile) :
    ∀ c b, (path_buttons kinds f c).getLast? = some b →
      b.is_root = true ∨ button_without_parent b := by
  induction f with
  | toplevel l n =>
      intro c b hb
      simp [path_buttons] at hb
      subst hb
      exact Or.inr ⟨_, (make_button_data_file kinds _ c).1, rfl⟩
  | inside l n p ih =>
      intro c b hb
      unfold path_buttons at hb
      split_ifs at hb with h
      · simp at hb
        subst hb
        exact Or.inl h
      · obtain ⟨rest, hrest⟩ := path_buttons_head kinds p false
        rw [hrest, List.getLast?_cons_cons, ← hrest] at hb
        exact ih false b hb

theorem setup_button_type_root (kinds : LocationKinds) (b : ButtonData) (l : GFile)
    (hb : b.is_root = false) :
    (setup_button_type kinds b l).is_root = root_like kinds l ∧
      (setup_button_type kinds b l).is_root = root_like_type (setup_button_type kinds b l).type := by
  unfold setup_button_type root_like
  cases h1 : kinds.nautilus_is_root_directory l
  · cases h2 : kinds.nautilus_is_home_directory l
    · cases h3 : kinds.nautilus_is_recent_directory l
      · cases h4 : kinds.nautilus_is_starred_directory l
        · cases h5 : kinds.nautilus_get_mounted_mount_for_root l with
          | some m => simp [root_like_type]
          | none =>
            cases h6 : kinds.nautilus_is_other_locations_directory l
            · by_cases h7 : l.uri = "admin:///"
              · simp [h7, root_like_type]
              · simp [h7, hb, root_like_type]
            · simp [root_like_type]
        · simp [root_like_type]
      · simp [root_like_type]
    · simp [root_like_type]
  · simp [hb, root_like_type]

theorem make_button_data_root (kinds : LocationKinds) (f : NautilusFile) (c : Bool) :
    (make_button_data kinds f c).is_root = root_like kinds (nautilus_file_get_location f) ∧
      (make_button_data kinds f c).is_root = root_like_type (make_button_data kinds f c).type := by
  have h := setup_button_type_root kinds ButtonData.zeroed (nautilus_file_get_location f) rfl
  have h1 : (make_button_data kinds f c).is_root
      = (setup_button_type kinds ButtonData.zeroed (nautilus_file_get_location f)).is_root := by
    dsimp only [make_button_data]
    split_ifs <;> rfl
  have h2 : (make_button_data kinds f c).type
      = (setup_button_type kinds ButtonData.zeroed (nautilus_file_get_location f)).type := by
    dsimp only [make_button_data]
    split_ifs <;> rfl
  rw [h1, h2]
  exact h

theorem path_buttons_made (kinds : LocationKinds) (f : NautilusFile) :
    ∀ c, ∀ b ∈ path_buttons kinds f c, ∃ g c1, b = make_button_data kinds g c1 := by
  induction f with
  | toplevel l n =>
      intro c b hb
      simp only [path_buttons, List.mem_singleton] at hb
      exact ⟨_, _, hb⟩
  | inside l n p ih =>
      intro c b hb
      unfold path_buttons at hb
      split_ifs at hb with h
      · simp only [List.mem_singleton] at hb
        exact ⟨_, _, hb⟩
      · rcases List.mem_cons.mp hb with hb | hb
        · exact ⟨_, _, hb⟩
        · exact ih false b hb

theorem path_buttons_root_like (kinds : LocationKinds) (f : NautilusFile) (c : Bool) :
    ∀ b ∈ path_buttons kinds f c, ∃ g, b.file = some g ∧
      b.is_root = root_like kinds (nautilus_file_get_location g) ∧
      b.is_root = root_like_type b.type := by
  intro b hb
  obtain ⟨g, c1, rfl⟩ := path_buttons_made kinds f c b hb
  exact ⟨g, (make_button_data_file kinds g c1).1, make_button_data_root kinds g c1⟩

/-- C19. After `nautilus_path_bar_update_path (self, location)` the button list starts with
the button made for the file of `location`, every following button is the one of the parent
of the file of the button before it, no button before the last is root-like, and the last
button is root-like or stands for a file without parent; a button is root-like (`is_root`)
exactly when its location is the home, recent, starred or other-locations directory, the
root of a mounted mount or the admin root, and not the root directory, which is exactly
when its type is one of the six types of these locations; `nautilus_path_bar_set_path`
builds the same list and records its first element as `current_button_data`. -/
theorem path_bar_button_list (kinds : LocationKinds) (priv : NautilusPathBarPrivate)
    (file : NautilusFile) :
    (∃ rest, (nautilus_path_bar_update_path kinds priv file).button_list
        = make_button_data kinds file true :: rest) ∧
      (make_button_data kinds file true).file = some file ∧
      (make_button_data kinds file true).path = some (nautilus_file_get_location file) ∧
      List.Chain' button_parent_link (nautilus_path_bar_update_path kinds priv file).button_list ∧
      (∀ b ∈ (nautilus_path_bar_update_path kinds priv file).button_list.dropLast,
        b.is_root = false) ∧
      (∀ b, (nautilus_path_bar_update_path kinds priv file).button_list.getLast? = some b →
        b.is_root = true ∨ button_without_parent b) ∧
      (∀ b ∈ (nautilus_path_bar_update_path kinds priv file).button_list,
        ∃ g, b.file = some g ∧ b.is_root = root_like kinds (nautilus_file_get_location g) ∧
          b.is_root = root_like_type b.type) ∧
      (nautilus_path_bar_set_path kinds priv file).button_list
        = (nautilus_path_bar_update_path kinds priv file).button_list ∧
      (nautilus_path_bar_set_path kinds priv file).current_button_data
        = some (make_button_data kinds file true) ∧
      (nautilus_path_bar_set_path kinds priv file).current_path
        = some (nautilus_file_get_location file) := by
  rw [update_path_button_list]
  refine ⟨path_buttons_head kinds file true, (make_button_data_file kinds file true).1,
    (make_button_data_file kinds file true).2, path_buttons_chain kinds file true,
    path_buttons_inner kinds file true, path_buttons_last kinds file true,
    path_buttons_root_like kinds file true, ?_, ?_, rfl⟩
  · simp [nautilus_path_bar_set_path, update_path_button_list]
  · obtain ⟨rest, hrest⟩ := path_buttons_head kinds file true
    simp [nautilus_path_bar_set_path, update_path_button_list, hrest]

/-- C19, on two examples: for `file:///home/user/Documents/notes` the path bar holds the
buttons of `notes`, `Documents` and the home directory, in this order, the current button is
the one of `notes`, and each button is root-like exactly when its location is; for the
recent directory the list ends with its button, before the root directory. -/
theorem path_bar_button_list_witness :
    ((nautilus_path_bar_set_path fixture_kinds fixture_path_bar fixture_notes).button_list.map
        (fun b => (b.dir_name, b.type, b.is_root))
      = [(some "notes", ButtonType.NORMAL_BUTTON, false),
         (some "Documents", ButtonType.NORMAL_BUTTON, false),
         (some "Home", ButtonType.HOME_BUTTON, true)]) ∧
      (nautilus_path_bar_set_path fixture_kinds fixture_path_bar fixture_notes).current_button_data
        = some (make_button_data fixture_kinds fixture_notes true) ∧
      ((nautilus_path_bar_update_path fixture_kinds_recent fixture_path_bar
          fixture_recent).button_list.map (fun b => (b.dir_name, b.type, b.is_root))
        = [(some "Recent", ButtonType.RECENT_BUTTON, true)]) ∧
      (∀ b ∈ (nautilus_path_bar_update_path fixture_kinds_recent fixture_path_bar
          fixture_recent).button_list,
        ∃ g, b.file = some g ∧
          b.is_root = root_like fixture_kinds_recent (nautilus_file_get_location g) ∧
          b.is_root = root_like_type b.type) :=
  ⟨by decide,
    (path_bar_button_list fixture_kinds fixture_path_bar fixture_notes).2.2.2.2.2.2.2.2.1,
    by decide,
    (path_bar_button_list fixture_kinds_recent fixture_path_bar fixture_recent).2.2.2.2.2.2.1⟩

/-! ## `measure_label_text` -/

/-- C18. The claim fails in the code: for an item with `entire_text` set whose name is laid
out on four lines of 16 pixels, in a container with a limit of three lines,
`measure_label_text` stores 66 in `text_height` and 50 in `text_height_for_layout`. -/
theorem measure_label_text_entire_text_differs :
    fixture_entire_text_item.entire_text = true ∧
      (measure_label_text fixture_three_line_limit (fun _ => fixture_four_lines)
        fixture_entire_text_item).text_height = 66 ∧
      (measure_label_text fixture_three_line_limit (fun _ => fixture_four_lines)
        fixture_entire_text_item).text_height_for_layout = 50 := by
  decide

/-- When the whole name fits in the container's number of lines, an item with `entire_text`
set is measured with `text_height_for_layout` equal to `text_height`. -/
theorem measure_label_text_entire_text_fits (container : CanvasContainerLimits)
    (get_label_layout : String → PangoLayout) (item : CanvasItemLabel)
    (hentire : item.entire_text = true)
    (hfit : ∀ text, (((get_label_layout text).metrics G_MININT).lines.length : Int)
      ≤ container.max_layout_lines)
    (hstale : ¬ (item.text_width ≥ 0 ∧ item.text_height ≥ 0)) :
    (measure_label_text container get_label_layout item).text_height_for_layout
      = (measure_label_text container get_label_layout item).text_height := by
  unfold measure_label_text
  rw [if_neg hstale]
  by_cases hnone : (!have_text item.editable_text && !have_text item.additional_text) = true
  · simp only [hnone, if_true]
  · simp only [hnone]
    by_cases he : have_text item.editable_text = true <;>
      by_cases ha : have_text item.additional_text = true <;>
      simp [he, ha, prepare_pango_layout_for_draw, hentire,
        prepare_pango_layout_for_measure_entire_text, pango_layout_set_height,
        layout_get_size_for_layout, PangoLayout.current, hfit]

/-! ## `nautilus_filename_shorten_base`: the cut falls on a character boundary -/

theorem utf8_cont_not_start (x : Nat) (h : utf8_is_cont x = true) : is_char_start x = false := by
  unfold utf8_is_cont at h
  have h1 : 0x80 ≤ x ∧ x ≤ 0xBF := by simpa using h
  obtain ⟨h1, h2⟩ := h1
  unfold is_char_start
  interval_cases x <;> decide

theorem utf8_second_ok_cont (b0 b1 : Nat) (h : utf8_second_ok b0 b1 = true) :
    utf8_is_cont b1 = true := by
  unfold utf8_second_ok at h
  unfold utf8_is_cont
  have h' := of_decide_eq_true h
  apply decide_eq_true
  split_ifs at h' <;> omega

theorem utf8_seq_len_le (b0 : Nat) : utf8_seq_len b0 ≤ 4 := by
  unfold utf8_seq_len
  split_ifs <;> omega

theorem utf8_valid_one (b0 : Nat) (r : List Nat) (h : utf8_seq_len b0 = 1) :
    utf8_valid (b0 :: r) = utf8_valid r := by
  conv_lhs => unfold utf8_valid
  rw [h]

theorem utf8_valid_two (b0 b1 : Nat) (r : List Nat) (h : utf8_seq_len b0 = 2) :
    utf8_valid (b0 :: b1 :: r) = (utf8_second_ok b0 b1 && utf8_valid r) := by
  conv_lhs => unfold utf8_valid
  rw [h]

theorem utf8_valid_three (b0 b1 b2 : Nat) (r : List Nat) (h : utf8_seq_len b0 = 3) :
    utf8_valid (b0 :: b1 :: b2 :: r)
      = (utf8_second_ok b0 b1 && utf8_is_cont b2 && utf8_valid r) := by
  conv_lhs => unfold utf8_valid
  rw [h]

theorem utf8_valid_four (b0 b1 b2 b3 : Nat) (r : List Nat) (h : utf8_seq_len b0 = 4) :
    utf8_valid (b0 :: b1 :: b2 :: b3 :: r)
      = (utf8_second_ok b0 b1 && utf8_is_cont b2 && utf8_is_cont b3 && utf8_valid r) := by
  conv_lhs => unfold utf8_valid
  rw [h]

theorem utf8_valid_short (b0 : Nat) (r : List Nat) (h : r.length + 1 < utf8_seq_len b0) :
    utf8_valid (b0 :: r) = false := by
  have h4 := utf8_seq_len_le b0
  generalize hn : utf8_seq_len b0 = n at h h4
  unfold utf8_valid
  rw [hn]
  match r, h with
  | [], h =>
    simp only [List.length_nil] at h
    interval_cases n <;> rfl
  | [b1], h =>
    simp only [List.length_cons, List.length_nil] at h
    interval_cases n <;> rfl
  | [b1, b2], h =>
    simp only [List.length_cons, List.length_nil] at h
    interval_cases n
    rfl
  | _ :: _ :: _ :: _, h =>
    simp only [List.length_cons] at h
    omega

theorem is_char_start_zero : is_char_start 0 = true := by decide

/-- In well-formed UTF-8 the cuts that leave a well-formed first part are the offsets of
the bytes that start a character, and the end; the rest after such a cut is well-formed. -/
theorem utf8_boundary : ∀ (n : Nat) (b : List Nat), b.length = n → utf8_valid b = true →
    ∀ k, k ≤ b.length →
      ((utf8_valid (b.take k) = true ↔ is_char_start (b.getD k 0) = true) ∧
        (is_char_start (b.getD k 0) = true → utf8_valid (b.drop k) = true)) := by
  intro n
  induction n using Nat.strong_induction_on with
  | _ n ih =>
    intro b hn hv k hk
    match b, hn, hv, k, hk with
    | [], _, _, k, hk =>
      simp only [List.length_nil, Nat.le_zero] at hk
      subst hk
      simp [utf8_valid, is_char_start_zero]
    | b0 :: rest, hn, hv, 0, _ =>
      have h0 := is_char_start_of_valid_head b0 rest hv
      simp [utf8_valid, h0, hv]
    | b0 :: rest, hn, hv, k + 1, hk =>
      have h4 := utf8_seq_len_le b0
      have hshort : ¬ (rest.length + 1 < utf8_seq_len b0) := by
        intro hc
        rw [utf8_valid_short b0 rest hc] at hv
        exact Bool.false_ne_true hv
      have hne : utf8_seq_len b0 ≠ 0 := by
        intro hc
        unfold utf8_valid at hv
        rw [hc] at hv
        exact Bool.false_ne_true hv
      simp only [List.length_cons] at hn hk
      rcases (by omega : utf8_seq_len b0 = 1 ∨ utf8_seq_len b0 = 2 ∨ utf8_seq_len b0 = 3 ∨
        utf8_seq_len b0 = 4) with h1 | h2 | h3 | h4
      · rw [utf8_valid_one b0 rest h1] at hv
        have := ih rest.length (by omega) rest rfl hv k (by omega)
        simpa [utf8_valid_one b0 _ h1] using this
      · match rest, k, hv, hshort, hn, hk with
        | [], _, _, hshort, _, _ => simp [h2] at hshort
        | b1 :: r, 0, hv, _, hn, hk =>
          rw [utf8_valid_two b0 b1 r h2, Bool.and_eq_true] at hv
          have hc := utf8_cont_not_start b1 (utf8_second_ok_cont b0 b1 hv.1)
          have hs := utf8_valid_short b0 [] (by simp [h2])
          simp [hc, hs]
        | b1 :: r, k + 1, hv, _, hn, hk =>
          rw [utf8_valid_two b0 b1 r h2, Bool.and_eq_true] at hv
          simp only [List.length_cons] at hn hk
          have := ih r.length (by omega) r rfl hv.2 k (by omega)
          simpa [utf8_valid_two b0 b1 _ h2, hv.1] using this
      · match rest, k, hv, hshort, hn, hk with
        | [], _, _, hshort, _, _ => simp [h3] at hshort
        | [_], _, _, hshort, _, _ => simp [h3] at hshort
        | b1 :: b2 :: r, 0, hv, _, hn, hk =>
          rw [utf8_valid_three b0 b1 b2 r h3, Bool.and_eq_true, Bool.and_eq_true] at hv
          have hc := utf8_cont_not_start b1 (utf8_second_ok_cont b0 b1 hv.1.1)
          have hs := utf8_valid_short b0 [] (by simp [h3])
          simp [hc, hs]
        | b1 :: b2 :: r, 1, hv, _, hn, hk =>
          rw [utf8_valid_three b0 b1 b2 r h3, Bool.and_eq_true, Bool.and_eq_true] at hv
          have hc := utf8_cont_not_start b2 hv.1.2
          have hs := utf8_valid_short b0 [b1] (by simp [h3])
          simp [hc, hs]
        | b1 :: b2 :: r, k + 2, hv, _, hn, hk =>
          rw [utf8_valid_three b0 b1 b2 r h3, Bool.and_eq_true, Bool.and_eq_true] at hv
          simp only [List.length_cons] at hn hk
          have := ih r.length (by omega) r rfl hv.2 k (by omega)
          simpa [utf8_valid_three b0 b1 b2 _ h3, hv.1.1, hv.1.2] using this
      · match rest, k, hv, hshort, hn, hk with
        | [], _, _, hshort, _, _ => simp [h4] at hshort
        | [_], _, _, hshort, _, _ => simp [h4] at hshort
        | [_, _], _, _, hshort, _, _ => simp [h4] at hshort
        | b1 :: b2 :: b3 :: r, 0, hv, _, hn, hk =>
          rw [utf8_valid_four b0 b1 b2 b3 r h4, Bool.and_eq_true, Bool.and_eq_true,
            Bool.and_eq_true] at hv
          have hc := utf8_cont_not_start b1 (utf8_second_ok_cont b0 b1 hv.1.1.1)
          have hs := utf8_valid_short b0 [] (by simp [h4])
          simp [hc, hs]
        | b1 :: b2 :: b3 :: r, 1, hv, _, hn, hk =>
          rw [utf8_valid_four b0 b1 b2 b3 r h4, Bool.and_eq_true, Bool.and_eq_true,
            Bool.and_eq_true] at hv
          have hc := utf8_cont_not_start b2 hv.1.1.2
          have hs := utf8_valid_short b0 [b1] (by simp [h4])
          simp [hc, hs]
        | b1 :: b2 :: b3 :: r, 2, hv, _, hn, hk =>
          rw [utf8_valid_four b0 b1 b2 b3 r h4, Bool.and_eq_true, Bool.and_eq_true,
            Bool.and_eq_true] at hv
          have hc := utf8_cont_not_start b3 hv.1.2
          have hs := utf8_valid_short b0 [b1, b2] (by simp [h4])
          simp [hc, hs]
        | b1 :: b2 :: b3 :: r, k + 3, hv, _, hn, hk =>
          rw [utf8_valid_four b0 b1 b2 b3 r h4, Bool.and_eq_true, Bool.and_eq_true,
            Bool.and_eq_true] at hv
          simp only [List.length_cons] at hn hk
          have := ih r.length (by omega) r rfl hv.2 k (by omega)
          simpa [utf8_valid_four b0 b1 b2 b3 _ h4, hv.1.1.1, hv.1.1.2, hv.1.2] using this

theorem find_prev_char_spec (str : CString) :
    ∀ p q, g_utf8_find_prev_char str p = some q →
      is_char_start (str.getD q 0) = true ∧
        ∀ k, q < k → k < p → is_char_start (str.getD k 0) = false
  | 0, q, h => by simp [g_utf8_find_prev_char] at h
  | p + 1, q, h => by
    unfold g_utf8_find_prev_char at h
    by_cases hc : is_char_start (str.getD p 0) = true
    · rw [if_pos hc] at h
      cases h
      exact ⟨hc, fun k h1 h2 => by omega⟩
    · rw [if_neg hc] at h
      obtain ⟨h1, h2⟩ := find_prev_char_spec str p q h
      refine ⟨h1, fun k hk1 hk2 => ?_⟩
      rcases Nat.lt_or_ge k p with hlt | hge
      · exact h2 k hk1 hlt
      · have : k = p := by omega
        subst this
        simpa using hc

theorem shorten_search_spec (base : CString) (reduced_length : Nat) :
    ∀ fuel pos q, shorten_search base reduced_length fuel pos = some q →
      is_char_start (base.getD q 0) = true ∧
        ∀ k, k < pos → k ≤ reduced_length → is_char_start (base.getD k 0) = true → k ≤ q
  | 0, _, _, h => by simp [shorten_search] at h
  | fuel + 1, pos, q, h => by
    unfold shorten_search at h
    cases hfp : g_utf8_find_prev_char base pos with
    | none => rw [hfp] at h; cases h
    | some r =>
      rw [hfp] at h
      obtain ⟨hr1, hr2⟩ := find_prev_char_spec base pos r hfp
      by_cases hgt : r > reduced_length
      · simp only [hgt, if_true] at h
        obtain ⟨h1, h2⟩ := shorten_search_spec base reduced_length fuel r q h
        refine ⟨h1, fun k hk hle hs => ?_⟩
        rcases Nat.lt_or_ge k r with hlt | hge
        · exact h2 k hlt hle hs
        · have hne : r < k := by omega
          rw [hr2 k hne hk] at hs
          exact absurd hs Bool.false_ne_true
      · simp only [hgt, if_false] at h
        cases h
        refine ⟨hr1, fun k hk _ hs => ?_⟩
        by_contra hc
        rw [hr2 k (by omega) hk] at hs
        exact absurd hs Bool.false_ne_true

/-- Shape of a run of `nautilus_filename_shorten_base` that returns `TRUE`, for a base
that need not be the beginning of the name. -/
theorem shorten_base_true_run (f b : CString) (max_length : Int) (blk : List Nat)
    (hf : is_c_string f) (hb : is_c_string b) (hlen : strlen f < SIZE_MOD)
    (hblen : strlen b < SIZE_MOD)
    (h : nautilus_filename_shorten_base f b max_length = some (true, blk)) :
    0 < max_length ∧ max_length < strlen f ∧ (strlen f : Int) - max_length ≤ strlen b ∧
      ∃ q, shorten_search b (strlen b - (strlen f - max_length.toNat)) (strlen b + 1) (strlen b)
          = some q ∧ blk = b.take q ++ f.drop (strlen b) := by
  by_cases hc : max_length ≤ 0 ∨ (strlen f : Int) ≤ max_length ∨
      (strlen b : Int) < (strlen f : Int) - max_length
  · rw [shorten_base_early f b max_length hlen hc] at h
    simp at h
  · push_neg at hc
    obtain ⟨hmax, hgt, hex⟩ := hc
    refine ⟨hmax, hgt, hex, ?_⟩
    have hm : (max_length.toNat : Int) = max_length := Int.toNat_of_nonneg (le_of_lt hmax)
    generalize max_length.toNat = m at hm h ⊢
    subst hm
    simp only [strlen] at *
    have hgt' : m < f.length := by exact_mod_cast hgt
    have hex' : f.length - m ≤ b.length := by omega
    unfold nautilus_filename_shorten_base at h
    simp only [strlen] at h
    rw [if_neg (by push_neg; exact ⟨hmax, by simpa using hgt'⟩)] at h
    simp only [Int.toNat_ofNat] at h
    rw [size_sub_eq _ _ hlen (by omega), size_sub_eq _ _ hblen hex', if_neg (by omega)] at h
    cases hs : shorten_search b (b.length - (f.length - m)) (b.length + 1) b.length with
    | none => rw [hs] at h; simp at h
    | some q =>
      rw [hs] at h
      refine ⟨q, rfl, ?_⟩
      have hq := (shorten_search_bound b _ _ _ q hs).1
      have hbz : ∀ x ∈ b, x ≠ 0 := fun x hx => by
        have := (hb x hx).1; omega
      have hfz : ∀ x ∈ f.drop b.length, x ≠ 0 := fun x hx => by
        have := (hf x (List.mem_of_mem_drop hx)).1; omega
      simp only at h
      rcases Nat.lt_or_ge f.length b.length with hlt | hge
      · exfalso
        have hsuf : size_sub f.length b.length = (f.length + SIZE_MOD - b.length - 1) + 1 := by
          unfold size_sub
          rw [Nat.mod_eq_of_lt hlen, Nat.mod_eq_of_lt hblen, Nat.mod_eq_of_lt (by omega)]
          omega
        have hd : (c_block f).drop b.length = [] := by
          apply List.drop_eq_nil_of_le
          simp [c_block]; omega
        rw [hsuf, hd] at h
        simp [strncpy, strncpy_bytes] at h
      · have hsuf : size_sub f.length b.length = f.length - b.length :=
          size_sub_eq _ _ hlen hge
        have hadd : size_add (f.length - b.length) q = q + (f.length - b.length) := by
          unfold size_add; rw [Nat.add_comm]; exact Nat.mod_eq_of_lt (by omega)
        have h1 : strncpy (g_new0 (q + (f.length - b.length))) 0 (c_block b) q
            = some (b.take q ++ List.replicate (f.length - b.length) 0) := by
          unfold strncpy c_block g_new0
          rw [strncpy_bytes_take b [0] hbz q (by omega)]
          exact store_at_zero_block (f.length - b.length) q (b.take q) (by simp; omega)
        have h2 : strncpy (b.take q ++ List.replicate (f.length - b.length) 0) q
            ((c_block f).drop b.length) (f.length - b.length)
              = some (b.take q ++ f.drop b.length) := by
          unfold strncpy c_block
          have hd : (f ++ [0]).drop b.length = f.drop b.length ++ [0] := by
            rw [List.drop_append_of_le_length hge]
          have hdl : (f.drop b.length).length = f.length - b.length := by simp
          rw [hd, strncpy_bytes_take (f.drop b.length) [0] hfz (f.length - b.length)
            (by omega), ← hdl, List.take_length]
          have hl : (b.take q).length = q := by simp; omega
          have := store_at_tail (b.take q) (f.drop b.length) (f.drop b.length).length rfl
          rw [hl] at this
          exact this
        rw [hsuf, hadd, h1, Option.some_bind, h2] at h
        simp only [Option.map_some', Option.some.injEq, Prod.mk.injEq, true_and] at h
        exact h.symm

/-- C20: when `nautilus_filename_shorten_base` returns `TRUE` for a base `b` that is valid
UTF-8, the name it stores is a prefix `p` of `b` followed by the rest of the old name, the
cut after `p` is a character boundary of `b`, `p` has at most
`strlen (b) - (strlen (f) - max_length)` bytes, and no character boundary of `b` within this
number of bytes lies after the end of `p`. -/
theorem shorten_base_longest_boundary (f b : CString) (max_length : Int) (blk : List Nat)
    (hf : is_c_string f) (hb : is_c_string b) (hlen : strlen f < SIZE_MOD)
    (hblen : strlen b < SIZE_MOD) (hutf : utf8_valid b = true)
    (h : nautilus_filename_shorten_base f b max_length = some (true, blk)) :
    ∃ p : CString, p <+: b ∧ blk = p ++ f.drop (strlen b) ∧ on_char_boundary b (strlen p) ∧
      (strlen p : Int) ≤ (strlen b : Int) - ((strlen f : Int) - max_length) ∧
      ∀ k, on_char_boundary b k →
        (k : Int) ≤ (strlen b : Int) - ((strlen f : Int) - max_length) → k ≤ strlen p := by
  obtain ⟨hmax, hgt, hex, q, hs, hblk⟩ := shorten_base_true_run f b max_length blk hf hb hlen hblen h
  have hm : (max_length.toNat : Int) = max_length := Int.toNat_of_nonneg (le_of_lt hmax)
  generalize max_length.toNat = m at hm hs
  subst hm
  simp only [strlen] at *
  have hgt' : m < f.length := by exact_mod_cast hgt
  obtain ⟨hq1, hq2⟩ := shorten_search_bound b _ _ _ q hs
  obtain ⟨hstart, hbest⟩ := shorten_search_spec b _ _ _ q hs
  have hpl : (b.take q).length = q := by simp; omega
  have hbd := utf8_boundary b.length b rfl hutf q (by omega)
  refine ⟨b.take q, List.take_prefix q b, hblk, ?_, ?_, ?_⟩
  · rw [hpl]
    exact ⟨by omega, hbd.1.mpr hstart, hbd.2 hstart⟩
  · rw [hpl]
    omega
  · intro k hk hle
    rw [hpl]
    have hkb := utf8_boundary b.length b rfl hutf k hk.1
    exact hbest k (by omega) (by omega) (hkb.1.mp hk.2.1)

/-- C20, on an example: `grüße.txt` with the base `grüße` and a limit of 9 bytes becomes
`grü.txt`; the cut at 5 bytes would split `ß`, so the base is cut after 4 bytes. -/
theorem shorten_base_longest_boundary_witness :
    ∃ p : CString, p <+: fixture_utf8_base ∧
      [0x67, 0x72, 0xC3, 0xBC] ++ ascii ".txt" = p ++ fixture_utf8_name.drop (strlen fixture_utf8_base) ∧
      on_char_boundary fixture_utf8_base (strlen p) ∧
      (strlen p : Int) ≤ (strlen fixture_utf8_base : Int) - ((strlen fixture_utf8_name : Int) - 9) ∧
      ∀ k, on_char_boundary fixture_utf8_base k →
        (k : Int) ≤ (strlen fixture_utf8_base : Int) - ((strlen fixture_utf8_name : Int) - 9) →
          k ≤ strlen p :=
  shorten_base_longest_boundary fixture_utf8_name fixture_utf8_base 9
    ([0x67, 0x72, 0xC3, 0xBC] ++ ascii ".txt") (by decide) (by decide) (by decide) (by decide)
    (by decide) (by decide)

/-! ## `push` clears the redo tail -/

/-- C13. After any sequence of `push`, `undo` and `redo` calls, from any state, `push`
puts the record on top of the history, above what was there, and leaves an empty redo
tail; a `redo` made right after it fails, and changes neither the filesystem nor the
history, so no record undone before the `push` is applied again. -/
theorem push_clears_redo_tail (calls : List ManagerCall) (start : FileSystem × UndoManager)
    (record : UndoRecord) :
    ((run_calls calls start).2.push record).applied
        = record :: (run_calls calls start).2.applied ∧
      ((run_calls calls start).2.push record).undone = [] ∧
      ((run_calls calls start).2.push record).redo (run_calls calls start).1
        = ((run_calls calls start).1, (run_calls calls start).2.push record,
            Except.error ErrorKind.StaleUndoError) :=
  ⟨rfl, rfl, rfl⟩

/-- C13, on an example: the move of `test_move_one_file` is undone, which puts its record in
the redo tail and the file back in `first_dir`; after the push of another record, `redo`
fails and the file stays in `first_dir`. -/
theorem push_clears_redo_tail_witness :
    (run_calls [ManagerCall.undo] fixture_after_move).2.undone ≠ [] ∧
      file_exists (run_calls [ManagerCall.undo] fixture_after_move).1
        ["first_dir", "first_dir_child"] = true ∧
      ((run_calls [ManagerCall.undo] fixture_after_move).2.push fixture_create_record).redo
          (run_calls [ManagerCall.undo] fixture_after_move).1
        = ((run_calls [ManagerCall.undo] fixture_after_move).1,
            (run_calls [ManagerCall.undo] fixture_after_move).2.push fixture_create_record,
            Except.error ErrorKind.StaleUndoError) :=
  ⟨by decide, by decide,
    (push_clears_redo_tail [ManagerCall.undo] fixture_after_move fixture_create_record).2.2⟩

/-! ## A directory is not moved into itself -/

/-- C11. When a directory among the sources of a move is the destination itself or has
the destination below it, planning fails with `RecursiveMoveError`, and `move_sync` returns
with this error and with the filesystem and the history as they were: no step is
executed. -/
theorem move_into_itself_refused (w : World) (sources : List FileReference)
    (directory destination : FileReference) (policy : ConflictPolicy)
    (hmem : directory ∈ sources) (hdir : stat w.fs directory = some Entry.Directory)
    (hinside : directory <+: destination) :
    plan w.fs policy sources destination TransferMode.Move
        = Except.error PlanError.RecursiveMoveError ∧
      move_sync w sources destination policy
        = (w, Except.error PlanError.RecursiveMoveError) := by
  have hany : sources.any (moves_into_itself w.fs TransferMode.Move destination) = true :=
    List.any_eq_true.mpr ⟨directory, hmem, by
      unfold moves_into_itself
      exact decide_eq_true ⟨rfl, hdir, hinside⟩⟩
  have hplan : plan w.fs policy sources destination TransferMode.Move
      = Except.error PlanError.RecursiveMoveError := by
    unfold plan
    rw [if_pos hany]
  refine ⟨hplan, ?_⟩
  unfold move_sync
  rw [hplan]

/-- C11, on two examples: moving `first_dir` into its own child directory
`first_dir/first_dir_child` is refused and nothing changes; so is moving `first_dir`,
together with a source that does not exist, into the regular file inside it. -/
theorem move_into_itself_refused_witness :
    (plan fixture_first_hierarchy.fs no_policy [["first_dir"]] ["first_dir", "first_dir_child"]
          TransferMode.Move = Except.error PlanError.RecursiveMoveError ∧
        move_sync fixture_first_hierarchy [["first_dir"]] ["first_dir", "first_dir_child"]
          no_policy = (fixture_first_hierarchy, Except.error PlanError.RecursiveMoveError)) ∧
      (plan fixture_one_file.fs no_policy [["missing"], ["first_dir"]]
          ["first_dir", "first_dir_child"] TransferMode.Move
            = Except.error PlanError.RecursiveMoveError ∧
        move_sync fixture_one_file [["missing"], ["first_dir"]] ["first_dir", "first_dir_child"]
          no_policy = (fixture_one_file, Except.error PlanError.RecursiveMoveError)) :=
  ⟨move_into_itself_refused fixture_first_hierarchy [["first_dir"]] ["first_dir"]
      ["first_dir", "first_dir_child"] no_policy (by decide) (by decide) (by decide),
    move_into_itself_refused fixture_one_file [["missing"], ["first_dir"]] ["first_dir"]
      ["first_dir", "first_dir_child"] no_policy (by decide) (by decide) (by decide)⟩

/-! ## The order of the steps of a plan -/

theorem probe_name_free (fs : FileSystem) (dir : FileReference) (name : String) :
    ∀ (probes n : Nat) (c : String), probe_name fs dir name probes n = some c →
      stat fs (dir ++ [c]) = none
  | 0, _, _, h => by simp [probe_name] at h
  | probes + 1, n, c, h => by
    unfold probe_name at h
    by_cases hfree : stat fs (dir ++ [name ++ " (" ++ toString n ++ ")"]) = none
    · simp only [hfree, if_true] at h
      cases h
      exact hfree
    · simp only [hfree, if_false] at h
      exact probe_name_free fs dir name probes (n + 1) c h

theorem propose_rename_ok (fs : FileSystem) (destination : FileReference)
    (d : ConflictDecision) (h : propose_rename fs destination = Except.ok d) :
    ∃ new_name, d = ConflictDecision.Rename new_name ∧
      stat fs (parent_of destination ++ [new_name]) = none := by
  unfold propose_rename at h
  cases hp : probe_name fs (parent_of destination) (entry_name destination) MAX_RENAME_PROBES 1 with
  | none => rw [hp] at h; cases h
  | some c =>
    rw [hp] at h
    cases h
    exact ⟨c, rfl, probe_name_free fs _ _ _ _ c hp⟩

/-- What the Conflict Resolver can answer: a Merge only for a directory that meets a
directory, a Rename only with a name that is free, and nothing else when a directory meets a
directory. -/
theorem resolve_ok (fs : FileSystem) (policy : ConflictPolicy) (destination : FileReference)
    (source_kind existing : Entry) (d : ConflictDecision)
    (h : resolve fs policy destination source_kind existing = Except.ok d) :
    (d = ConflictDecision.Merge ∧ source_kind = Entry.Directory ∧ existing = Entry.Directory) ∨
      (∃ new_name, d = ConflictDecision.Rename new_name ∧
        stat fs (parent_of destination ++ [new_name]) = none) ∨
      ((d = ConflictDecision.Skip ∨ d = ConflictDecision.Overwrite ∨
          d = ConflictDecision.OverwriteAll ∨ d = ConflictDecision.Cancel) ∧
        ¬ (source_kind = Entry.Directory ∧ existing = Entry.Directory)) := by
  unfold resolve at h
  by_cases hk : source_kind = Entry.Directory ∧ existing = Entry.Directory
  · rw [if_pos hk] at h
    by_cases hs : policy.strict = true
    · rw [if_pos hs] at h
      exact Or.inr (Or.inl (propose_rename_ok fs destination d h))
    · rw [if_neg hs] at h
      cases h
      exact Or.inl ⟨rfl, hk⟩
  · rw [if_neg hk] at h
    cases hb : policy.batch with
    | none => rw [hb] at h; cases h
    | some decision =>
      rw [hb] at h
      cases decision with
      | Skip => cases h; exact Or.inr (Or.inr ⟨Or.inl rfl, hk⟩)
      | Overwrite => cases h; exact Or.inr (Or.inr ⟨Or.inr (Or.inl rfl), hk⟩)
      | OverwriteAll => cases h; exact Or.inr (Or.inr ⟨Or.inr (Or.inr (Or.inl rfl)), hk⟩)
      | Rename n => exact Or.inr (Or.inl (propose_rename_ok fs destination d h))
      | Merge => cases h
      | Cancel => cases h; exact Or.inr (Or.inr ⟨Or.inr (Or.inr (Or.inr rfl)), hk⟩)

/-- The shapes of the plan of one entry: nothing, the single step of a file, or, for a
directory, the steps of its children, after the MakeDirectory step of a target that is not
a directory yet or merged into a directory that exists, and before the cleanup. -/
theorem plan_entry_shape (fs : FileSystem) (policy : ConflictPolicy) (mode : TransferMode)
    (fuel : Nat) (source dst : FileReference) (p : TransferPlan)
    (h : plan_entry fs policy mode (fuel + 1) source dst = Except.ok p) :
    p = [] ∨
      (∃ size t, stat fs source = some (Entry.File size) ∧ p = [file_step mode source t size] ∧
        (t = dst ∨ ∃ new_name, t = parent_of dst ++ [new_name])) ∨
      (∃ t steps, stat fs source = some Entry.Directory ∧
        plan_each (fun c => plan_entry fs policy mode fuel c (t ++ [entry_name c]))
          (list_children fs source) = Except.ok steps ∧
        ((p = make_directory_step source t :: steps ++ cleanup_steps mode source t ∧
            stat fs t ≠ some Entry.Directory ∧
            (t = dst ∨ ∃ new_name, t = parent_of dst ++ [new_name])) ∨
          (p = steps ++ cleanup_steps mode source t ∧ t = dst ∧
            stat fs t = some Entry.Directory))) := by
  have hinto : ∀ t, stat fs source = some Entry.Directory → stat fs t ≠ some Entry.Directory →
      (t = dst ∨ ∃ new_name, t = parent_of dst ++ [new_name]) →
      (match plan_each (fun c => plan_entry fs policy mode fuel c (t ++ [entry_name c]))
          (list_children fs source) with
        | Except.error e => Except.error e
        | Except.ok steps =>
          Except.ok (make_directory_step source t :: steps ++ cleanup_steps mode source t))
        = Except.ok p →
      ∃ t steps, stat fs source = some Entry.Directory ∧
        plan_each (fun c => plan_entry fs policy mode fuel c (t ++ [entry_name c]))
          (list_children fs source) = Except.ok steps ∧
        ((p = make_directory_step source t :: steps ++ cleanup_steps mode source t ∧
            stat fs t ≠ some Entry.Directory ∧
            (t = dst ∨ ∃ new_name, t = parent_of dst ++ [new_name])) ∨
          (p = steps ++ cleanup_steps mode source t ∧ t = dst ∧
            stat fs t = some Entry.Directory)) := by
    intro t hs ht hor hm
    cases hc : plan_each (fun c => plan_entry fs policy mode fuel c (t ++ [entry_name c]))
        (list_children fs source) with
    | error e => rw [hc] at hm; cases hm
    | ok steps =>
      rw [hc] at hm
      cases hm
      exact ⟨t, steps, hs, hc, Or.inl ⟨rfl, ht, hor⟩⟩
  unfold plan_entry at h
  cases hs : stat fs source with
  | none =>
    simp only [hs] at h
    cases h
    exact Or.inl rfl
  | some e =>
    cases e with
    | File size =>
      simp only [hs] at h
      cases hd : stat fs dst with
      | none =>
        simp only [hd] at h
        cases h
        exact Or.inr (Or.inl ⟨size, dst, rfl, rfl, Or.inl rfl⟩)
      | some existing =>
        simp only [hd] at h
        cases hr : resolve fs policy dst (Entry.File size) existing with
        | error e => rw [hr] at h; cases h
        | ok d =>
          rw [hr] at h
          cases d with
          | Skip => cases h; exact Or.inl rfl
          | Overwrite =>
            cases h; exact Or.inr (Or.inl ⟨size, dst, rfl, rfl, Or.inl rfl⟩)
          | OverwriteAll =>
            cases h; exact Or.inr (Or.inl ⟨size, dst, rfl, rfl, Or.inl rfl⟩)
          | Rename n =>
            cases h
            exact Or.inr (Or.inl ⟨size, parent_of dst ++ [n], rfl, rfl, Or.inr ⟨n, rfl⟩⟩)
          | Merge => cases h
          | Cancel => cases h
    | Directory =>
      simp only [hs] at h
      cases hd : stat fs dst with
      | none =>
        simp only [hd] at h
        have r := hinto dst hs (by rw [hd]; simp) (Or.inl rfl) h
        rw [hs] at r
        exact Or.inr (Or.inr r)
      | some existing =>
        simp only [hd] at h
        cases hr : resolve fs policy dst Entry.Directory existing with
        | error e => rw [hr] at h; cases h
        | ok d =>
          rw [hr] at h
          have hres := resolve_ok fs policy dst Entry.Directory existing d hr
          cases d with
          | Skip => cases h; exact Or.inl rfl
          | Overwrite =>
            have hne : stat fs dst ≠ some Entry.Directory := by
              rcases hres with ⟨hc, _⟩ | ⟨n, hc, _⟩ | ⟨_, hk⟩
              · cases hc
              · cases hc
              · rw [hd]
                intro hc
                cases hc
                exact hk ⟨rfl, rfl⟩
            have r := hinto dst hs hne (Or.inl rfl) h
            rw [hs] at r
            exact Or.inr (Or.inr r)
          | OverwriteAll =>
            have hne : stat fs dst ≠ some Entry.Directory := by
              rcases hres with ⟨hc, _⟩ | ⟨n, hc, _⟩ | ⟨_, hk⟩
              · cases hc
              · cases hc
              · rw [hd]
                intro hc
                cases hc
                exact hk ⟨rfl, rfl⟩
            have r := hinto dst hs hne (Or.inl rfl) h
            rw [hs] at r
            exact Or.inr (Or.inr r)
          | Rename n =>
            have hne : stat fs (parent_of dst ++ [n]) ≠ some Entry.Directory := by
              rcases hres with ⟨hc, _⟩ | ⟨n', hc, hfree⟩ | ⟨hc, _⟩
              · cases hc
              · cases hc
                rw [hfree]
                simp
              · rcases hc with hc | hc | hc | hc <;> cases hc
            have r := hinto _ hs hne (Or.inr ⟨n, rfl⟩) h
            rw [hs] at r
            exact Or.inr (Or.inr r)
          | Merge =>
            have hex : existing = Entry.Directory := by
              rcases hres with ⟨_, _, hc⟩ | ⟨n, hc, _⟩ | ⟨hc, _⟩
              · exact hc
              · cases hc
              · rcases hc with hc | hc | hc | hc <;> cases hc
            cases hc : plan_each (fun c => plan_entry fs policy mode fuel c (dst ++ [entry_name c]))
                (list_children fs source) with
            | error e => simp only [hc] at h; cases h
            | ok steps =>
              simp only [hc] at h
              cases h
              exact Or.inr (Or.inr ⟨dst, steps, rfl, hc, Or.inr ⟨rfl, rfl, by rw [hd, hex]⟩⟩)
          | Cancel => cases h

theorem getElem?_append_cases {α : Type} (l1 l2 : List α) (j : Nat) (x : α)
    (h : (l1 ++ l2)[j]? = some x) :
    l1[j]? = some x ∨ (l1.length ≤ j ∧ l2[j - l1.length]? = some x) := by
  rcases Nat.lt_or_ge j l1.length with hlt | hge
  · rw [List.getElem?_append_left hlt] at h
    exact Or.inl h
  · rw [List.getElem?_append_right hge] at h
    exact Or.inr ⟨hge, h⟩

theorem mem_take_append_left {α : Type} (l1 l2 : List α) (j : Nat) (x : α)
    (h : x ∈ l1.take j) : x ∈ (l1 ++ l2).take j := by
  rw [List.take_append_eq_append_take]
  exact List.mem_append_left _ h

theorem mem_take_append_right {α : Type} (l1 l2 : List α) (j : Nat) (x : α)
    (h : x ∈ l2.take (j - l1.length)) : x ∈ (l1 ++ l2).take j := by
  rw [List.take_append_eq_append_take]
  exact List.mem_append_right _ h

theorem mem_take_append_all {α : Type} (l1 l2 : List α) (j : Nat) (x : α)
    (hj : l1.length ≤ j) (h : x ∈ l1) : x ∈ (l1 ++ l2).take j := by
  rw [List.take_append_eq_append_take, List.take_of_length_le hj]
  exact List.mem_append_left _ h

theorem not_lies_inside_child (base : FileReference) (n : String) (d : FileReference)
    (hd : ∃ m rest, d = base ++ m :: rest) : ¬ lies_inside (base ++ [n]) d := by
  obtain ⟨m, rest, rfl⟩ := hd
  rintro ⟨hp, hne⟩
  rw [List.prefix_append_right_inj] at hp
  have hl := hp.length_le
  simp only [List.length_cons, List.length_nil] at hl
  have hr : rest = [] := List.eq_nil_of_length_eq_zero (by omega)
  subst hr
  rw [List.cons_prefix_cons] at hp
  exact hne (by rw [hp.1])

theorem lies_inside_grandchild (base : FileReference) (n : String) (q d : FileReference)
    (hq : ∃ m rest, q = (base ++ [n]) ++ m :: rest) (hd : ∃ m rest, d = base ++ m :: rest)
    (h : lies_inside q d) :
    d = base ++ [n] ∨ ((∃ m rest, d = (base ++ [n]) ++ m :: rest) ∧ lies_inside q d) := by
  obtain ⟨m, rest, rfl⟩ := hd
  obtain ⟨m', rest', rfl⟩ := hq
  have hp := h.1
  rw [List.append_assoc, List.prefix_append_right_inj] at hp
  simp only [List.singleton_append, List.cons_prefix_cons] at hp
  obtain ⟨rfl, hp⟩ := hp
  cases rest with
  | nil => exact Or.inl rfl
  | cons x r => exact Or.inr ⟨⟨x, r, by simp⟩, h⟩

theorem PlanOk.nil (fs : FileSystem) (base : FileReference) : PlanOk fs base [] :=
  { below := fun _ h => absurd h (List.not_mem_nil _),
    fresh := fun _ h => absurd h (List.not_mem_nil _),
    files := fun _ h => absurd h (List.not_mem_nil _),
    dirs := fun _ h => absurd h (List.not_mem_nil _),
    ordered := fun j step d h => by simp at h,
    cleaned := fun j del h => by simp at h }

theorem PlanOk.concat {fs : FileSystem} {base : FileReference} {p1 p2 : TransferPlan}
    (h1 : PlanOk fs base p1) (h2 : PlanOk fs base p2) : PlanOk fs base (p1 ++ p2) :=
  { below := fun step h => (List.mem_append.mp h).elim (h1.below step) (h2.below step),
    fresh := fun step h => (List.mem_append.mp h).elim (h1.fresh step) (h2.fresh step),
    files := fun step h => (List.mem_append.mp h).elim (h1.files step) (h2.files step),
    dirs := fun step h => (List.mem_append.mp h).elim (h1.dirs step) (h2.dirs step),
    ordered := fun j step d hj hd hin => by
      rcases getElem?_append_cases p1 p2 j step hj with hj | ⟨hle, hj⟩
      · rcases h1.ordered j step d hj hd hin with ⟨mk, hmk, hm⟩ | hdir
        · exact Or.inl ⟨mk, mem_take_append_left p1 p2 j mk hmk, hm⟩
        · exact Or.inr hdir
      · rcases h2.ordered _ step d hj hd hin with ⟨mk, hmk, hm⟩ | hdir
        · exact Or.inl ⟨mk, mem_take_append_right p1 p2 j mk hmk, hm⟩
        · exact Or.inr hdir,
    cleaned := fun j del hj hk => by
      rcases getElem?_append_cases p1 p2 j del hj with hj | ⟨hle, hj⟩
      · rcases h1.cleaned j del hj hk with ⟨mk, hmk, hm⟩ | hdir
        · exact Or.inl ⟨mk, mem_take_append_left p1 p2 j mk hmk, hm⟩
        · exact Or.inr hdir
      · rcases h2.cleaned _ del hj hk with ⟨mk, hmk, hm⟩ | hdir
        · exact Or.inl ⟨mk, mem_take_append_right p1 p2 j mk hmk, hm⟩
        · exact Or.inr hdir }

theorem PlanOk.file (fs : FileSystem) (base : FileReference) (mode : TransferMode)
    (source : FileReference) (n : String) (size : Nat)
    (hs : stat fs source = some (Entry.File size)) :
    PlanOk fs base [file_step mode source (base ++ [n]) size] := by
  refine ⟨?_, ?_, ?_, ?_, ?_, ?_⟩
  · intro step h
    rw [List.mem_singleton] at h
    subst h
    exact ⟨n, [], rfl⟩
  · intro step h hk
    rw [List.mem_singleton] at h
    subst h
    cases mode <;> cases hk
  · intro step h _
    rw [List.mem_singleton] at h
    subst h
    exact ⟨source, size, rfl, hs⟩
  · intro step h hk
    rw [List.mem_singleton] at h
    subst h
    cases mode <;> cases hk
  · intro j step d hj hd hin
    cases j with
    | zero =>
      simp only [List.getElem?_cons_zero, Option.some.injEq] at hj
      subst hj
      exact absurd hin (not_lies_inside_child base n d hd)
    | succ j => simp at hj
  · intro j del hj hk
    cases j with
    | zero =>
      simp only [List.getElem?_cons_zero, Option.some.injEq] at hj
      subst hj
      cases mode <;> cases hk
    | succ j => simp at hj

theorem PlanOk.lift_merged {fs : FileSystem} {base : FileReference} {n : String}
    {steps : TransferPlan} (h : PlanOk fs (base ++ [n]) steps)
    (hdir : stat fs (base ++ [n]) = some Entry.Directory) : PlanOk fs base steps := by
  refine ⟨?_, h.fresh, h.files, h.dirs, ?_, h.cleaned⟩
  · intro step hstep
    obtain ⟨m, rest, hm⟩ := h.below step hstep
    exact ⟨n, m :: rest, by rw [hm]; simp⟩
  · intro j step d hj hd hin
    have hstep : step ∈ steps := List.getElem?_mem hj
    obtain ⟨m, rest, hm⟩ := h.below step hstep
    rcases lies_inside_grandchild base n step.destination d ⟨m, rest, hm⟩ hd hin with
      rfl | ⟨hd', hin'⟩
    · exact Or.inr hdir
    · exact h.ordered j step d hj hd' hin'

theorem mem_cleanup_steps {mode : TransferMode} {source destination : FileReference}
    {step : TransferStep} (h : step ∈ cleanup_steps mode source destination) :
    step.kind = StepKind.DeleteEntry ∧ step.source = some source ∧
      step.destination = destination := by
  cases mode with
  | Copy => simp [cleanup_steps] at h
  | Move =>
    simp only [cleanup_steps, List.mem_singleton] at h
    subst h
    exact ⟨rfl, rfl, rfl⟩

theorem PlanOk.cleanup_merged (fs : FileSystem) (base : FileReference) (n : String)
    (mode : TransferMode) (source : FileReference)
    (hs : stat fs source = some Entry.Directory)
    (hdir : stat fs (base ++ [n]) = some Entry.Directory) :
    PlanOk fs base (cleanup_steps mode source (base ++ [n])) := by
  refine ⟨?_, ?_, ?_, ?_, ?_, ?_⟩
  · intro step h
    exact ⟨n, [], (mem_cleanup_steps h).2.2⟩
  · intro step h hk
    rw [(mem_cleanup_steps h).1] at hk
    cases hk
  · intro step h hk
    rw [(mem_cleanup_steps h).1] at hk
    rcases hk with hk | hk <;> cases hk
  · intro step h _
    exact ⟨source, (mem_cleanup_steps h).2.1, hs⟩
  · intro j step d hj hd hin
    rw [(mem_cleanup_steps (List.getElem?_mem hj)).2.2] at hin
    exact absurd hin (not_lies_inside_child base n d hd)
  · intro j del hj _
    rw [(mem_cleanup_steps (List.getElem?_mem hj)).2.2]
    exact Or.inr hdir

theorem PlanOk.made {fs : FileSystem} {base : FileReference} {n : String}
    {steps : TransferPlan} (mode : TransferMode) (source : FileReference)
    (h : PlanOk fs (base ++ [n]) steps) (hs : stat fs source = some Entry.Directory)
    (hfresh : stat fs (base ++ [n]) ≠ some Entry.Directory) :
    PlanOk fs base (make_directory_step source (base ++ [n]) ::
      steps ++ cleanup_steps mode source (base ++ [n])) := by
  have hmem : ∀ step, step ∈ make_directory_step source (base ++ [n]) ::
      steps ++ cleanup_steps mode source (base ++ [n]) →
      step = make_directory_step source (base ++ [n]) ∨ step ∈ steps ∨
        step ∈ cleanup_steps mode source (base ++ [n]) := by
    intro step hstep
    rw [List.cons_append, List.mem_cons, List.mem_append] at hstep
    exact hstep
  refine ⟨?_, ?_, ?_, ?_, ?_, ?_⟩
  · intro step hstep
    rcases hmem step hstep with rfl | hstep | hstep
    · exact ⟨n, [], rfl⟩
    · obtain ⟨m, rest, hm⟩ := h.below step hstep
      exact ⟨n, m :: rest, by rw [hm]; simp⟩
    · exact ⟨n, [], (mem_cleanup_steps hstep).2.2⟩
  · intro step hstep hk
    rcases hmem step hstep with rfl | hstep | hstep
    · exact hfresh
    · exact h.fresh step hstep hk
    · rw [(mem_cleanup_steps hstep).1] at hk
      cases hk
  · intro step hstep hk
    rcases hmem step hstep with rfl | hstep | hstep
    · rcases hk with hk | hk <;> cases hk
    · exact h.files step hstep hk
    · rw [(mem_cleanup_steps hstep).1] at hk
      rcases hk with hk | hk <;> cases hk
  · intro step hstep hk
    rcases hmem step hstep with rfl | hstep | hstep
    · cases hk
    · exact h.dirs step hstep hk
    · exact ⟨source, (mem_cleanup_steps hstep).2.1, hs⟩
  · intro j step d hj hd hin
    cases j with
    | zero =>
      simp only [List.cons_append, List.getElem?_cons_zero, Option.some.injEq] at hj
      subst hj
      exact absurd hin (not_lies_inside_child base n d hd)
    | succ j =>
      rw [List.cons_append, List.getElem?_cons_succ] at hj
      rw [List.cons_append, List.take_succ_cons]
      rcases getElem?_append_cases _ _ j step hj with hj | ⟨hle, hj⟩
      · have hstep : step ∈ steps := List.getElem?_mem hj
        obtain ⟨m, rest, hm⟩ := h.below step hstep
        rcases lies_inside_grandchild base n step.destination d ⟨m, rest, hm⟩ hd hin with
          rfl | ⟨hd', hin'⟩
        · exact Or.inl ⟨_, List.mem_cons_self _ _, rfl, rfl⟩
        · rcases h.ordered j step d hj hd' hin' with ⟨mk, hmk, hm⟩ | hdir
          · exact Or.inl ⟨mk, List.mem_cons_of_mem _ (mem_take_append_left _ _ j mk hmk), hm⟩
          · exact Or.inr hdir
      · rw [(mem_cleanup_steps (List.getElem?_mem hj)).2.2] at hin
        exact absurd hin (not_lies_inside_child base n d hd)
  · intro j del hj hk
    cases j with
    | zero =>
      simp only [List.cons_append, List.getElem?_cons_zero, Option.some.injEq] at hj
      subst hj
      cases hk
    | succ j =>
      rw [List.cons_append, List.getElem?_cons_succ] at hj
      rw [List.cons_append, List.take_succ_cons]
      rcases getElem?_append_cases _ _ j del hj with hj | ⟨hle, hj⟩
      · rcases h.cleaned j del hj hk with ⟨mk, hmk, hm⟩ | hdir
        · exact Or.inl ⟨mk, List.mem_cons_of_mem _ (mem_take_append_left _ _ j mk hmk), hm⟩
        · exact Or.inr hdir
      · obtain ⟨_, h2, h3⟩ := mem_cleanup_steps (List.getElem?_mem hj)
        exact Or.inl ⟨_, List.mem_cons_self _ _, rfl, by rw [h2]; rfl, by rw [h3]; rfl⟩

theorem plan_each_plan_ok (fs : FileSystem) (base : FileReference)
    (f : FileReference → Except PlanError TransferPlan) :
    ∀ (cs : List FileReference) (q : TransferPlan),
      (∀ c ∈ cs, ∀ p, f c = Except.ok p → PlanOk fs base p) →
      plan_each f cs = Except.ok q → PlanOk fs base q
  | [], q, _, h => by
    simp only [plan_each] at h
    cases h
    exact PlanOk.nil fs base
  | c :: cs, q, hall, h => by
    unfold plan_each at h
    cases hc : f c with
    | error e => rw [hc] at h; cases h
    | ok steps =>
      rw [hc] at h
      cases hm : plan_each f cs with
      | error e => simp only [hm] at h; cases h
      | ok more =>
        simp only [hm] at h
        cases h
        exact (hall c (List.mem_cons_self _ _) steps hc).concat
          (plan_each_plan_ok fs base f cs more
            (fun c' hc' => hall c' (List.mem_cons_of_mem _ hc')) hm)

/-- Every plan of one entry into the directory `base` is well ordered, whatever the bound
on the depth. -/
theorem plan_entry_plan_ok (fs : FileSystem) (policy : ConflictPolicy) (mode : TransferMode) :
    ∀ (fuel : Nat) (source base : FileReference) (n : String) (p : TransferPlan),
      plan_entry fs policy mode fuel source (base ++ [n]) = Except.ok p → PlanOk fs base p
  | 0, _, base, _, p, h => by
    simp only [plan_entry] at h
    cases h
    exact PlanOk.nil fs base
  | fuel + 1, source, base, n, p, h => by
    have htarget : ∀ t, (t = base ++ [n] ∨ ∃ new_name, t = parent_of (base ++ [n]) ++ [new_name]) →
        ∃ n', t = base ++ [n'] := by
      rintro t (rfl | ⟨new_name, rfl⟩)
      · exact ⟨n, rfl⟩
      · exact ⟨new_name, by rw [parent_of_child]⟩
    rcases plan_entry_shape fs policy mode fuel source (base ++ [n]) p h with
      rfl | ⟨size, t, hs, rfl, ht⟩ | ⟨t, steps, hs, hsteps, hcase⟩
    · exact PlanOk.nil fs base
    · obtain ⟨n', rfl⟩ := htarget t ht
      exact PlanOk.file fs base mode source n' size hs
    · have hchildren : PlanOk fs t steps :=
        plan_each_plan_ok fs t _ (list_children fs source) steps
          (fun c _ q hq => plan_entry_plan_ok fs policy mode fuel c t (entry_name c) q hq) hsteps
      rcases hcase with ⟨rfl, hfresh, ht⟩ | ⟨rfl, rfl, hdir⟩
      · obtain ⟨n', rfl⟩ := htarget t ht
        exact PlanOk.made mode source hchildren hs hfresh
      · exact (hchildren.lift_merged hdir).concat
          (PlanOk.cleanup_merged fs base n mode source hs hdir)

theorem plan_plan_ok (fs : FileSystem) (policy : ConflictPolicy) (sources : List FileReference)
    (destination : FileReference) (mode : TransferMode) (p : TransferPlan)
    (h : plan fs policy sources destination mode = Except.ok p) : PlanOk fs destination p := by
  unfold plan at h
  by_cases hr : sources.any (moves_into_itself fs mode destination) = true
  · rw [if_pos hr] at h
    cases h
  · rw [if_neg hr] at h
    by_cases hd : stat fs destination ≠ some Entry.Directory
    · rw [if_pos hd] at h
      cases h
    · rw [if_neg hd] at h
      cases hc : check_sources fs sources with
      | error e => rw [hc] at h; cases h
      | ok u =>
        rw [hc] at h
        exact plan_each_plan_ok fs destination _ sources p
          (fun s _ q hq =>
            plan_entry_plan_ok fs policy mode _ s destination (entry_name s) q hq) h

theorem mem_take_index {α : Type} (l : List α) (j : Nat) (a : α) (h : a ∈ l.take j) :
    ∃ i, i < j ∧ l[i]? = some a := by
  obtain ⟨i, hi⟩ := List.mem_iff_getElem?.mp h
  rw [List.getElem?_take] at hi
  by_cases hlt : i < j
  · rw [if_pos hlt] at hi
    exact ⟨i, hlt, hi⟩
  · rw [if_neg hlt] at hi
    cases hi

theorem path_segments_trailing_slash : ∀ (cs segment : List Char),
    path_segments (cs ++ ['/']) segment = path_segments cs segment
  | [], segment => by
    by_cases h : segment = [] <;> simp [path_segments, h]
  | c :: cs, segment => by
    have h1 := path_segments_trailing_slash cs []
    have h2 := path_segments_trailing_slash cs (segment ++ [c])
    simp only [List.cons_append, path_segments, List.append_eq, h1, h2]

theorem takeWhile_append_of_mem {α : Type} (p : α → Bool) (x : α) (hx : p x = false) :
    ∀ (l l2 : List α), x ∈ l → (l ++ l2).takeWhile p = l.takeWhile p ∧
      ((l ++ l2).dropWhile p).drop 1 = (l.dropWhile p).drop 1 ++ l2
  | [], _, h => by simp at h
  | c :: cs, l2, h => by
    cases hc : p c with
    | false => simp [List.takeWhile_cons, List.dropWhile_cons, hc]
    | true =>
      have hmem : x ∈ cs := by
        rcases List.mem_cons.mp h with h | h
        · rw [h, hc] at hx
          cases hx
        · exact h
      have ih := takeWhile_append_of_mem p x hx cs l2 hmem
      simp only [List.cons_append, List.takeWhile_cons, List.dropWhile_cons, hc, if_true]
      exact ⟨by rw [ih.1], ih.2⟩

theorem canonical_location_trailing_slash (uri : String) (hcolon : ':' ∈ uri.data) :
    canonical_location (uri ++ "/") = canonical_location uri := by
  have hdata : (uri ++ "/").data = uri.data ++ ['/'] := by
    rw [String.data_append]
  have h := takeWhile_append_of_mem (fun c : Char => decide (c ≠ ':')) ':' (by simp) uri.data
    ['/'] hcolon
  unfold canonical_location
  rw [hdata, h.1, h.2, path_segments_trailing_slash]

theorem map_keep_fields (files : List CachedFile) (g : CachedFile → CachedFile)
    (hid : ∀ f, (g f).id = f.id) (hloc : ∀ f, (g f).location = f.location) :
    (files.map g).map (fun f => f.location) = files.map (fun f => f.location) ∧
      (files.map g).map (fun f => f.id) = files.map (fun f => f.id) := by
  constructor
  · rw [List.map_map]
    exact List.map_congr_left (fun f _ => hloc f)
  · rw [List.map_map]
    exact List.map_congr_left (fun f _ => hid f)

theorem add_ref_keeps (id : Nat) (f : CachedFile) :
    ((fun g : CachedFile => if g.id = id then { g with ref_count := g.ref_count + 1 } else g)
        f).id = f.id ∧
      ((fun g : CachedFile => if g.id = id then { g with ref_count := g.ref_count + 1 } else g)
        f).location = f.location := by
  by_cases h : f.id = id <;> simp [h]

theorem drop_ref_keeps (id : Nat) (f : CachedFile) :
    ((fun g : CachedFile => if g.id = id then { g with ref_count := g.ref_count - 1 } else g)
        f).id = f.id ∧
      ((fun g : CachedFile => if g.id = id then { g with ref_count := g.ref_count - 1 } else g)
        f).location = f.location := by
  by_cases h : f.id = id <;> simp [h]

theorem mem_map_keeps {files : List CachedFile} {g : CachedFile → CachedFile}
    (hkeep : ∀ f, (g f).id = f.id ∧ (g f).location = f.location) {f : CachedFile}
    (h : f ∈ files.map g) : ∃ f0 ∈ files, f0.id = f.id ∧ f0.location = f.location := by
  obtain ⟨f0, h0, rfl⟩ := List.mem_map.mp h
  exact ⟨f0, h0, (hkeep f0).1.symm, (hkeep f0).2.symm⟩

theorem unref_step (c : FileCache) (id : Nat) : CacheStep c (nautilus_file_unref c id) := by
  refine ⟨?_, le_refl _, ?_⟩
  · rintro ⟨h1, h2, h3⟩
    have hk := map_keep_fields c.files _ (fun f => (drop_ref_keeps id f).1)
      (fun f => (drop_ref_keeps id f).2)
    refine ⟨?_, ?_, ?_⟩
    · exact List.Nodup.sublist (List.Sublist.map _ (List.filter_sublist _)) (by rw [hk.1]; exact h1)
    · exact List.Nodup.sublist (List.Sublist.map _ (List.filter_sublist _)) (by rw [hk.2]; exact h2)
    · intro f hf
      obtain ⟨f0, h0, hid, _⟩ := mem_map_keeps (drop_ref_keeps id) (List.mem_of_mem_filter hf)
      rw [← hid]
      exact h3 f0 h0
  · intro f hf
    exact Or.inl (mem_map_keeps (drop_ref_keeps id) (List.mem_of_mem_filter hf))

theorem get_step (c : FileCache) (uri : String) :
    CacheStep c (nautilus_file_get_by_uri c uri).1 := by
  unfold nautilus_file_get_by_uri
  cases hfind : c.files.find? (fun f => f.location = canonical_location uri) with
  | some f0 =>
    refine ⟨?_, le_refl _, ?_⟩
    · rintro ⟨h1, h2, h3⟩
      have hk := map_keep_fields c.files _ (fun f => (add_ref_keeps f0.id f).1)
        (fun f => (add_ref_keeps f0.id f).2)
      refine ⟨by simp only [FileCache.add_ref]; rw [hk.1]; exact h1,
        by simp only [FileCache.add_ref]; rw [hk.2]; exact h2, ?_⟩
      intro f hf
      obtain ⟨g, hg, hid, _⟩ := mem_map_keeps (add_ref_keeps f0.id) hf
      rw [← hid]
      exact h3 g hg
    · intro f hf
      exact Or.inl (mem_map_keeps (add_ref_keeps f0.id) hf)
  | none =>
    have hnone : ∀ f ∈ c.files, f.location ≠ canonical_location uri := by
      intro f hf
      have := List.find?_eq_none.mp hfind f hf
      simpa using this
    refine ⟨?_, Nat.le_succ _, ?_⟩
    · rintro ⟨h1, h2, h3⟩
      refine ⟨?_, ?_, ?_⟩
      · simp only [List.map_append, List.map_cons, List.map_nil]
        refine List.Nodup.append h1 (List.nodup_singleton _) ?_
        rw [List.disjoint_singleton]
        intro hmem
        obtain ⟨f, hf, hloc⟩ := List.mem_map.mp hmem
        exact hnone f hf hloc
      · simp only [List.map_append, List.map_cons, List.map_nil]
        refine List.Nodup.append h2 (List.nodup_singleton _) ?_
        rw [List.disjoint_singleton]
        intro hmem
        obtain ⟨f, hf, hid⟩ := List.mem_map.mp hmem
        have := h3 f hf
        omega
      · intro f hf
        rcases List.mem_append.mp hf with hf | hf
        · exact Nat.lt_succ_of_lt (h3 f hf)
        · rw [List.mem_singleton] at hf
          subst hf
          exact Nat.lt_succ_self _
    · intro f hf
      rcases List.mem_append.mp hf with hf | hf
      · exact Or.inl ⟨f, hf, rfl, rfl⟩
      · rw [List.mem_singleton] at hf
        subst hf
        exact Or.inr (le_refl _)

theorem run_cache_calls_keeps (o : Nat)
    (loc : CanonicalLocation) :
    ∀ (calls : List CacheCall) (c : FileCache), cache_wf c → o < c.next_id →
      (∀ f ∈ c.files, f.id = o → f.location = loc) →
      cache_wf (run_cache_calls calls c) ∧
        ∀ f ∈ (run_cache_calls calls c).files, f.id = o → f.location = loc
  | [], c, hwf, _, hloc => ⟨hwf, hloc⟩
  | call :: calls, c, hwf, ho, hloc => by
    have hstep : ∀ c1, CacheStep c c1 →
        cache_wf (run_cache_calls calls c1) ∧
          ∀ f ∈ (run_cache_calls calls c1).files, f.id = o → f.location = loc := by
      intro c1 hs
      refine run_cache_calls_keeps o loc calls c1 (hs.1 hwf)
        (lt_of_lt_of_le ho hs.2.1) ?_
      intro f hf hid
      rcases hs.2.2 f hf with ⟨g, hg, hgid, hgloc⟩ | hnew
      · rw [← hgloc]
        exact hloc g hg (by rw [hgid, hid])
      · omega
    cases call with
    | get uri => exact hstep _ (get_step c uri)
    | unref id => exact hstep _ (unref_step c id)

/-- What `nautilus_file_get_by_uri` returns: the address of an object that is alive
afterwards, below the next address, and whose location is the one of the URI. -/
theorem get_by_uri_result (c : FileCache)
    (hwf : cache_wf c) (uri : String) :
    (nautilus_file_get_by_uri c uri).2
        < (nautilus_file_get_by_uri c uri).1.next_id ∧
      ∀ f ∈ (nautilus_file_get_by_uri c uri).1.files,
        f.id = (nautilus_file_get_by_uri c uri).2 → f.location = canonical_location uri := by
  unfold nautilus_file_get_by_uri
  cases hfind : c.files.find? (fun f => f.location = canonical_location uri) with
  | some f0 =>
    have hf0 : f0 ∈ c.files := List.mem_of_find?_eq_some hfind
    have hl0 : f0.location = canonical_location uri := by
      have := List.find?_some hfind
      simpa using this
    refine ⟨hwf.2.2 f0 hf0, ?_⟩
    intro f hf hid
    obtain ⟨g, hg, hgid, hgloc⟩ := mem_map_keeps (add_ref_keeps f0.id) hf
    have : g = f0 := List.inj_on_of_nodup_map hwf.2.1 hg hf0 (by rw [hgid]; exact hid)
    rw [← hgloc, this, hl0]
  | none =>
    refine ⟨Nat.lt_succ_self _, ?_⟩
    intro f hf hid
    rcases List.mem_append.mp hf with hf | hf
    · have := hwf.2.2 f hf
      simp only at hid
      omega
    · rw [List.mem_singleton] at hf
      subst hf
      rfl

theorem block_string_c_block (s : CString) (hs : is_c_string s) : block_string (c_block s) = s := by
  unfold block_string c_block
  induction s with
  | nil => simp
  | cons c cs ih =>
    have hc : c ≠ 0 := by
      have := (hs c (List.mem_cons_self _ _)).1
      omega
    have := ih (fun x hx => hs x (List.mem_cons_of_mem _ hx))
    simp only [ne_eq, decide_not] at this
    simp [List.takeWhile_cons, hc, this]

/-- C21. The claim fails in the code: whenever `nautilus_filename_shorten_base` returns
`TRUE`, the block it allocated has exactly `reduced_length + suffix_length` bytes, the kept
part of the base and the suffix, and none of them is NUL: the allocation has no room for a
terminating NUL and the stored string is not terminated inside it. -/
theorem shorten_base_block_unterminated (f b : CString) (max_length : Int) (blk : List Nat)
    (hf : is_c_string f) (hb : is_c_string b) (hlen : strlen f < SIZE_MOD)
    (hblen : strlen b < SIZE_MOD)
    (h : nautilus_filename_shorten_base f b max_length = some (true, blk)) :
    ∃ p : CString, p <+: b ∧ blk = p ++ f.drop (strlen b) ∧
      blk.length = strlen p + (strlen f - strlen b) ∧ (∀ x ∈ blk, x ≠ 0) ∧
      block_string blk = blk := by
  obtain ⟨_, _, _, q, _, hblk⟩ := shorten_base_true_run f b max_length blk hf hb hlen hblen h
  have hnz : ∀ x ∈ blk, x ≠ 0 := by
    intro x hx
    rw [hblk] at hx
    rcases List.mem_append.mp hx with hx | hx
    · have := (hb x (List.mem_of_mem_take hx)).1
      omega
    · have := (hf x (List.mem_of_mem_drop hx)).1
      omega
  refine ⟨b.take q, List.take_prefix q b, hblk, ?_, hnz, ?_⟩
  · rw [hblk]
    simp [strlen]
  · unfold block_string
    rw [List.takeWhile_eq_self_iff]
    intro x hx
    simpa using hnz x hx

/-- C21, on the example of the test: the block for `great-text-123456789` has 20 bytes,
none of them NUL. -/
theorem shorten_base_block_unterminated_witness :
    (ascii "great-text-123456789").length = 20 ∧
      ∃ p : CString, p <+: ascii "great-text-but-sadly-too-long" ∧
        ascii "great-text-123456789" = p ++
          (ascii "great-text-but-sadly-too-long-123456789").drop
            (strlen (ascii "great-text-but-sadly-too-long")) ∧
        (ascii "great-text-123456789").length = strlen p +
          (strlen (ascii "great-text-but-sadly-too-long-123456789")
            - strlen (ascii "great-text-but-sadly-too-long")) ∧
        (∀ x ∈ ascii "great-text-123456789", x ≠ 0) ∧
        block_string (ascii "great-text-123456789") = ascii "great-text-123456789" :=
  ⟨by decide,
    shorten_base_block_unterminated (ascii "great-text-but-sadly-too-long-123456789")
      (ascii "great-text-but-sadly-too-long") 20 (ascii "great-text-123456789") (by decide)
      (by decide) (by decide) (by decide) (by decide)⟩

/-- C22, as amended. For a name `f` and a base `b` that is a prefix of `f` and does not
begin with a UTF-8 continuation byte, `nautilus_filename_shorten_base` returns `TRUE`
exactly when `max_length > 0`, `strlen (f) > max_length` and
`strlen (f) - max_length <= strlen (b)`. -/
theorem shorten_base_true_iff (f b : CString) (max_length : Int)
    (hf : is_c_string f) (hlen : strlen f < SIZE_MOD) (hpre : b <+: f)
    (hstart : is_char_start (b.getD 0 0) = true) :
    (∃ blk, nautilus_filename_shorten_base f b max_length = some (true, blk)) ↔
      (0 < max_length ∧ max_length < strlen f ∧ (strlen f : Int) - max_length ≤ strlen b) := by
  constructor
  · rintro ⟨blk, h⟩
    have hb : is_c_string b := fun x hx => hf x (hpre.subset hx)
    have hblen : strlen b < SIZE_MOD := lt_of_le_of_lt hpre.length_le hlen
    obtain ⟨h1, h2, h3, _⟩ := shorten_base_true_run f b max_length blk hf hb hlen hblen h
    exact ⟨h1, h2, h3⟩
  · rintro ⟨hmax, hgt, hex⟩
    have hbl : 0 < strlen b := by
      simp only [strlen] at hex hgt ⊢
      omega
    obtain ⟨s, rfl⟩ := hpre
    rw [shorten_base_run b s max_length hf hlen hmax hgt hex]
    obtain ⟨q, hq, _, _⟩ := shorten_search_some b
      (strlen b - (strlen (b ++ s) - max_length.toNat)) hstart (strlen b + 1) (strlen b) hbl
      (Nat.lt_succ_self _)
    exact ⟨b.take q ++ s, by rw [hq]; rfl⟩

/-- C22, on the example of the test: with the limit 20 the three conditions hold and the
call returns `TRUE`. -/
theorem shorten_base_true_iff_witness :
    ((∃ blk, nautilus_filename_shorten_base (ascii "great-text-but-sadly-too-long-123456789")
        (ascii "great-text-but-sadly-too-long") 20 = some (true, blk)) ↔
      ((0 : Int) < 20 ∧ (20 : Int) < strlen (ascii "great-text-but-sadly-too-long-123456789") ∧
        (strlen (ascii "great-text-but-sadly-too-long-123456789") : Int) - 20
          ≤ strlen (ascii "great-text-but-sadly-too-long"))) ∧
      nautilus_filename_shorten_base (ascii "great-text-but-sadly-too-long-123456789")
        (ascii "great-text-but-sadly-too-long") 20 = some (true, ascii "great-text-123456789") :=
  ⟨shorten_base_true_iff (ascii "great-text-but-sadly-too-long-123456789")
      (ascii "great-text-but-sadly-too-long") 20 (by decide) (by decide) (by decide) (by decide),
    by decide⟩

/-- C22 as stated fails: the base of two continuation bytes is a prefix of the name, the
limit 5 is positive and below the 6 bytes of the name, and the excess 1 is at most the 2
bytes of the base; but `g_utf8_find_prev_char` finds no start of a character and returns
`NULL`, and the call has no result. -/
theorem shorten_base_true_iff_counterexample :
    is_c_string fixture_continuation_name ∧
      ([0x80, 0x80] : CString) <+: fixture_continuation_name ∧
      (0 : Int) < 5 ∧ (5 : Int) < strlen fixture_continuation_name ∧
      (strlen fixture_continuation_name : Int) - 5 ≤ strlen ([0x80, 0x80] : CString) ∧
      g_utf8_find_prev_char [0x80, 0x80] 2 = none ∧
      nautilus_filename_shorten_base fixture_continuation_name [0x80, 0x80] 5 = none := by
  decide

/-- C23. When the excess `strlen (f) - max_length` is larger than `strlen (b)`, the function
returns `FALSE`, `*filename` still points to the block of the old string, which reads as
`f`, and `f` is longer than `max_length`. -/
theorem shorten_base_excess_too_large (f b : CString) (max_length : Int)
    (hf : is_c_string f) (hlen : strlen f < SIZE_MOD)
    (h : (strlen b : Int) < (strlen f : Int) - max_length) :
    nautilus_filename_shorten_base f b max_length = some (false, c_block f) ∧
      block_string (c_block f) = f ∧ max_length < strlen f := by
  refine ⟨shorten_base_early f b max_length hlen (Or.inr (Or.inr h)),
    block_string_c_block f hf, ?_⟩
  have : (0 : Int) ≤ strlen b := Int.natCast_nonneg _
  omega

/-- C23, on an example: `a-123456789` with the base `a` and the limit 5 would have to lose
6 bytes, more than the base has; the name stays as it is. -/
theorem shorten_base_excess_too_large_witness :
    (strlen (ascii "a") : Int) < (strlen (ascii "a-123456789") : Int) - 5 ∧
      nautilus_filename_shorten_base (ascii "a-123456789") (ascii "a") 5
        = some (false, c_block (ascii "a-123456789")) ∧
      block_string (c_block (ascii "a-123456789")) = ascii "a-123456789" ∧
      (5 : Int) < strlen (ascii "a-123456789") :=
  ⟨by decide,
    shorten_base_excess_too_large (ascii "a-123456789") (ascii "a") 5 (by decide) (by decide)
      (by decide)⟩

/-! ## `eel_str_get_common_prefix`: lengths beyond `int` -/

/-- C6 as stated fails: the string of `2 ^ 31` characters `a` is the longest common prefix
of the list that holds only this string, and it has at least 0 characters; but its length,
stored in an `int`, is `-2 ^ 31`, below `min_required_len = 0`, and the function returns
`NULL`. -/
theorem eel_str_get_common_prefix_longest_counterexample :
    is_longest_common_prefix fixture_long_string [fixture_long_string] ∧
      (0 : Int) ≤ fixture_long_string.length ∧
      to_int (g_utf8_strlen fixture_long_string) = -2 ^ 31 ∧
      eel_str_get_common_prefix [some fixture_long_string] 0 = none := by
  have hlen : g_utf8_strlen fixture_long_string = 2 ^ 31 := by
    unfold g_utf8_strlen fixture_long_string
    rw [List.length_replicate]
    norm_num
  have hint : to_int (g_utf8_strlen fixture_long_string) = -2 ^ 31 := by
    rw [hlen]
    unfold to_int
    norm_num
  refine ⟨⟨?_, ?_⟩, Int.natCast_nonneg _, hint, ?_⟩
  · intro s hs
    rw [List.mem_singleton] at hs
    rw [hs]
  · intro q hq
    exact (hq fixture_long_string (List.mem_singleton_self _)).length_le
  · unfold eel_str_get_common_prefix
    simp only [common_prefix_for]
    rw [hint, if_pos (by norm_num)]

end Nautilus
